import Mathlib

/-!
The upload manager of `static/upload.js`.

A shallow embedding of the `uploadManager` object: its five fields, the
synchronous part of every method, and the callbacks the browser delivers
later (file-system reads, upload progress, upload completion).

JavaScript runs each callback to completion, promise continuations included,
before the next callback starts.  One `Event` below is therefore one browser
task together with the continuations it releases, and the states connected by
`step` are exactly the states in which no handler or continuation is running.

What is not part of the source is kept apart in `State`:
* `user`, `view` are the fields of the host application's `state` object
  that the manager reads;
* `inflight`, `walks`, `sent`, `refreshes`, `draws` record what the manager
  handed to the browser (requests that are open, directory walks that are
  suspended, requests built, calls of `refreshViewData`, calls of
  `Math.random`).
-/

namespace UploadManager

/-! ## Data model -/

/-- The four values of `task.status`. -/
inductive Status where
  | pending
  | uploading
  | success
  | error
  deriving DecidableEq, Repr

/-- A browser `File`: its name and the identity of the blob behind it. -/
structure File where
  name : String
  handle : Nat
  deriving DecidableEq, Repr

/-- One element of `queue`, as pushed by `addFileToQueue`. -/
structure Task where
  id : String
  file : File
  name : String
  status : Status
  progress : Nat
  deriving DecidableEq, Repr

/-- The logged-in user, `state.user` of the host application. -/
structure User where
  userid : String
  role : String
  deriving DecidableEq, Repr

/-- The form fields `uploadFile` appends; `upload_batch_id` is the value of
`this.batchId` read at that moment (`none` is JavaScript `null`). -/
structure Request where
  index : Nat
  file : File
  fileName : String
  userid : String
  upload_batch_id : Option String
  deriving DecidableEq, Repr

/-- What `new Date()` exposes to `setNewBatchId`; `month` is `getMonth()`,
counted from 0. -/
structure DateTime where
  year : Nat
  month : Nat
  day : Nat
  hours : Nat
  minutes : Nat
  seconds : Nat
  deriving DecidableEq, Repr

/-- A `ProgressEvent` of `xhr.upload`. -/
structure ProgressEvent where
  lengthComputable : Bool
  loaded : Nat
  total : Nat
  deriving DecidableEq, Repr

/-- A `FileSystemEntry`.  A file entry carries the file that `item.file`
yields and whether that read succeeds.  A directory entry carries the batches
its reader returns on successive `readEntries` calls; once they are used up
the next call fails when `fails` is set and returns an empty batch
otherwise. -/
inductive Entry where
  | file (f : File) (readable : Bool)
  | dir (name : String) (pages : List (List Entry)) (fails : Bool)

/-- The rest of a `readEntries` callback that is waiting for a child: the
entries of the current batch still to visit, and the reader (remaining
batches, failure flag) to call again afterwards. -/
structure Frame where
  rest : List Entry
  more : List (List Entry)
  fails : Bool

/-- The browser callback a suspended `traverseFileTree` is waiting for. -/
inductive Wait where
  | file (f : File) (readable : Bool)
  | dir (pages : List (List Entry)) (fails : Bool)

/-- A `handleDropEvent` call suspended in `await this.traverseFileTree(entry)`:
the outstanding callback, the enclosing `readEntries` callbacks (innermost
first) and the entries of the `for (const entry of entries)` loop still to
come. -/
structure Walk where
  wait : Wait
  stack : List Frame
  rest : List Entry

/-- One element of `e.dataTransfer.items`: `entry` is the value of
`item.webkitGetAsEntry ? item.webkitGetAsEntry() : null`, `asFile` the value
of `item.getAsFile()`. -/
structure DataTransferItem where
  kind : String
  entry : Option Entry
  asFile : Option File

/-- The `e.dataTransfer` of a drop event; `items` is `none` when the browser
does not provide the list. -/
structure DataTransfer where
  items : Option (List DataTransferItem)
  files : List File

/-- The manager (`queue` to `gatheringFiles`), the host fields it reads and
the bookkeeping of what is outstanding in the browser. -/
structure State where
  queue : List Task
  activeUploads : Int
  maxConcurrent : Int
  batchId : Option String
  gatheringFiles : Bool
  user : Option User
  view : String
  inflight : List Nat
  walks : List Walk
  sent : List Request
  refreshes : Nat
  draws : Nat

/-- The object literal at the top of `upload.js`, in a page where nobody is
logged in yet and `view` has the given start value. -/
def init (view : String) : State :=
  { queue := [], activeUploads := 0, maxConcurrent := 3, batchId := none,
    gatheringFiles := false, user := none, view := view, inflight := [],
    walks := [], sent := [], refreshes := 0, draws := 0 }

/-! ## Helpers standing for JavaScript built-ins -/

/-- The index of the last occurrence of `c`, or `-1`
(`String.prototype.lastIndexOf` with a one-character argument). -/
def lastIndexOf (c : Char) : List Char → Int
  | [] => -1
  | x :: xs =>
    let r := lastIndexOf c xs
    if 0 ≤ r then r + 1 else if x = c then 0 else -1

/-- The characters from `start` on; a negative `start` counts as 0
(`String.prototype.substring` with one argument). -/
def substring (s : List Char) (start : Int) : List Char :=
  s.drop start.toNat

/-- The Unicode character U+212A KELVIN SIGN, whose lower-case form is the
ASCII letter `k`. -/
def kelvinSign : Char :=
  Char.ofNat 8490

/-- The lower-case form of a character where that form is ASCII: the letters
`A` to `Z` and the Kelvin sign are the only characters whose lower-case form
is an ASCII letter.  Every other character is kept. -/
def lowerChar (c : Char) : Char :=
  if c = kelvinSign then 'k' else c.toLower

/-- The method `String.prototype.toLowerCase`, exact wherever the result is
ASCII text.  A character outside ASCII other than the Kelvin sign is kept
here; Unicode may replace it by other characters, at least one of which is
again outside ASCII, so a comparison of the result with ASCII text comes out
the same (`lowerWith_eq_iff` below, for every case mapping `AsciiExact`). -/
def toLowerCase (s : List Char) : List Char :=
  s.map lowerChar

/-- The index of the first task satisfying `p` (`Array.prototype.find`,
returning the position of the object found). -/
def findIndex (p : Task → Bool) : List Task → Option Nat
  | [] => none
  | t :: ts => if p t then some 0 else (findIndex p ts).map (· + 1)

/-- Mutation of the task object at position `i`; other positions, and a
position outside the queue, are left alone. -/
def updateAt (f : Task → Task) : Nat → List Task → List Task
  | _, [] => []
  | 0, t :: ts => f t :: ts
  | n + 1, t :: ts => t :: updateAt f n ts

/-- The value of `n.toString().padStart(2, '0')`. -/
def format (n : Nat) : String :=
  let d := (Nat.repr n).toList
  String.mk (List.replicate (2 - d.length) '0' ++ d)

/-- The integer nearest to `x`, the even one of the two when `x` lies halfway:
the rounding of the significand in IEEE 754 binary64 arithmetic. -/
def roundHalfEven (x : ℚ) : ℤ :=
  if x - ⌊x⌋ < 1 / 2 then ⌊x⌋
  else if 1 / 2 < x - ⌊x⌋ then ⌊x⌋ + 1
  else if ⌊x⌋ % 2 = 0 then ⌊x⌋ else ⌊x⌋ + 1

/-- The JavaScript Number (IEEE 754 binary64) nearest to a rational `x`, as
the exact rational it stands for: with `2 ^ e ≤ x < 2 ^ (e + 1)` the 53-bit
significand `x / 2 ^ (e - 52)` is rounded to the nearest integer, ties to
even.  Exponent limits are left out (no byte count or quotient of byte counts
comes near them); a non-positive `x` gives 0. -/
def toDouble (x : ℚ) : ℚ :=
  if x ≤ 0 then 0
  else (roundHalfEven (x * 2 ^ (52 - Int.log 2 x)) : ℚ) * 2 ^ (Int.log 2 x - 52)

/-- The function `Math.round` on a Number: the nearest integer, the larger one
of the two when `x` lies halfway. -/
def mathRound (x : ℚ) : ℤ :=
  ⌊x + 1 / 2⌋

/-- The value of `Math.round((e.loaded / e.total) * 100)` for `total > 0`: the
two byte counts become Numbers, the division and the multiplication each round
their exact result to the nearest Number, and `Math.round` rounds the product
to an integer. -/
def roundPercent (loaded total : Nat) : Nat :=
  (mathRound (toDouble (toDouble (toDouble loaded / toDouble total) * 100))).toNat

/-! ## The methods of `uploadManager` -/

/-- The array `allowed` of `addFileToQueue`. -/
def allowed : List String :=
  [".jpg", ".jpeg", ".png", ".gif", ".bmp", ".webp", ".heic", ".mp4", ".mov", ".avi", ".mkv"]

/-- The constant `ext` of `addFileToQueue`:
`name.substring(name.lastIndexOf('.')).toLowerCase()`. -/
def extOf (name : String) : String :=
  String.mk (toLowerCase (substring name.toList (lastIndexOf '.' name.toList)))

/-- The test `allowed.includes(ext)`. -/
def isMedia (name : String) : Bool :=
  allowed.contains (extOf name)

/-- The template string of `setNewBatchId`: year, then month, day, an
underscore, hours, minutes and seconds, the last five through `format`. -/
def timestamp (now : DateTime) : String :=
  Nat.repr now.year ++ format (now.month + 1) ++ format now.day ++ "_"
    ++ format now.hours ++ format now.minutes ++ format now.seconds

/-- The method `setNewBatchId` with `now` the value of `new Date()`. -/
def setNewBatchId (s : State) (now : DateTime) : State :=
  { s with batchId := some (timestamp now) }

/-- The predicate of the two `filter` calls: pending or uploading. -/
def isOpen (q : Task) : Bool :=
  q.status == Status.pending || q.status == Status.uploading

/-- The host function `refreshViewData`, seen from the manager: a call is
counted. -/
def refreshViewData (s : State) : State :=
  { s with refreshes := s.refreshes + 1 }

/-- The method `updateUI`.  `updateTabUI` only writes to the page and is left
out. -/
def updateUI (s : State) : State :=
  let pending := (s.queue.filter isOpen).length
  if pending == 0 && !s.gatheringFiles && s.batchId != none then
    let s1 := if s.view == "files" || s.view == "photos" then refreshViewData s else s
    { s1 with batchId := none }
  else s

/-- The method `uploadFile` up to `xhr.send`, for the task at position `i`.
Reading `state.user.userid` throws when nobody is logged in; the promise is
then rejected, no request exists and the caller never resumes. -/
def uploadFile (s : State) (i : Nat) : State :=
  match s.user, s.queue.get? i with
  | some u, some item =>
    { s with
      sent := s.sent ++ [{ index := i, file := item.file, fileName := item.file.name,
                           userid := u.userid, upload_batch_id := s.batchId }],
      inflight := s.inflight ++ [i] }
  | _, _ => s

/-- The method `processQueue` up to `await this.uploadFile(next)`. -/
def processQueue (s : State) : State :=
  if s.activeUploads ≥ s.maxConcurrent then s
  else
    match findIndex (fun q => q.status == Status.pending) s.queue with
    | none => s
    | some next =>
      let s1 := { s with queue := updateAt (fun t => { t with status := Status.uploading }) next s.queue }
      let s2 := { s1 with activeUploads := s1.activeUploads + 1 }
      uploadFile (updateUI s2) next

/-- The rest of `processQueue`, run when the awaited upload has resolved. -/
def afterUpload (s : State) : State :=
  processQueue (updateUI { s with activeUploads := s.activeUploads - 1 })

/-- The method `addFileToQueue`; `rand k` is the identifier obtained from the
`k`-th call of `Math.random`. -/
def addFileToQueue (rand : Nat → String) (s : State) (file : File) : State :=
  if !isMedia file.name then s
  else
    let id := rand s.draws
    let s1 := { s with
      draws := s.draws + 1,
      queue := s.queue ++ [{ id := id, file := file, name := file.name,
                             status := Status.pending, progress := 0 }] }
    processQueue (updateUI s1)

/-- The first two statements of `handleDropEvent` and of `handleFilesInput`:
`this.gatheringFiles = true; if (!this.batchId) this.setNewBatchId();`.
An empty string is falsy as well. -/
def beginIngest (s : State) (now : DateTime) : State :=
  let s1 := { s with gatheringFiles := true }
  if s1.batchId == none || s1.batchId == some "" then setNewBatchId s1 now else s1

/-- The last three statements of `handleDropEvent` and of `handleFilesInput`:
`this.gatheringFiles = false; this.processQueue(); this.updateUI();`. -/
def endIngest (s : State) : State :=
  updateUI (processQueue { s with gatheringFiles := false })

/-- The method `handleFilesInput`. -/
def handleFilesInput (rand : Nat → String) (s : State) (now : DateTime)
    (filesList : List File) : State :=
  endIngest (filesList.foldl (addFileToQueue rand) (beginIngest s now))

/-- The items of `e.dataTransfer.items` with `item.kind === 'file'`. -/
def fileItems (items : List DataTransferItem) : List DataTransferItem :=
  items.filter (fun it => it.kind == "file")

/-- The array `entries` that `handleDropEvent` collects. -/
def dropEntries (dt : DataTransfer) : List Entry :=
  match dt.items with
  | some items => (fileItems items).filterMap (fun it => it.entry)
  | none => []

/-- The array `fallbackFiles` that `handleDropEvent` collects; `none` is a
`null` returned by `getAsFile`. -/
def fallbackFiles (dt : DataTransfer) : List (Option File) :=
  match dt.items with
  | some items => ((fileItems items).filter (fun it => it.entry.isNone)).map (fun it => it.asFile)
  | none => dt.files.map some

/-- The loop `for (const file of fallbackFiles) if (file) this.addFileToQueue(file)`. -/
def addFallback (rand : Nat → String) (s : State) (files : List (Option File)) : State :=
  files.foldl (fun acc f => match f with
    | some file => addFileToQueue rand acc file
    | none => acc) s

/-- The method `traverseFileTree` up to its first `await`: a file entry asks
for its file, a directory entry creates a reader and asks for a batch. -/
def traverseFileTree (item : Entry) (stack : List Frame) (rest : List Entry) : Walk :=
  match item with
  | Entry.file f readable => { wait := Wait.file f readable, stack := stack, rest := rest }
  | Entry.dir _ pages fails => { wait := Wait.dir pages fails, stack := stack, rest := rest }

/-- What runs when a `traverseFileTree` call has returned: the enclosing
`readEntries` callback visits its next entry or, when its batch is done, reads
the next batch; with no enclosing callback the loop of `handleDropEvent`
visits its next entry or, when there is none, the handler finishes. -/
def resume (s : State) (stack : List Frame) (rest : List Entry) : State × Option Walk :=
  match stack with
  | { rest := e :: es, more := more, fails := fails } :: stk =>
    (s, some (traverseFileTree e ({ rest := es, more := more, fails := fails } :: stk) rest))
  | { rest := [], more := more, fails := fails } :: stk =>
    (s, some { wait := Wait.dir more fails, stack := stk, rest := rest })
  | [] =>
    match rest with
    | e :: es => (s, some (traverseFileTree e [] es))
    | [] => (endIngest s, none)

/-- The callback a suspended walk is waiting for, with everything it releases.
`none`: the read failed and `readEntries` was given no error callback, so
nothing is ever called. -/
def onCallback (rand : Nat → String) (s : State) (w : Walk) : Option (State × Option Walk) :=
  match w.wait with
  | Wait.file f true => some (resume (addFileToQueue rand s f) w.stack w.rest)
  | Wait.file _ false => some (resume s w.stack w.rest)
  | Wait.dir [] false => some (resume s w.stack w.rest)
  | Wait.dir [] true => none
  | Wait.dir ([] :: _) _ => some (resume s w.stack w.rest)
  | Wait.dir ((e :: es) :: more) fails =>
    some (s, some (traverseFileTree e ({ rest := es, more := more, fails := fails } :: w.stack) w.rest))

/-- Bookkeeping: the walk at position `k` is replaced by its new suspension,
or removed when its handler has finished. -/
def park (k : Nat) (r : State × Option Walk) : State :=
  match r.2 with
  | some w => { r.1 with walks := r.1.walks.set k w }
  | none => { r.1 with walks := r.1.walks.eraseIdx k }

/-- The method `handleDropEvent` up to its first `await` (or to its end when
there is no entry to traverse). -/
def handleDropEvent (rand : Nat → String) (s : State) (now : DateTime)
    (dt : DataTransfer) : State :=
  let s1 := addFallback rand (beginIngest s now) (fallbackFiles dt)
  match dropEntries dt with
  | [] => endIngest s1
  | e :: es => { s1 with walks := s1.walks ++ [traverseFileTree e [] es] }

/-- The handler `xhr.upload.onprogress` of the request for the task at `i`. -/
def onprogress (s : State) (i : Nat) (e : ProgressEvent) : State :=
  if e.lengthComputable then
    updateUI { s with
      queue := updateAt (fun t => { t with progress := roundPercent e.loaded e.total }) i s.queue }
  else s

/-- The handler `xhr.onload` of the request for the task at `i`. -/
def onload (s : State) (i : Nat) (status : Nat) : State :=
  if status = 200 then
    { s with queue := updateAt (fun t => { t with status := Status.success, progress := 100 }) i s.queue }
  else
    { s with queue := updateAt (fun t => { t with status := Status.error }) i s.queue }

/-- The handler `xhr.onerror` of the request for the task at `i`. -/
def onerror (s : State) (i : Nat) : State :=
  { s with queue := updateAt (fun t => { t with status := Status.error }) i s.queue }

/-! ## Events -/

/-- What can happen to the page.  `login` and `navigate` are the host
application writing `state.user` and `state.view`; `addFile` and `dispatch`
are direct calls of `addFileToQueue` and `processQueue`; the others are the
two ingest handlers and the callbacks of the browser. -/
inductive Event where
  | login (u : User)
  | navigate (view : String)
  | addFile (f : File)
  | dispatch
  | filesInput (now : DateTime) (files : List File)
  | drop (now : DateTime) (dt : DataTransfer)
  | fsCallback (k : Nat)
  | progress (i : Nat) (e : ProgressEvent)
  | load (i : Nat) (status : Nat)
  | error (i : Nat)

/-- One event, run to completion.  `none`: the browser cannot deliver this
event in this state (no such walk or request; a read that failed without an
error callback; a progress event that claims a computable length of 0, which
`XMLHttpRequest` never fires). -/
def step (rand : Nat → String) (s : State) : Event → Option State
  | Event.login u => some { s with user := some u }
  | Event.navigate v => some { s with view := v }
  | Event.addFile f => some (addFileToQueue rand s f)
  | Event.dispatch => some (processQueue s)
  | Event.filesInput now files => some (handleFilesInput rand s now files)
  | Event.drop now dt => some (handleDropEvent rand s now dt)
  | Event.fsCallback k =>
    match s.walks[k]? with
    | none => none
    | some w => (onCallback rand s w).map (park k)
  | Event.progress i e =>
    if i ∈ s.inflight ∧ (e.lengthComputable = true → e.total ≠ 0) then some (onprogress s i e)
    else none
  | Event.load i status =>
    if i ∈ s.inflight then
      some (afterUpload (onload { s with inflight := s.inflight.erase i } i status))
    else none
  | Event.error i =>
    if i ∈ s.inflight then
      some (afterUpload (onerror { s with inflight := s.inflight.erase i } i))
    else none

/-- The events of a list, one after the other. -/
def run (rand : Nat → String) (s : State) : List Event → Option State
  | [] => some s
  | e :: es => (step rand s e).bind (fun s1 => run rand s1 es)

/-- The states the page can be in between two events, from a fresh page. -/
inductive Reachable (rand : Nat → String) (view : String) : State → Prop where
  | init : Reachable rand view (init view)
  | step {s s1 : State} (e : Event) : Reachable rand view s → step rand s e = some s1 →
      Reachable rand view s1

/-! ## Notions used in the statements -/

/-- The number of tasks with status `uploading`. -/
def uploadingCount (q : List Task) : Nat :=
  (q.filter (fun t => t.status == Status.uploading)).length

/-- The invariant behind the bound on concurrent uploads: the counter
`activeUploads` covers the uploading tasks and stays within `maxConcurrent`,
and every open request belongs to an uploading task, once. -/
structure Inv (s : State) : Prop where
  count_le : (uploadingCount s.queue : Int) ≤ s.activeUploads
  active_le : s.activeUploads ≤ s.maxConcurrent
  max_eq : s.maxConcurrent = 3
  nodup : s.inflight.Nodup
  inflight_uploading : ∀ i ∈ s.inflight, ∃ t, s.queue[i]? = some t ∧ t.status = Status.uploading

/-- The state `processQueue` has built when it calls `uploadFile`. -/
def claimed (s : State) (next : Nat) : State :=
  updateUI { s with
    queue := updateAt (fun t => { t with status := Status.uploading }) next s.queue,
    activeUploads := s.activeUploads + 1 }


/-- The allowed media set as the specification lists it, without the dots. -/
def specMediaSet : List String :=
  ["jpg", "jpeg", "png", "gif", "bmp", "webp", "heic", "mp4", "mov", "avi", "mkv"]

/-- The filter in the words of the specification: the name contains a `.`,
and the lower-cased text after its final `.` is in the allowed media set. -/
def specAllowed (name : String) : Prop :=
  ∃ pre suf : List Char, name.toList = pre ++ '.' :: suf ∧ '.' ∉ suf ∧
    String.mk (toLowerCase suf) ∈ specMediaSet

/-- Lower-casing of a text under a given case mapping: `lower before c after`
is what the character `c` becomes between the texts `before` and `after`. -/
def lowerWith (lower : List Char → Char → List Char → List Char) :
    List Char → List Char → List Char
  | _, [] => []
  | before, c :: after => lower before c after ++ lowerWith lower (before ++ [c]) after

/-- What the Unicode lower-case mapping does as far as ASCII is concerned: an
ASCII character becomes its ASCII lower-case form, the Kelvin sign becomes
`k`, and any other character becomes a text with a character outside ASCII in
it, whatever stands around it. -/
structure AsciiExact (lower : List Char → Char → List Char → List Char) : Prop where
  ascii : ∀ before c after, c.toNat < 128 → lower before c after = [c.toLower]
  kelvin : ∀ before after, lower before kelvinSign after = ['k']
  other : ∀ before c after, 128 ≤ c.toNat → c ≠ kelvinSign →
    ∃ d ∈ lower before c after, 128 ≤ d.toNat

/-- The test of `addFileToQueue` under a given case mapping. -/
def isMediaWith (lower : List Char → Char → List Char → List Char) (name : String) : Bool :=
  allowed.contains
    (String.mk (lowerWith lower [] (substring name.toList (lastIndexOf '.' name.toList))))

/-- The filter in the words of the specification under a given case mapping. -/
def specAllowedWith (lower : List Char → Char → List Char → List Char) (name : String) : Prop :=
  ∃ pre suf : List Char, name.toList = pre ++ '.' :: suf ∧ '.' ∉ suf ∧
    String.mk (lowerWith lower [] suf) ∈ specMediaSet

/-- A sample file whose extension is written with the Kelvin sign:
`clip.m` followed by U+212A and `v`. -/
def sampleKelvin : File :=
  { name := String.mk ("clip.m".toList ++ [kelvinSign, 'v']), handle := 7 }

/-- The fields of a task that scheduling never writes: identifier, file,
name and progress. -/
def Task.core (t : Task) : String × File × String × Nat :=
  (t.id, t.file, t.name, t.progress)

/-- The statuses of the tasks, in queue order. -/
def statuses (q : List Task) : List Status :=
  q.map (fun t => t.status)

/-- The queue of a manager that was idle before `k` media files were added:
the first `min k 3` tasks are uploading, the others pending, and the counter
agrees. -/
def Filled (k : Nat) (s : State) : Prop :=
  s.maxConcurrent = 3 ∧ s.activeUploads = ((min k 3 : Nat) : Int) ∧
    statuses s.queue = List.replicate (min k 3) Status.uploading
      ++ List.replicate (k - min k 3) Status.pending

/-- The status of the task at position `k`, if there is one. -/
def statusAt (q : List Task) (k : Nat) : Option Status :=
  (q[k]?).map (fun t => t.status)

/-- One move of a status that the life cycle allows: staying, `pending` to
`uploading`, `uploading` to `success` or `error`. -/
def Status.forward : Status → Status → Bool
  | Status.pending, Status.pending => true
  | Status.pending, Status.uploading => true
  | Status.uploading, Status.uploading => true
  | Status.uploading, Status.success => true
  | Status.uploading, Status.error => true
  | Status.success, Status.success => true
  | Status.error, Status.error => true
  | _, _ => false

/-- What scheduling may do to the tasks of `s` on the way to `s1`: every task
keeps its status or goes from `pending` to `uploading`. -/
def Dispatched (s s1 : State) : Prop :=
  ∀ k a, statusAt s.queue k = some a →
    statusAt s1.queue k = some a ∨
      (a = Status.pending ∧ statusAt s1.queue k = some Status.uploading)

/-- The settled-batch invariant: with no task pending or uploading and no
gathering in progress, no batch is active. -/
def Settled (s : State) : Prop :=
  (∀ t ∈ s.queue, isOpen t = false) → s.gatheringFiles = false → s.batchId = none

/-! ## Measures of a directory walk -/

mutual
/-- The files of all file entries of a tree, in traversal order. -/
def Entry.files : Entry → List File
  | Entry.file f _ => [f]
  | Entry.dir _ pages _ => filesOfPages pages
/-- The files below the batches of a reader. -/
def filesOfPages : List (List Entry) → List File
  | [] => []
  | p :: ps => filesOfList p ++ filesOfPages ps
/-- The files below the entries of one batch. -/
def filesOfList : List Entry → List File
  | [] => []
  | e :: es => e.files ++ filesOfList es
end

mutual
/-- The number of browser callbacks the traversal of a tree waits for: one
per file, and per directory one for each batch and one for the closing empty
batch. -/
def Entry.reads : Entry → Nat
  | Entry.file _ _ => 1
  | Entry.dir _ pages _ => readsOfPages pages
/-- The callbacks for the remaining batches of a reader, the closing one
included. -/
def readsOfPages : List (List Entry) → Nat
  | [] => 1
  | p :: ps => 1 + readsOfList p + readsOfPages ps
/-- The callbacks for the entries of one batch. -/
def readsOfList : List Entry → Nat
  | [] => 0
  | e :: es => e.reads + readsOfList es
end

mutual
/-- A tree all of whose reads succeed and whose readers behave: every file
read succeeds, no directory read fails, and every batch before the closing
empty one is non-empty. -/
def Entry.ok : Entry → Bool
  | Entry.file _ readable => readable
  | Entry.dir _ pages fails => !fails && okPages pages
/-- The batches of a well-behaved reader. -/
def okPages : List (List Entry) → Bool
  | [] => true
  | p :: ps => !p.isEmpty && okList p && okPages ps
/-- The entries of a batch are well-behaved trees. -/
def okList : List Entry → Bool
  | [] => true
  | e :: es => e.ok && okList es
end

/-- The files a suspended callback frame will still visit. -/
def Frame.files (fr : Frame) : List File :=
  filesOfList fr.rest ++ filesOfPages fr.more

/-- The callbacks a suspended frame still waits for. -/
def Frame.reads (fr : Frame) : Nat :=
  readsOfList fr.rest + readsOfPages fr.more

/-- A frame over well-behaved entries and a well-behaved reader. -/
def Frame.ok (fr : Frame) : Bool :=
  okList fr.rest && okPages fr.more && !fr.fails

/-- The files of all frames of a stack, innermost first. -/
def filesOfStack : List Frame → List File
  | [] => []
  | fr :: stk => fr.files ++ filesOfStack stk

/-- The callbacks all frames of a stack wait for. -/
def readsOfStack : List Frame → Nat
  | [] => 0
  | fr :: stk => fr.reads + readsOfStack stk

/-- All frames of a stack are well-behaved. -/
def okStack : List Frame → Bool
  | [] => true
  | fr :: stk => fr.ok && okStack stk

/-- The files a walk will still enqueue or skip. -/
def Walk.files (w : Walk) : List File :=
  (match w.wait with
    | Wait.file f _ => [f]
    | Wait.dir pages _ => filesOfPages pages) ++ filesOfStack w.stack ++ filesOfList w.rest

/-- The callbacks a walk still waits for. -/
def Walk.reads (w : Walk) : Nat :=
  (match w.wait with
    | Wait.file _ _ => 1
    | Wait.dir pages _ => readsOfPages pages) + readsOfStack w.stack + readsOfList w.rest

/-- A walk whose outstanding read and whose remaining entries are all
well-behaved. -/
def Walk.ok (w : Walk) : Bool :=
  (match w.wait with
    | Wait.file _ readable => readable
    | Wait.dir pages fails => !fails && okPages pages) && okStack w.stack && okList w.rest

/-- The files still to come after a callback: those of the new suspension,
none when the handler has finished. -/
def filesLeft : Option Walk → List File
  | some w => w.files
  | none => []

/-- The callbacks still to come. -/
def readsLeft : Option Walk → Nat
  | some w => w.reads
  | none => 0

/-- The new suspension, if any, is well-behaved. -/
def okLeft : Option Walk → Bool
  | some w => w.ok
  | none => true

/-- The files of the tasks, in queue order. -/
def queueFiles (s : State) : List File :=
  s.queue.map (fun t => t.file)

/-- The media files of a list. -/
def mediaOf (fs : List File) : List File :=
  fs.filter (fun f => isMedia f.name)

/-- A drop of the single entry `root`. -/
def dropOf (root : Entry) : DataTransfer :=
  { items := some [{ kind := "file", entry := some root, asFile := none }], files := [] }

/-- The percentage in the words of the specification, `round(sent / total * 100)`
with halves rounded up, computed on the exact quotient. -/
def specRoundHalfUp (sent total : Nat) : Nat :=
  (200 * sent + total) / (2 * total)

/-! ## Sample inputs -/

/-- A sample random source: the `k`-th identifier is `id` followed by `k`. -/
def sampleRand (k : Nat) : String :=
  "id" ++ Nat.repr k

/-- A sample local time, 5 January 2024, 07:08:09. -/
def sampleTime : DateTime :=
  { year := 2024, month := 0, day := 5, hours := 7, minutes := 8, seconds := 9 }

/-- A sample picked list of `n` photos, `p0.JPG`, `p1.JPG`, ... -/
def samplePhotos (n : Nat) : List File :=
  (List.range n).map (fun i => { name := "p" ++ Nat.repr i ++ ".JPG", handle := i })

/-- A sample logged-in user. -/
def sampleUser : User :=
  { userid := "u1", role := "user" }

/-- A fresh page on which the sample user has logged in. -/
def sampleLoggedIn : State :=
  { init "files" with user := some sampleUser }

/-- A sample busy manager: the sample user has picked five photos, three
uploads are running and two tasks wait. -/
def sampleBusy : State :=
  handleFilesInput sampleRand sampleLoggedIn sampleTime (samplePhotos 5)

/-- A sample manager with one upload running: the sample user has picked one
photo. -/
def sampleOne : State :=
  handleFilesInput sampleRand sampleLoggedIn sampleTime (samplePhotos 1)

/-- A sample finished manager: the upload of `sampleOne` has completed with
HTTP status 200. -/
def sampleDone : State :=
  afterUpload (onload { sampleOne with inflight := sampleOne.inflight.erase 0 } 0 200)

/-- A sample drop: one directory `album` whose reader returns the photo
`a.jpg` in its first batch. -/
def sampleDrop : DataTransfer :=
  { items := some [{ kind := "file",
                     entry := some (Entry.dir "album"
                       [[Entry.file { name := "a.jpg", handle := 1 } true]] false),
                     asFile := none }],
    files := [] }

/-- A sample tree: the directory `trip` with two photos, returned in two
batches, and the subdirectory `day2` with a photo and a video. -/
def sampleTree : Entry :=
  Entry.dir "trip"
    [[Entry.file { name := "a.jpg", handle := 1 } true,
      Entry.dir "day2"
        [[Entry.file { name := "c.png", handle := 3 } true],
         [Entry.file { name := "d.MP4", handle := 4 } true]] false],
     [Entry.file { name := "b.jpeg", handle := 2 } true]] false

/-- A sample file that is not a media file. -/
def sampleNote : File :=
  { name := "notes.txt", handle := 9 }

/-! ## Transport outcomes and further samples -/

/-- How the transport of one request ends: with a response carrying an HTTP
status (the browser calls `xhr.onload`) or with a network error (the browser
calls `xhr.onerror`). -/
inductive Outcome where
  | response (status : Nat)
  | networkError
  deriving DecidableEq, Repr

/-- The event by which the browser reports an outcome for the request of the
task at `i`. -/
def Outcome.event (i : Nat) : Outcome → Event
  | Outcome.response status => Event.load i status
  | Outcome.networkError => Event.error i

/-- The status the two completion handlers write for an outcome: `success`
for a response with status 200, `error` otherwise. -/
def Outcome.result : Outcome → Status
  | Outcome.response status => if status = 200 then Status.success else Status.error
  | Outcome.networkError => Status.error

/-- The events that enqueue files: direct enqueues and the two ingests. -/
def Event.isIngest : Event → Bool
  | Event.addFile _ => true
  | Event.filesInput _ _ => true
  | Event.drop _ _ => true
  | _ => false

/-- A sample drop of two entries: the directory `locked`, whose first
`readEntries` call fails, and after it the photo `b.jpg`. -/
def sampleLockedDrop : DataTransfer :=
  { items := some [{ kind := "file", entry := some (Entry.dir "locked" [] true), asFile := none },
                   { kind := "file",
                     entry := some (Entry.file { name := "b.jpg", handle := 2 } true),
                     asFile := none }],
    files := [] }

/-- The walk of `sampleLockedDrop` after the drop: waiting for the directory
read that fails, with `b.jpg` still to come. -/
def sampleLockedWalk : Walk :=
  { wait := Wait.dir [] true, stack := [],
    rest := [Entry.file { name := "b.jpg", handle := 2 } true] }

/-- The sample page right after `sampleLockedDrop` was dropped by the sample
user. -/
def sampleLocked : State :=
  handleDropEvent sampleRand sampleLoggedIn sampleTime sampleLockedDrop

/-- What the completion handler of an outcome writes into its task: `onload`
with status 200 sets `success` and progress 100, `onload` with another status
and `onerror` set `error`. -/
def Outcome.write : Outcome → Task → Task
  | Outcome.response status, t =>
    if status = 200 then { t with status := Status.success, progress := 100 }
    else { t with status := Status.error }
  | Outcome.networkError, t => { t with status := Status.error }

/-- The completion handler itself, `xhr.onload` or `xhr.onerror`, for the
request of the task at `i`, without the continuation it releases. -/
def Outcome.handler (s : State) (i : Nat) : Outcome → State
  | Outcome.response status => onload s i status
  | Outcome.networkError => onerror s i

/-! ## Draining the queue -/

/-- The number of tasks that are pending or uploading. -/
def openCount (q : List Task) : Nat :=
  (q.filter isOpen).length

/-- A manager all of whose started uploads have their request: a user is
logged in, `maxConcurrent` is positive, `activeUploads` counts the open
requests and is within `maxConcurrent`, and the tasks with an open request are
exactly the uploading ones. -/
structure Tracked (s : State) : Prop where
  user : s.user.isSome = true
  max_pos : 0 < s.maxConcurrent
  active_eq : s.activeUploads = (s.inflight.length : Int)
  active_le : s.activeUploads ≤ s.maxConcurrent
  nodup : s.inflight.Nodup
  inflight_iff : ∀ i, i ∈ s.inflight ↔ statusAt s.queue i = some Status.uploading

/-- A pending task never waits alone: when a task is pending some request is
open. -/
def Fed (s : State) : Prop :=
  (∃ k, statusAt s.queue k = some Status.pending) → s.inflight ≠ []

/-- Delivery of completions until no request is open, at most `fuel` of them:
`pick` chooses which open request completes next and `out` is the outcome
assigned to each task. -/
def drain (rand : Nat → String) (pick : State → Nat) (out : Nat → Outcome) :
    Nat → State → Option State
  | 0, s => some s
  | fuel + 1, s =>
    if s.inflight = [] then some s
    else (step rand s ((out (pick s)).event (pick s))).bind (drain rand pick out fuel)

/-- The status the task at position `k` must end with: the result of its
assigned outcome while it is pending or uploading, its own status once it is
`success` or `error`. -/
def finalStatus (out : Nat → Outcome) (k : Nat) (t : Task) : Status :=
  if isOpen t then (out k).result else t.status

/-- A sample assignment of outcomes: the task at position 1 meets a network
error, the task at position 3 is answered with status 500, all others with
status 200. -/
def sampleOutcomes (k : Nat) : Outcome :=
  if k = 1 then Outcome.networkError
  else if k = 3 then Outcome.response 500
  else Outcome.response 200

/-- A sample order of completion: the request opened last completes first. -/
def sampleNewestFirst (s : State) : Nat :=
  s.inflight.getLast?.getD 0

/-! ## The batch identifier, digit by digit -/

/-- The two decimal digits of a number below 100, tens first. -/
def twoDigits (n : Nat) : List Char :=
  [Nat.digitChar (n / 10), Nat.digitChar (n % 10)]

/-- The four decimal digits of a number below 10000, thousands first. -/
def fourDigits (n : Nat) : List Char :=
  [Nat.digitChar (n / 1000), Nat.digitChar (n / 100 % 10), Nat.digitChar (n / 10 % 10),
    Nat.digitChar (n % 10)]

/-- The format `YYYYMMDD_HHMMSS` written out digit by digit: four digits of
the year, two of the month counted from 1, two of the day, an underscore, and
two each of hours, minutes and seconds. -/
def specStamp (d : DateTime) : String :=
  String.mk (fourDigits d.year ++ (twoDigits (d.month + 1) ++ (twoDigits d.day ++ ('_' ::
    (twoDigits d.hours ++ (twoDigits d.minutes ++ twoDigits d.seconds))))))

/-- A local date-time with a four-digit year: fields as `Date` reports them,
the month counted from 0. -/
def DateTime.valid (d : DateTime) : Prop :=
  1000 ≤ d.year ∧ d.year ≤ 9999 ∧ d.month ≤ 11 ∧ 1 ≤ d.day ∧ d.day ≤ 31 ∧
    d.hours ≤ 23 ∧ d.minutes ≤ 59 ∧ d.seconds ≤ 59

/-- Validity of a date-time can be computed. -/
instance DateTime.decidableValid (d : DateTime) : Decidable d.valid := by
  unfold DateTime.valid
  infer_instance

/-- Chronological order of two date-times: the order of the first field, from
year down to seconds, in which they differ. -/
def DateTime.before (a b : DateTime) : Prop :=
  a.year < b.year ∨ (a.year = b.year ∧
    (a.month < b.month ∨ (a.month = b.month ∧
      (a.day < b.day ∨ (a.day = b.day ∧
        (a.hours < b.hours ∨ (a.hours = b.hours ∧
          (a.minutes < b.minutes ∨ (a.minutes = b.minutes ∧ a.seconds < b.seconds)))))))))

/-- Chronological order can be computed. -/
instance DateTime.decidableBefore (a b : DateTime) : Decidable (a.before b) := by
  unfold DateTime.before
  infer_instance

/-- A sample time one second after `sampleTime`. -/
def sampleLater : DateTime :=
  { sampleTime with seconds := 10 }

/-! ## Progress values -/

/-- Every task of the queue has a progress in 0..100. -/
def InRange (s : State) : Prop :=
  ∀ t ∈ s.queue, t.progress ≤ 100

/-- A progress event reports no more bytes sent than its total, as the
`ProgressEvent` of an upload does (it counts the bytes of the request body);
every other event passes. -/
def Event.bounded : Event → Bool
  | Event.progress _ e => decide (e.loaded ≤ e.total)
  | _ => true

/-- The progress events of the request for the task at `i`, with a fixed total
and one event per count of bytes sent. -/
def progressEvents (i total : Nat) (sents : List Nat) : List Event :=
  sents.map (fun n => Event.progress i { lengthComputable := true, loaded := n, total := total })

/-- The progress that the task at `i` shows after each event of a list, as far
as the events are delivered. -/
def progressTrace (rand : Nat → String) (i : Nat) : State → List Event → List (Option Nat)
  | _, [] => []
  | s, e :: es =>
    match step rand s e with
    | none => []
    | some s1 => (s1.queue[i]?).map Task.progress :: progressTrace rand i s1 es

/-- A sample progress event: 23 of 40 bytes sent. -/
def sampleProgress : ProgressEvent :=
  { lengthComputable := true, loaded := 23, total := 40 }

/-- The only task of `sampleOne`, which is being uploaded. -/
def sampleTask : Task :=
  { id := "id0", file := { name := "p0.JPG", handle := 0 }, name := "p0.JPG",
    status := Status.uploading, progress := 0 }

/-- The sample busy manager at the point where the first upload has failed
with a network error and the continuation of `processQueue` has released its
slot and is about to call `processQueue` again: one failed task, two uploads
running, two tasks waiting. -/
def sampleFreed : State :=
  let m := onerror { sampleBusy with inflight := sampleBusy.inflight.erase 0 } 0
  updateUI { m with activeUploads := m.activeUploads - 1 }

/-! ## The counter and the queue -/

/-- The number of tasks with status `pending`. -/
def pendingCount (q : List Task) : Nat :=
  (q.filter (fun t => t.status == Status.pending)).length

/-- The counter `activeUploads` is the number of uploading tasks, and a task
is pending only while no slot is free. -/
structure Balanced (s : State) : Prop where
  active_eq : s.activeUploads = (uploadingCount s.queue : Int)
  saturated : pendingCount s.queue = 0 ∨ s.maxConcurrent ≤ s.activeUploads

/-! ## The queue only grows -/

/-- What identifies a task: identifier, file and name. -/
def Task.ident (t : Task) : String × File × String :=
  (t.id, t.file, t.name)

/-- The queue of `s1` is the queue of `s`, each task with the identifier,
file, name and progress it had, followed by new tasks that carry the name of
their file and progress 0. -/
def Grown (s s1 : State) : Prop :=
  ∃ cs : List (String × File × String × Nat),
    s1.queue.map Task.core = s.queue.map Task.core ++ cs ∧
    ∀ c ∈ cs, c.2.2.1 = c.2.1.name ∧ c.2.2.2 = 0

/-! ## Identifiers -/

/-- The identifiers in the queue are those obtained from the calls of
`Math.random` made so far, in the order of the calls. -/
def IdsDrawn (rand : Nat → String) (s : State) : Prop :=
  s.queue.map Task.id = (List.range s.draws).map rand

/-- A random source that yields the same identifier at every call, as when
`Math.random()` returns 0.5 twice: `(0.5).toString(36)` is `0.i`, and
`substr(2, 9)` of it is `i`. -/
def sampleRepeat (_ : Nat) : String :=
  "i"

/-- The sample user has picked two photos on a page whose random source is
`sampleRepeat`. -/
def sampleTwins : State :=
  handleFilesInput sampleRepeat sampleLoggedIn sampleTime (samplePhotos 2)

/-! ## The drop listener of the document -/

/-- The target of a `drop` event as the listener looks at it: `closest` is
`none` when the target has no method `closest` (it is not an `Element`), and
otherwise tells for a selector whether `target.closest(selector)` finds an
element. -/
structure DropTarget where
  closest : Option (String → Bool)

/-- The test `e.target.closest && e.target.closest('.upload-dropzone')`: the
target is an element inside the dropzone of the upload page. -/
def inDropzone (target : DropTarget) : Bool :=
  match target.closest with
  | none => false
  | some f => f ".upload-dropzone"

/-- The `drop` listener that `bindDropEvents` puts on the document, up to the
first `await` of the handler it calls.  The first component tells whether
`this.handleDropEvent(e)` was reached.  The overlay and the drag counter only
decorate the page and are left out. -/
def onDrop (rand : Nat → String) (s : State) (now : DateTime) (target : DropTarget)
    (dt : DataTransfer) : Bool × State :=
  if inDropzone target then (false, s)
  else
    match s.user with
    | none => (false, s)
    | some u =>
      if u.role == "guest" then (false, s)
      else (true, handleDropEvent rand s now dt)

/-- A sample target: an element outside the dropzone of the upload page. -/
def sampleOutside : DropTarget :=
  { closest := some (fun _ => false) }

/-- A sample target: an element inside the dropzone of the upload page. -/
def sampleInside : DropTarget :=
  { closest := some (fun sel => sel == ".upload-dropzone") }

/-- A page on which a guest has logged in. -/
def sampleGuest : State :=
  { init "photos" with user := some { userid := "g1", role := "guest" } }

/-! ## `parseImagePath` -/

/-- The segments of `dirPath.split('/')`, on the characters of the string: an
empty string has one empty segment. -/
def splitSlash : List Char → List (List Char)
  | [] => [[]]
  | c :: cs =>
    if c = '/' then [] :: splitSlash cs
    else
      match splitSlash cs with
      | p :: ps => (c :: p) :: ps
      | [] => [[c]]

/-- The value of `parts.join('/')`. -/
def joinSlash : List (List Char) → List Char
  | [] => []
  | [p] => p
  | p :: q :: ps => p ++ '/' :: joinSlash (q :: ps)

/-- The object that `parseImagePath` returns. -/
structure ImagePath where
  url : String
  path : String
  deriving DecidableEq, Repr

/-- The function `parseImagePath` of `app.js`.  `Except.ok none` is `null`;
reading `state.user.userid` throws a `TypeError` when nobody is logged in. -/
def parseImagePath (s : State) (dirPath filename : String) : Except String (Option ImagePath) :=
  match splitSlash dirPath.toList with
  | device :: second :: rest =>
    if second = "files".toList then
      let relativeSubdir := joinSlash rest
      let finalPath :=
        if relativeSubdir ≠ [] then relativeSubdir ++ '/' :: filename.toList
        else filename.toList
      match s.user with
      | none => Except.error "TypeError"
      | some u =>
        Except.ok (some {
          url := String.mk ("/resource/image/".toList ++ u.userid.toList ++ '/' :: device
            ++ '/' :: finalPath),
          path := String.mk (device ++ "/files/".toList ++ finalPath) })
    else Except.ok none
  | _ => Except.ok none

/-- The path in the words of the specification: `dirPath + '/' + filename`. -/
def specImagePath (dirPath filename : String) : String :=
  dirPath ++ "/" ++ filename

/-! ## What the Uploads tab shows -/

/-- One row of the table of uploads: the name, the status and the text of the
progress column. -/
structure Row where
  name : String
  status : Status
  progress : String
  deriving DecidableEq, Repr

/-- The Uploads tab as `updateTabUI` writes it: the text of
`#uploadTabHeaderStatus` (`none`: the page has no such element) and the rows
of `#uploadTabTableBody`, as data (no row stands for the line
`No active uploads`). -/
structure Tab where
  header : Option String
  rows : List Row
  deriving DecidableEq, Repr

/-- The text of the progress column for a task. -/
def progressText (q : Task) : String :=
  match q.status with
  | Status.uploading => Nat.repr q.progress ++ "%"
  | Status.success => "100%"
  | Status.error => "Failed"
  | Status.pending => "0%"

/-- The text that `updateTabUI` puts into the header. -/
def headerText (s : State) : String :=
  let total := s.queue.length
  let pending := (s.queue.filter isOpen).length
  let success := (s.queue.filter (fun q => q.status == Status.success)).length
  if s.gatheringFiles then "Scanning directories..."
  else if pending > 0 then
    "Uploading " ++ Nat.repr pending ++ " files... ("
      ++ Nat.repr (if total > 0 then roundPercent success total else 0)
      ++ "% complete of " ++ Nat.repr total ++ ")"
  else if total > 0 then
    "Upload complete! (" ++ Nat.repr success ++ "/" ++ Nat.repr total ++ " successful)"
  else ""

/-- The method `updateTabUI`; the tab is `none` when `#uploadTabTableBody` is
not in the document (the view is not active), and then nothing is written. -/
def updateTabUI (s : State) (tab : Option Tab) : Option Tab :=
  match tab with
  | none => none
  | some t =>
    some { header := t.header.map (fun _ => headerText s),
           rows := s.queue.map (fun q =>
             { name := q.name, status := q.status, progress := progressText q }) }

/-- The manager together with the Uploads tab of the page. -/
structure Page where
  manager : State
  tab : Option Tab

/-- The method `updateUI` with what `updateTabUI` writes: the tab is drawn
first, then the batch is closed if it is finished. -/
def updateUIPage (p : Page) : Page :=
  { manager := updateUI p.manager, tab := updateTabUI p.manager p.tab }

/-- The method `processQueue` up to `await this.uploadFile(next)`, with what
is written to the tab. -/
def processQueuePage (p : Page) : Page :=
  if p.manager.activeUploads ≥ p.manager.maxConcurrent then p
  else
    match findIndex (fun q => q.status == Status.pending) p.manager.queue with
    | none => p
    | some next =>
      let s1 := { p.manager with
        queue := updateAt (fun t => { t with status := Status.uploading }) next p.manager.queue }
      let s2 := { s1 with activeUploads := s1.activeUploads + 1 }
      let p1 := updateUIPage { p with manager := s2 }
      { p1 with manager := uploadFile p1.manager next }

/-- The method `addFileToQueue`, with what is written to the tab. -/
def addFileToQueuePage (rand : Nat → String) (p : Page) (file : File) : Page :=
  if !isMedia file.name then p
  else
    let s1 := { p.manager with
      draws := p.manager.draws + 1,
      queue := p.manager.queue ++ [{ id := rand p.manager.draws, file := file, name := file.name,
                                     status := Status.pending, progress := 0 }] }
    processQueuePage (updateUIPage { p with manager := s1 })

/-- The loop over `fallbackFiles`, with what is written to the tab. -/
def addFallbackPage (rand : Nat → String) (p : Page) (files : List (Option File)) : Page :=
  files.foldl (fun acc f => match f with
    | some file => addFileToQueuePage rand acc file
    | none => acc) p

/-- The last three statements of `handleDropEvent`, with what is written to
the tab. -/
def endIngestPage (p : Page) : Page :=
  updateUIPage (processQueuePage { p with manager := { p.manager with gatheringFiles := false } })

/-- The method `handleDropEvent` up to its first `await` (or to its end when
there is no entry to traverse), with what is written to the tab. -/
def handleDropEventPage (rand : Nat → String) (p : Page) (now : DateTime)
    (dt : DataTransfer) : Page :=
  let p1 := addFallbackPage rand { p with manager := beginIngest p.manager now } (fallbackFiles dt)
  match dropEntries dt with
  | [] => endIngestPage p1
  | e :: es =>
    { p1 with manager := { p1.manager with walks := p1.manager.walks ++ [traverseFileTree e [] es] } }

/-- A sample page: the sample user is logged in, nothing has been uploaded,
and the Uploads tab is open and shows that. -/
def samplePage : Page :=
  { manager := sampleLoggedIn, tab := some { header := some "", rows := [] } }

/-- A sample case mapping that is `AsciiExact` and differs from the one of the
model: it also turns U+0130 (capital I with dot above) into `i` followed by
U+0307, and U+00C9 (capital E with acute) into U+00E9. -/
def sampleLower (_ : List Char) (c : Char) (_ : List Char) : List Char :=
  if c = Char.ofNat 304 then ['i', Char.ofNat 775]
  else if c = Char.ofNat 201 then [Char.ofNat 233]
  else [lowerChar c]

/-- A sample tree: the directory `clips` with the one file `sampleKelvin`. -/
def sampleKelvinTree : Entry :=
  Entry.dir "clips" [[Entry.file sampleKelvin true]] false

/-! ## Basic facts about the helpers -/

theorem updateAt_length (f : Task → Task) (i : Nat) (q : List Task) :
    (updateAt f i q).length = q.length := by
  induction q generalizing i with
  | nil => simp [updateAt]
  | cons t ts ih => cases i <;> simp [updateAt, ih]

theorem updateAt_getElem?_ne (f : Task → Task) {i j : Nat} (q : List Task) (h : j ≠ i) :
    (updateAt f i q)[j]? = q[j]? := by
  induction q generalizing i j with
  | nil => simp [updateAt]
  | cons t ts ih =>
    cases i with
    | zero =>
      cases j with
      | zero => exact absurd rfl h
      | succ j => simp [updateAt]
    | succ i =>
      cases j with
      | zero => simp [updateAt]
      | succ j => simp [updateAt]; exact ih (by omega)

theorem updateAt_getElem?_eq (f : Task → Task) (i : Nat) (q : List Task) :
    (updateAt f i q)[i]? = q[i]?.map f := by
  induction q generalizing i with
  | nil => simp [updateAt]
  | cons t ts ih =>
    cases i with
    | zero => simp [updateAt]
    | succ i => simp [updateAt]; exact ih i

theorem findIndex_some {p : Task → Bool} {q : List Task} {i : Nat} (h : findIndex p q = some i) :
    ∃ t, q[i]? = some t ∧ p t = true ∧ ∀ j u, j < i → q[j]? = some u → p u = false := by
  induction q generalizing i with
  | nil => simp [findIndex] at h
  | cons t ts ih =>
    simp only [findIndex] at h
    by_cases hp : p t = true
    · simp [hp] at h
      subst h
      exact ⟨t, by simp, hp, by intro j u hj; omega⟩
    · simp [hp] at h
      obtain ⟨k, hk, rfl⟩ := h
      obtain ⟨u, hu, hpu, hlt⟩ := ih hk
      refine ⟨u, by simpa using hu, hpu, ?_⟩
      intro j v hj hv
      cases j with
      | zero => simp at hv; subst hv; simpa using hp
      | succ j => exact hlt j v (by omega) (by simpa using hv)

theorem findIndex_none {p : Task → Bool} {q : List Task} (h : findIndex p q = none) :
    ∀ t ∈ q, p t = false := by
  induction q with
  | nil => simp
  | cons t ts ih =>
    simp only [findIndex] at h
    by_cases hp : p t = true
    · simp [hp] at h
    · simp [hp] at h
      intro u hu
      rcases List.mem_cons.mp hu with rfl | hu
      · simpa using hp
      · exact ih h u hu

theorem updateAt_of_none (f : Task → Task) {i : Nat} {q : List Task} (h : q[i]? = none) :
    updateAt f i q = q := by
  induction q generalizing i with
  | nil => simp [updateAt]
  | cons t ts ih =>
    cases i with
    | zero => simp at h
    | succ i => simp [updateAt]; exact ih (by simpa using h)

theorem filter_updateAt_length (p : Task → Bool) (f : Task → Task) {i : Nat} {q : List Task}
    {t : Task} (h : q[i]? = some t) :
    ((updateAt f i q).filter p).length + (if p t then 1 else 0)
      = (q.filter p).length + (if p (f t) then 1 else 0) := by
  induction q generalizing i with
  | nil => simp at h
  | cons u us ih =>
    cases i with
    | zero =>
      simp at h
      subst h
      simp only [updateAt, List.filter_cons]
      by_cases h1 : p u = true <;> by_cases h2 : p (f u) = true <;> simp [h1, h2]
    | succ i =>
      have := @ih i (by simpa using h)
      simp only [updateAt, List.filter_cons]
      by_cases h1 : p u = true <;> simp [h1] <;> omega

@[simp] theorem updateUI_queue (s : State) : (updateUI s).queue = s.queue := by
  unfold updateUI refreshViewData; dsimp only; split_ifs <;> rfl
@[simp] theorem updateUI_activeUploads (s : State) : (updateUI s).activeUploads = s.activeUploads := by
  unfold updateUI refreshViewData; dsimp only; split_ifs <;> rfl
@[simp] theorem updateUI_maxConcurrent (s : State) : (updateUI s).maxConcurrent = s.maxConcurrent := by
  unfold updateUI refreshViewData; dsimp only; split_ifs <;> rfl
@[simp] theorem updateUI_inflight (s : State) : (updateUI s).inflight = s.inflight := by
  unfold updateUI refreshViewData; dsimp only; split_ifs <;> rfl
@[simp] theorem updateUI_gatheringFiles (s : State) : (updateUI s).gatheringFiles = s.gatheringFiles := by
  unfold updateUI refreshViewData; dsimp only; split_ifs <;> rfl
@[simp] theorem updateUI_user (s : State) : (updateUI s).user = s.user := by
  unfold updateUI refreshViewData; dsimp only; split_ifs <;> rfl
@[simp] theorem updateUI_view (s : State) : (updateUI s).view = s.view := by
  unfold updateUI refreshViewData; dsimp only; split_ifs <;> rfl
@[simp] theorem updateUI_walks (s : State) : (updateUI s).walks = s.walks := by
  unfold updateUI refreshViewData; dsimp only; split_ifs <;> rfl
@[simp] theorem updateUI_sent (s : State) : (updateUI s).sent = s.sent := by
  unfold updateUI refreshViewData; dsimp only; split_ifs <;> rfl
@[simp] theorem updateUI_draws (s : State) : (updateUI s).draws = s.draws := by
  unfold updateUI refreshViewData; dsimp only; split_ifs <;> rfl

@[simp] theorem uploadFile_queue (s : State) (i : Nat) : (uploadFile s i).queue = s.queue := by
  unfold uploadFile; split <;> rfl
@[simp] theorem uploadFile_activeUploads (s : State) (i : Nat) :
    (uploadFile s i).activeUploads = s.activeUploads := by
  unfold uploadFile; split <;> rfl
@[simp] theorem uploadFile_maxConcurrent (s : State) (i : Nat) :
    (uploadFile s i).maxConcurrent = s.maxConcurrent := by
  unfold uploadFile; split <;> rfl
@[simp] theorem uploadFile_batchId (s : State) (i : Nat) : (uploadFile s i).batchId = s.batchId := by
  unfold uploadFile; split <;> rfl
@[simp] theorem uploadFile_gatheringFiles (s : State) (i : Nat) :
    (uploadFile s i).gatheringFiles = s.gatheringFiles := by
  unfold uploadFile; split <;> rfl
@[simp] theorem uploadFile_user (s : State) (i : Nat) : (uploadFile s i).user = s.user := by
  unfold uploadFile; split <;> rfl
@[simp] theorem uploadFile_view (s : State) (i : Nat) : (uploadFile s i).view = s.view := by
  unfold uploadFile; split <;> rfl
@[simp] theorem uploadFile_walks (s : State) (i : Nat) : (uploadFile s i).walks = s.walks := by
  unfold uploadFile; split <;> rfl
@[simp] theorem uploadFile_draws (s : State) (i : Nat) : (uploadFile s i).draws = s.draws := by
  unfold uploadFile; split <;> rfl
@[simp] theorem uploadFile_refreshes (s : State) (i : Nat) :
    (uploadFile s i).refreshes = s.refreshes := by
  unfold uploadFile; split <;> rfl

theorem uploadFile_inflight (s : State) (i : Nat) :
    (uploadFile s i).inflight = s.inflight ∨ (uploadFile s i).inflight = s.inflight ++ [i] := by
  unfold uploadFile; split
  · right; rfl
  · left; rfl

theorem processQueue_full {s : State} (h : s.maxConcurrent ≤ s.activeUploads) :
    processQueue s = s := by
  unfold processQueue; simp [h]

theorem processQueue_idle {s : State}
    (h : findIndex (fun q => q.status == Status.pending) s.queue = none) :
    processQueue s = s := by
  unfold processQueue; split
  · rfl
  · simp [h]

theorem processQueue_start {s : State} {next : Nat} (h1 : s.activeUploads < s.maxConcurrent)
    (h2 : findIndex (fun q => q.status == Status.pending) s.queue = some next) :
    processQueue s = uploadFile (claimed s next) next := by
  unfold processQueue claimed
  have : ¬ (s.activeUploads ≥ s.maxConcurrent) := by omega
  simp [this, h2]

theorem processQueue_cases (s : State) :
    processQueue s = s ∨
    ∃ next, s.activeUploads < s.maxConcurrent ∧
      findIndex (fun q => q.status == Status.pending) s.queue = some next ∧
      processQueue s = uploadFile (claimed s next) next := by
  by_cases h1 : s.maxConcurrent ≤ s.activeUploads
  · exact Or.inl (processQueue_full h1)
  · cases h2 : findIndex (fun q => q.status == Status.pending) s.queue with
    | none => exact Or.inl (processQueue_idle h2)
    | some next => exact Or.inr ⟨next, by omega, rfl, processQueue_start (by omega) h2⟩

theorem processQueue_gatheringFiles (s : State) :
    (processQueue s).gatheringFiles = s.gatheringFiles := by
  rcases processQueue_cases s with he | ⟨next, -, -, he⟩
  · rw [he]
  · rw [he]; simp [claimed]

/-! ## The concurrency invariant -/

theorem Inv.of_eq {s s1 : State} (h : Inv s) (hq : s1.queue = s.queue)
    (ha : s1.activeUploads = s.activeUploads) (hm : s1.maxConcurrent = s.maxConcurrent)
    (hi : s1.inflight = s.inflight) : Inv s1 := by
  constructor
  · rw [hq, ha]; exact h.count_le
  · rw [ha, hm]; exact h.active_le
  · rw [hm]; exact h.max_eq
  · rw [hi]; exact h.nodup
  · rw [hi, hq]; exact h.inflight_uploading

theorem Inv.keep_updateUI {s : State} (h : Inv s) : Inv (updateUI s) :=
  h.of_eq (by simp) (by simp) (by simp) (by simp)

theorem Inv.keep_processQueue {s : State} (h : Inv s) : Inv (processQueue s) := by
  rcases processQueue_cases s with he | ⟨next, hlt, hfind, he⟩
  · rw [he]; exact h
  · obtain ⟨t, ht, hp, -⟩ := findIndex_some hfind
    have hpend : t.status = Status.pending := by simpa using hp
    have hnot : next ∉ s.inflight := by
      intro hmem
      obtain ⟨u, hu, hus⟩ := h.inflight_uploading next hmem
      rw [ht] at hu
      cases hu
      rw [hpend] at hus
      cases hus
    have hcount := filter_updateAt_length (fun t => t.status == Status.uploading)
      (fun t => { t with status := Status.uploading }) ht
    simp [hpend] at hcount
    rw [he]
    constructor
    · simp only [uploadFile_queue, uploadFile_activeUploads, claimed, updateUI_queue,
        updateUI_activeUploads, uploadingCount]
      have := h.count_le
      simp only [uploadingCount] at this
      omega
    · simp only [uploadFile_maxConcurrent, uploadFile_activeUploads, claimed,
        updateUI_maxConcurrent, updateUI_activeUploads]
      omega
    · simp only [uploadFile_maxConcurrent, claimed, updateUI_maxConcurrent]
      exact h.max_eq
    · rcases uploadFile_inflight (claimed s next) next with hi | hi
      · rw [hi]; simp only [claimed, updateUI_inflight]; exact h.nodup
      · rw [hi]; simp only [claimed, updateUI_inflight]
        exact List.Nodup.append h.nodup (List.nodup_singleton _) (by simpa using hnot)
    · intro i hi
      simp only [uploadFile_queue, claimed, updateUI_queue]
      by_cases hin : i = next
      · subst hin
        rw [updateAt_getElem?_eq, ht]
        exact ⟨_, rfl, rfl⟩
      · rw [updateAt_getElem?_ne _ _ hin]
        apply h.inflight_uploading
        rcases uploadFile_inflight (claimed s next) next with hj | hj
        · rw [hj] at hi; simpa [claimed] using hi
        · rw [hj] at hi
          simp only [claimed, updateUI_inflight, List.mem_append, List.mem_singleton] at hi
          rcases hi with hi | hi
          · exact hi
          · exact absurd hi hin

theorem Inv.keep_push {s : State} (h : Inv s) (t : Task) (ht : t.status = Status.pending) (d : Nat) :
    Inv { s with draws := d, queue := s.queue ++ [t] } := by
  constructor
  · have := h.count_le
    simp only [uploadingCount, List.filter_append, List.length_append] at this ⊢
    simp [ht]
    exact this
  · exact h.active_le
  · exact h.max_eq
  · exact h.nodup
  · intro i hi
    obtain ⟨u, hu, hus⟩ := h.inflight_uploading i hi
    refine ⟨u, ?_, hus⟩
    show (s.queue ++ [t])[i]? = some u
    have hlt : i < s.queue.length := by
      rcases Nat.lt_or_ge i s.queue.length with hlt | hge
      · exact hlt
      · rw [List.getElem?_eq_none hge] at hu; cases hu
    rw [List.getElem?_append_left hlt]
    exact hu

theorem Inv.keep_addFileToQueue (rand : Nat → String) {s : State} (h : Inv s) (f : File) :
    Inv (addFileToQueue rand s f) := by
  unfold addFileToQueue
  split
  · exact h
  · exact (h.keep_push _ rfl _).keep_updateUI.keep_processQueue

theorem Inv.keep_beginIngest {s : State} (h : Inv s) (now : DateTime) : Inv (beginIngest s now) := by
  unfold beginIngest setNewBatchId
  dsimp only
  split_ifs <;> exact h.of_eq rfl rfl rfl rfl

theorem Inv.keep_endIngest {s : State} (h : Inv s) : Inv (endIngest s) := by
  unfold endIngest
  have h1 : Inv { s with gatheringFiles := false } := h.of_eq rfl rfl rfl rfl
  exact h1.keep_processQueue.keep_updateUI

theorem Inv.keep_foldl_add (rand : Nat → String) (files : List File) {s : State} (h : Inv s) :
    Inv (files.foldl (addFileToQueue rand) s) := by
  induction files generalizing s with
  | nil => exact h
  | cons f fs ih => exact ih (h.keep_addFileToQueue rand f)

theorem Inv.keep_handleFilesInput (rand : Nat → String) {s : State} (h : Inv s) (now : DateTime)
    (files : List File) : Inv (handleFilesInput rand s now files) :=
  (Inv.keep_foldl_add rand files (h.keep_beginIngest now)).keep_endIngest

theorem Inv.keep_addFallback (rand : Nat → String) (files : List (Option File)) {s : State}
    (h : Inv s) : Inv (addFallback rand s files) := by
  unfold addFallback
  induction files generalizing s with
  | nil => exact h
  | cons f fs ih =>
    cases f with
    | none => exact ih h
    | some file => exact ih (h.keep_addFileToQueue rand file)

theorem Inv.keep_handleDropEvent (rand : Nat → String) {s : State} (h : Inv s) (now : DateTime)
    (dt : DataTransfer) : Inv (handleDropEvent rand s now dt) := by
  unfold handleDropEvent
  have h1 := Inv.keep_addFallback rand (fallbackFiles dt) (h.keep_beginIngest now)
  dsimp only
  split
  · exact h1.keep_endIngest
  · exact h1.of_eq rfl rfl rfl rfl

theorem Inv.keep_resume {s : State} (h : Inv s) (stack : List Frame) (rest : List Entry) :
    Inv (resume s stack rest).1 := by
  unfold resume
  split
  · exact h
  · exact h
  · split
    · exact h
    · exact h.keep_endIngest

theorem Inv.keep_onCallback (rand : Nat → String) {s : State} (h : Inv s) (w : Walk)
    {r : State × Option Walk} (hr : onCallback rand s w = some r) : Inv r.1 := by
  unfold onCallback at hr
  split at hr
  · cases hr; exact (h.keep_addFileToQueue rand _).keep_resume _ _
  · cases hr; exact h.keep_resume _ _
  · cases hr; exact h.keep_resume _ _
  · cases hr
  · cases hr; exact h.keep_resume _ _
  · cases hr; exact h

theorem Inv.keep_park {r : State × Option Walk} (h : Inv r.1) (k : Nat) : Inv (park k r) := by
  unfold park
  split <;> exact h.of_eq rfl rfl rfl rfl

theorem Inv.keep_onprogress {s : State} (h : Inv s) (i : Nat) (e : ProgressEvent) :
    Inv (onprogress s i e) := by
  unfold onprogress
  split
  · apply Inv.keep_updateUI
    constructor
    · have := h.count_le
      simp only [uploadingCount] at this ⊢
      cases hq : s.queue[i]? with
      | none => rw [updateAt_of_none _ hq]; exact this
      | some t =>
        have hc := filter_updateAt_length (fun t => t.status == Status.uploading)
          (fun t => { t with progress := roundPercent e.loaded e.total }) hq
        simp only at hc
        omega
    · exact h.active_le
    · exact h.max_eq
    · exact h.nodup
    · intro j hj
      obtain ⟨u, hu, hus⟩ := h.inflight_uploading j hj
      show ∃ t, (updateAt _ i s.queue)[j]? = some t ∧ _
      by_cases hji : j = i
      · subst hji
        rw [updateAt_getElem?_eq, hu]
        exact ⟨_, rfl, hus⟩
      · rw [updateAt_getElem?_ne _ _ hji]
        exact ⟨u, hu, hus⟩
  · exact h

/-- An upload completion: the request at `i` leaves the browser, the task at
`i` gets a terminal status through `f`, and the awaiting `processQueue`
resumes. -/
theorem Inv.keep_complete {s : State} (h : Inv s) {i : Nat} (hi : i ∈ s.inflight) (f : Task → Task)
    (hf : ∀ t, (f t).status ≠ Status.uploading) :
    Inv (afterUpload { s with inflight := s.inflight.erase i, queue := updateAt f i s.queue }) := by
  unfold afterUpload
  apply Inv.keep_processQueue
  apply Inv.keep_updateUI
  obtain ⟨t, ht, hts⟩ := h.inflight_uploading i hi
  have hc := filter_updateAt_length (fun t => t.status == Status.uploading) f ht
  simp [hts, hf t] at hc
  constructor
  · have := h.count_le
    simp only [uploadingCount] at this ⊢
    omega
  · have := h.active_le
    show s.activeUploads - 1 ≤ s.maxConcurrent
    omega
  · exact h.max_eq
  · exact h.nodup.erase i
  · intro j hj
    have hj1 : j ∈ s.inflight := List.mem_of_mem_erase hj
    have hji : j ≠ i := by
      intro heq
      subst heq
      exact (List.Nodup.not_mem_erase h.nodup) hj
    show ∃ t, (updateAt f i s.queue)[j]? = some t ∧ _
    rw [updateAt_getElem?_ne _ _ hji]
    exact h.inflight_uploading j hj1

theorem Inv.keep_step (rand : Nat → String) {s s1 : State} (h : Inv s) (e : Event)
    (hs : step rand s e = some s1) : Inv s1 := by
  cases e with
  | login u => cases hs; exact h.of_eq rfl rfl rfl rfl
  | navigate v => cases hs; exact h.of_eq rfl rfl rfl rfl
  | addFile f => cases hs; exact h.keep_addFileToQueue rand f
  | dispatch => cases hs; exact h.keep_processQueue
  | filesInput now files => cases hs; exact h.keep_handleFilesInput rand now files
  | drop now dt => cases hs; exact h.keep_handleDropEvent rand now dt
  | fsCallback k =>
    simp only [step] at hs
    split at hs
    · cases hs
    · rename_i w hw
      cases hr : onCallback rand s w with
      | none => rw [hr] at hs; cases hs
      | some r =>
        rw [hr] at hs
        cases hs
        exact Inv.keep_park (h.keep_onCallback rand w hr) k
  | progress i ev =>
    simp only [step] at hs
    split at hs
    · cases hs; exact h.keep_onprogress i ev
    · cases hs
  | load i status =>
    simp only [step] at hs
    split at hs
    · rename_i hi
      cases hs
      unfold onload
      split
      · exact h.keep_complete hi _ (by intro t; simp)
      · exact h.keep_complete hi _ (by intro t; simp)
    · cases hs
  | error i =>
    simp only [step] at hs
    split at hs
    · rename_i hi
      cases hs
      exact h.keep_complete hi _ (by intro t; simp)
    · cases hs

theorem Inv.keep_init (view : String) : Inv (init view) := by
  constructor <;> simp [init, uploadingCount]

theorem Inv.of_reachable {rand : Nat → String} {view : String} {s : State}
    (h : Reachable rand view s) : Inv s := by
  induction h with
  | init => exact Inv.keep_init view
  | step e _ hs ih => exact ih.keep_step rand e hs

/-! ## When `processQueue` does nothing -/

theorem findIndex_eq_none {p : Task → Bool} {q : List Task} (h : ∀ t ∈ q, p t = false) :
    findIndex p q = none := by
  induction q with
  | nil => rfl
  | cons t ts ih =>
    have ht : p t = false := h t (List.mem_cons_self _ _)
    have hts : findIndex p ts = none := ih (fun u hu => h u (List.mem_cons_of_mem _ hu))
    simp [findIndex, ht, hts]

theorem processQueue_noop {s : State}
    (h : (∀ t ∈ s.queue, t.status ≠ Status.pending) ∨ s.maxConcurrent ≤ s.activeUploads) :
    processQueue s = s := by
  rcases h with h | h
  · apply processQueue_idle
    apply findIndex_eq_none
    intro t ht
    simpa using h t ht
  · exact processQueue_full h

/-! ## The sample states are reachable -/

theorem sampleBusy_reachable : Reachable sampleRand "files" sampleBusy :=
  Reachable.step (Event.filesInput sampleTime (samplePhotos 5))
    (Reachable.step (Event.login sampleUser) Reachable.init rfl) rfl

theorem sampleDone_reachable : Reachable sampleRand "files" sampleDone :=
  Reachable.step (Event.load 0 200)
    (Reachable.step (Event.filesInput sampleTime (samplePhotos 1))
      (Reachable.step (Event.login sampleUser) Reachable.init rfl) rfl) rfl

/-! ## C1: bounded concurrency -/

/-- C1: in every state reachable from the initial manager state by any
interleaving of direct enqueues, ingests, dispatch calls, file-system
callbacks, progress events and upload completions, the number of tasks with
status `uploading` is at most `maxConcurrent`, and `maxConcurrent` is 3. -/
theorem C1_uploading_le_maxConcurrent (rand : Nat → String) (view : String) (s : State)
    (h : Reachable rand view s) :
    (uploadingCount s.queue : Int) ≤ s.maxConcurrent ∧ s.maxConcurrent = 3 := by
  have hinv := Inv.of_reachable h
  exact ⟨le_trans hinv.count_le hinv.active_le, hinv.max_eq⟩

/-- C1 at a concrete state: a user has logged in and picked five photos. -/
theorem C1_uploading_le_maxConcurrent_witness :
    Reachable sampleRand "files" sampleBusy ∧
      ((uploadingCount sampleBusy.queue : Int) ≤ sampleBusy.maxConcurrent ∧
        sampleBusy.maxConcurrent = 3) :=
  ⟨sampleBusy_reachable,
    C1_uploading_le_maxConcurrent sampleRand "files" sampleBusy sampleBusy_reachable⟩

/-! ## C2: the extension filter of `addFileToQueue` -/

theorem toLower_eq_dot {c : Char} (h : c.toLower = '.') : c = '.' := by
  unfold Char.toLower at h
  dsimp only at h
  split at h
  · rename_i hr
    exfalso
    obtain ⟨h1, h2⟩ := hr
    generalize c.toNat = n at h h1 h2
    interval_cases n <;> exact absurd h (by decide)
  · exact h

theorem lowerChar_eq_dot {c : Char} (h : lowerChar c = '.') : c = '.' := by
  unfold lowerChar at h
  split_ifs at h
  · exact absurd h (by decide)
  · exact toLower_eq_dot h

theorem dot_mem_toLowerCase {l : List Char} : '.' ∈ toLowerCase l ↔ '.' ∈ l := by
  unfold toLowerCase
  constructor
  · intro h
    obtain ⟨c, hc, hcl⟩ := List.mem_map.mp h
    rw [lowerChar_eq_dot hcl] at hc
    exact hc
  · intro h
    exact List.mem_map.mpr ⟨'.', h, by decide⟩

theorem lastIndexOf_of_not_mem {c : Char} {l : List Char} (h : c ∉ l) : lastIndexOf c l = -1 := by
  induction l with
  | nil => rfl
  | cons x xs ih =>
    simp only [List.mem_cons, not_or] at h
    simp only [lastIndexOf, ih h.2]
    have : ¬ (x = c) := fun e => h.1 e.symm
    simp [this]

theorem lastIndexOf_append {c : Char} (pre suf : List Char) (h : c ∉ suf) :
    lastIndexOf c (pre ++ c :: suf) = pre.length := by
  induction pre with
  | nil => simp [lastIndexOf, lastIndexOf_of_not_mem h]
  | cons x xs ih =>
    have hnn : (0 : Int) ≤ xs.length := by omega
    show (if 0 ≤ lastIndexOf c (xs ++ c :: suf) then lastIndexOf c (xs ++ c :: suf) + 1
      else if x = c then 0 else -1) = ((xs.length + 1 : Nat) : Int)
    rw [ih]
    simp [hnn]

theorem exists_last_split {c : Char} {l : List Char} (h : c ∈ l) :
    ∃ pre suf, l = pre ++ c :: suf ∧ c ∉ suf := by
  induction l with
  | nil => cases h
  | cons x xs ih =>
    by_cases hx : c ∈ xs
    · obtain ⟨pre, suf, he, hs⟩ := ih hx
      exact ⟨x :: pre, suf, by rw [he]; rfl, hs⟩
    · rcases List.mem_cons.mp h with rfl | h1
      · exact ⟨[], xs, rfl, hx⟩
      · exact absurd h1 hx

theorem allowed_toList :
    allowed.map String.toList = (specMediaSet.map String.toList).map (fun x => '.' :: x) := by
  decide

theorem mem_allowed_iff (l : List Char) :
    String.mk l ∈ allowed ↔ l ∈ (specMediaSet.map String.toList).map (fun x => '.' :: x) := by
  rw [← allowed_toList]
  constructor
  · intro h
    exact List.mem_map.mpr ⟨_, h, rfl⟩
  · intro h
    obtain ⟨s, hs, hsl⟩ := List.mem_map.mp h
    have : s = String.mk l := by cases s; simp at hsl; rw [hsl]
    rw [← this]; exact hs

theorem mem_specMediaSet_iff (l : List Char) :
    String.mk l ∈ specMediaSet ↔ l ∈ specMediaSet.map String.toList := by
  constructor
  · intro h
    exact List.mem_map.mpr ⟨_, h, rfl⟩
  · intro h
    obtain ⟨s, hs, hsl⟩ := List.mem_map.mp h
    have : s = String.mk l := by cases s; simp at hsl; rw [hsl]
    rw [← this]; exact hs

theorem isMedia_iff (name : String) : isMedia name = true ↔ specAllowed name := by
  have hmem : isMedia name = true ↔
      String.mk (toLowerCase (substring name.toList (lastIndexOf '.' name.toList))) ∈ allowed :=
    List.elem_iff
  rw [hmem, mem_allowed_iff]
  unfold specAllowed
  by_cases hdot : '.' ∈ name.toList
  · obtain ⟨pre, suf, he, hs⟩ := exists_last_split hdot
    have hext : toLowerCase (substring name.toList (lastIndexOf '.' name.toList))
        = '.' :: toLowerCase suf := by
      rw [he, lastIndexOf_append pre suf hs]
      simp [substring, toLowerCase]
      decide
    rw [hext]
    constructor
    · intro h
      obtain ⟨x, hx, hxe⟩ := List.mem_map.mp h
      simp only [List.cons.injEq, true_and] at hxe
      subst hxe
      exact ⟨pre, suf, he, hs, (mem_specMediaSet_iff _).mpr hx⟩
    · rintro ⟨pre1, suf1, he1, hs1, hm⟩
      have h1 := lastIndexOf_append pre suf hs
      have h2 := lastIndexOf_append pre1 suf1 hs1
      rw [← he] at h1
      rw [← he1, h1] at h2
      have hlen : pre.length = pre1.length := by exact_mod_cast h2
      have hpp : pre = pre1 ∧ '.' :: suf = '.' :: suf1 :=
        List.append_inj (he.symm.trans he1) hlen
      have hss : suf = suf1 := by simpa using hpp.2
      subst hss
      exact List.mem_map.mpr ⟨_, (mem_specMediaSet_iff _).mp hm, rfl⟩
  · have hlast := lastIndexOf_of_not_mem hdot
    constructor
    · intro h
      exfalso
      obtain ⟨x, -, hxe⟩ := List.mem_map.mp h
      rw [hlast] at hxe
      have : '.' ∈ toLowerCase name.toList := by
        have h0 : substring name.toList (-1) = name.toList := by simp [substring]
        rw [h0] at hxe
        rw [← hxe]; simp
      exact hdot (dot_mem_toLowerCase.mp this)
    · rintro ⟨pre, suf, he, -, -⟩
      exfalso
      apply hdot
      rw [he]; simp

theorem map_updateAt {β : Type} (g : Task → β) (f : Task → Task) (hf : ∀ t, g (f t) = g t)
    (i : Nat) (q : List Task) : (updateAt f i q).map g = q.map g := by
  induction q generalizing i with
  | nil => simp [updateAt]
  | cons t ts ih => cases i <;> simp [updateAt, hf, ih]

theorem processQueue_queue_core (s : State) :
    (processQueue s).queue.map Task.core = s.queue.map Task.core := by
  rcases processQueue_cases s with he | ⟨next, -, -, he⟩
  · rw [he]
  · rw [he]
    simp only [uploadFile_queue, claimed, updateUI_queue]
    exact map_updateAt Task.core (fun t => { t with status := Status.uploading }) (fun _ => rfl) _ _

theorem addFileToQueue_of_not_media (rand : Nat → String) (s : State) {f : File}
    (h : isMedia f.name = false) : addFileToQueue rand s f = s := by
  unfold addFileToQueue; simp [h]

theorem addFileToQueue_of_media (rand : Nat → String) (s : State) {f : File}
    (h : isMedia f.name = true) :
    addFileToQueue rand s f = processQueue (updateUI { s with
      draws := s.draws + 1,
      queue := s.queue ++ [{ id := rand s.draws, file := f, name := f.name,
                             status := Status.pending, progress := 0 }] }) := by
  unfold addFileToQueue; simp [h]

theorem addFileToQueue_queue_core (rand : Nat → String) (s : State) {f : File}
    (h : isMedia f.name = true) :
    (addFileToQueue rand s f).queue.map Task.core
      = s.queue.map Task.core ++ [(rand s.draws, f, f.name, 0)] := by
  rw [addFileToQueue_of_media rand s h, processQueue_queue_core]
  simp [Task.core]

/-! ### The case mapping beyond ASCII -/

theorem kelvinSign_toNat : kelvinSign.toNat = 8490 := by decide

theorem toLower_of_not_ascii {c : Char} (h : 128 ≤ c.toNat) : c.toLower = c := by
  unfold Char.toLower
  dsimp only
  rw [if_neg]
  omega

theorem lowerChar_of_ascii {c : Char} (h : c.toNat < 128) : lowerChar c = c.toLower := by
  unfold lowerChar
  rw [if_neg]
  intro hk
  rw [hk, kelvinSign_toNat] at h
  omega

theorem lowerChar_of_other {c : Char} (h : 128 ≤ c.toNat) (hk : c ≠ kelvinSign) :
    lowerChar c = c := by
  unfold lowerChar
  rw [if_neg hk, toLower_of_not_ascii h]

/-- Compared with ASCII text, the lower-casing of the model and every case
mapping that is `AsciiExact` give the same answer. -/
theorem lowerWith_eq_iff {lower : List Char → Char → List Char → List Char}
    (h : AsciiExact lower) (s before w : List Char) (hw : ∀ d ∈ w, d.toNat < 128) :
    lowerWith lower before s = w ↔ toLowerCase s = w := by
  induction s generalizing before w with
  | nil => simp [lowerWith, toLowerCase]
  | cons c cs ih =>
    have hsame : ∀ x : Char, lower before c cs = [x] → lowerChar c = x →
        (lowerWith lower before (c :: cs) = w ↔ toLowerCase (c :: cs) = w) := by
      intro x h1 h2
      simp only [lowerWith, toLowerCase, List.map_cons, h1, h2, List.singleton_append]
      cases w with
      | nil => simp
      | cons d ds =>
        simp only [List.cons.injEq]
        have := ih (before ++ [c]) ds (fun e he => hw e (List.mem_cons_of_mem _ he))
        simp only [toLowerCase] at this
        rw [this]
    by_cases hk : c = kelvinSign
    · subst hk
      exact hsame 'k' (h.kelvin before cs) (by decide)
    · by_cases ha : c.toNat < 128
      · exact hsame c.toLower (h.ascii before c cs ha) (lowerChar_of_ascii ha)
      · have hge : 128 ≤ c.toNat := by omega
        obtain ⟨d, hd, hdn⟩ := h.other before c cs hge hk
        constructor
        · intro he
          exfalso
          have : d ∈ w := by
            rw [← he]
            simp only [lowerWith]
            exact List.mem_append_left _ hd
          have := hw d this
          omega
        · intro he
          exfalso
          have : c ∈ w := by
            rw [← he]
            simp only [toLowerCase, List.map_cons, lowerChar_of_other hge hk]
            exact List.mem_cons_self _ _
          have := hw c this
          omega

theorem allowed_ascii : ∀ a ∈ allowed, ∀ d ∈ a.toList, d.toNat < 128 := by decide

theorem specMediaSet_ascii : ∀ a ∈ specMediaSet, ∀ d ∈ a.toList, d.toNat < 128 := by decide

theorem mem_iff_of_eq_iff {l1 l2 : List Char} {set : List String}
    (hset : ∀ a ∈ set, ∀ d ∈ a.toList, d.toNat < 128)
    (h : ∀ w : List Char, (∀ d ∈ w, d.toNat < 128) → (l1 = w ↔ l2 = w)) :
    String.mk l1 ∈ set ↔ String.mk l2 ∈ set := by
  constructor
  · intro hm
    have := (h l1 (hset _ hm)).mp rfl
    rw [this]
    exact hm
  · intro hm
    have := (h l2 (hset _ hm)).mpr rfl
    rw [this]
    exact hm

/-- The test of `addFileToQueue` comes out the same under every case mapping
that is `AsciiExact`. -/
theorem isMediaWith_eq {lower : List Char → Char → List Char → List Char}
    (h : AsciiExact lower) (name : String) : isMediaWith lower name = isMedia name := by
  have h1 : isMediaWith lower name = true ↔ isMedia name = true := by
    unfold isMediaWith isMedia extOf
    rw [List.elem_iff, List.elem_iff]
    exact mem_iff_of_eq_iff allowed_ascii (fun w hw => lowerWith_eq_iff h _ [] w hw)
  cases hm : isMedia name with
  | true => exact h1.mpr hm
  | false =>
    cases hw : isMediaWith lower name with
    | false => rfl
    | true => rw [h1.mp hw] at hm; cases hm

theorem specAllowedWith_iff {lower : List Char → Char → List Char → List Char}
    (h : AsciiExact lower) (name : String) : specAllowedWith lower name ↔ specAllowed name := by
  unfold specAllowedWith specAllowed
  constructor
  · rintro ⟨pre, suf, he, hs, hm⟩
    exact ⟨pre, suf, he, hs, (mem_iff_of_eq_iff specMediaSet_ascii
      (fun w hw => lowerWith_eq_iff h suf [] w hw)).mp hm⟩
  · rintro ⟨pre, suf, he, hs, hm⟩
    exact ⟨pre, suf, he, hs, (mem_iff_of_eq_iff specMediaSet_ascii
      (fun w hw => lowerWith_eq_iff h suf [] w hw)).mpr hm⟩

theorem isMedia_sampleKelvin : isMedia sampleKelvin.name = true ∧
    mediaOf [sampleKelvin] = [sampleKelvin] := by
  decide

theorem sampleLower_asciiExact : AsciiExact sampleLower := by
  constructor
  · intro before c after hc
    have h1 : c ≠ Char.ofNat 304 := by
      intro h; rw [h] at hc; exact absurd hc (by decide)
    have h2 : c ≠ Char.ofNat 201 := by
      intro h; rw [h] at hc; exact absurd hc (by decide)
    simp only [sampleLower, if_neg h1, if_neg h2, lowerChar_of_ascii hc]
  · intro before after
    have h1 : kelvinSign ≠ Char.ofNat 304 := by decide
    have h2 : kelvinSign ≠ Char.ofNat 201 := by decide
    simp only [sampleLower, if_neg h1, if_neg h2]
    exact congrArg (fun c => [c]) (by decide : lowerChar kelvinSign = 'k')
  · intro before c after hc hk
    by_cases h1 : c = Char.ofNat 304
    · exact ⟨Char.ofNat 775, by simp [sampleLower, h1], by decide⟩
    · by_cases h2 : c = Char.ofNat 201
      · refine ⟨Char.ofNat 233, ?_, by decide⟩
        have h3 : Char.ofNat 201 ≠ Char.ofNat 304 := by decide
        simp only [sampleLower, h2, if_neg h3, if_true]
        exact List.mem_singleton_self _
      · refine ⟨c, ?_, hc⟩
        simp only [sampleLower, if_neg h1, if_neg h2, lowerChar_of_other hc hk]
        exact List.mem_singleton_self c

/-- C2: `addFileToQueue` appends exactly one task (for the given file, with
its name and progress 0, behind the tasks already there) when the file name
contains a `.` and the lower-cased text after its final `.` is one of the
eleven media extensions; for every other name the manager is left as it was.
`photo.JPG` is queued, and so is `clip.m` + U+212A + `v`, whose extension
lower-cases to `mkv`; `photo.txt` and `mp4` are not.  The decision is the same
under every case mapping that lower-cases ASCII letters and the Kelvin sign to
ASCII and everything else to text outside ASCII, as Unicode does: for such a
mapping the test of the code and the filter of the specification are those of
the model. -/
theorem C2_addFileToQueue_filters_by_extension (rand : Nat → String) (s : State) (f : File) :
    ((specAllowed f.name ∧
        (addFileToQueue rand s f).queue.length = s.queue.length + 1 ∧
        (addFileToQueue rand s f).queue.map Task.core
          = s.queue.map Task.core ++ [(rand s.draws, f, f.name, 0)]) ∨
      (¬ specAllowed f.name ∧ addFileToQueue rand s f = s)) ∧
    (addFileToQueue rand s { name := "photo.JPG", handle := 0 }).queue.length
      = s.queue.length + 1 ∧
    addFileToQueue rand s { name := "photo.txt", handle := 0 } = s ∧
    addFileToQueue rand s { name := "mp4", handle := 0 } = s ∧
    (addFileToQueue rand s sampleKelvin).queue.length = s.queue.length + 1 ∧
    (∀ lower : List Char → Char → List Char → List Char, AsciiExact lower →
      isMediaWith lower f.name = isMedia f.name ∧
      (specAllowedWith lower f.name ↔ specAllowed f.name) ∧
      (isMediaWith lower f.name = true ↔ specAllowedWith lower f.name)) := by
  have hlen : ∀ g : File, isMedia g.name = true →
      (addFileToQueue rand s g).queue.length = s.queue.length + 1 := by
    intro g hg
    have := congrArg List.length (addFileToQueue_queue_core rand s hg)
    simpa using this
  refine ⟨?_, hlen _ (by decide), addFileToQueue_of_not_media rand s (by decide),
    addFileToQueue_of_not_media rand s (by decide), hlen _ isMedia_sampleKelvin.1, ?_⟩
  · by_cases hm : isMedia f.name = true
    · exact Or.inl ⟨(isMedia_iff _).mp hm, hlen f hm, addFileToQueue_queue_core rand s hm⟩
    · refine Or.inr ⟨fun h => hm ((isMedia_iff _).mpr h), ?_⟩
      exact addFileToQueue_of_not_media rand s (by simpa using hm)
  · intro lower hl
    refine ⟨isMediaWith_eq hl f.name, specAllowedWith_iff hl f.name, ?_⟩
    rw [isMediaWith_eq hl, specAllowedWith_iff hl]
    exact isMedia_iff f.name

/-! ## C3: a picked list on an idle manager -/

theorem findIndex_append_pending {q : List Task} {t : Task}
    (hq : ∀ u ∈ q, u.status ≠ Status.pending) (ht : t.status = Status.pending) :
    findIndex (fun q => q.status == Status.pending) (q ++ [t]) = some q.length := by
  induction q with
  | nil => simp [findIndex, ht]
  | cons u us ih =>
    have hu : u.status ≠ Status.pending := hq u (List.mem_cons_self _ _)
    have := ih (fun v hv => hq v (List.mem_cons_of_mem _ hv))
    simp [findIndex, hu, this]

theorem updateAt_length_append (f : Task → Task) (q : List Task) (t : Task) :
    updateAt f q.length (q ++ [t]) = q ++ [f t] := by
  induction q with
  | nil => rfl
  | cons u us ih => simp [updateAt, ih]

theorem statuses_replicate_mem {q : List Task} {n : Nat} {st : Status}
    (h : statuses q = List.replicate n st) : ∀ u ∈ q, u.status = st := by
  intro u hu
  have : u.status ∈ statuses q := List.mem_map.mpr ⟨u, hu, rfl⟩
  rw [h] at this
  exact (List.mem_replicate.mp this).2

theorem Filled.add_one (rand : Nat → String) {s : State} {k : Nat} (h : Filled k s)
    {f : File} (hm : isMedia f.name = true) : Filled (k + 1) (addFileToQueue rand s f) := by
  obtain ⟨hmax, hact, hst⟩ := h
  rw [addFileToQueue_of_media rand s hm]
  rcases Nat.lt_or_ge k 3 with hk | hk
  · have hk1 : min k 3 = k := by omega
    have hk2 : min (k + 1) 3 = k + 1 := by omega
    rw [hk1] at hact hst
    simp only [Nat.sub_self, List.replicate_zero, List.append_nil] at hst
    have hall := statuses_replicate_mem hst
    have hlen : s.queue.length = k := by
      have := congrArg List.length hst
      simpa [statuses] using this
    have hfind : findIndex (fun q => q.status == Status.pending)
        (s.queue ++ [{ id := rand s.draws, file := f, name := f.name, status := Status.pending,
                       progress := 0 }]) = some s.queue.length :=
      findIndex_append_pending (fun u hu => by rw [hall u hu]; decide) rfl
    rw [@processQueue_start _ s.queue.length (by simp; omega) (by simpa using hfind)]
    refine ⟨by simp [claimed, hmax], by simp [claimed, hact, hk2], ?_⟩
    simp only [uploadFile_queue, claimed, updateUI_queue, updateAt_length_append]
    rw [hk2]
    simp [statuses, List.replicate_succ', ← hst]
  · have hk1 : min k 3 = 3 := by omega
    have hk2 : min (k + 1) 3 = 3 := by omega
    rw [hk1] at hact hst
    rw [processQueue_full (by simp; omega)]
    refine ⟨by simpa using hmax, by simp [hact, hk2], ?_⟩
    simp only [updateUI_queue, hk2]
    have : k + 1 - 3 = (k - 3) + 1 := by omega
    rw [this]
    have hsplit : List.replicate (k - 3 + 1) Status.pending
        = List.replicate (k - 3) Status.pending ++ [Status.pending] := List.replicate_succ' _ _
    rw [hsplit, ← List.append_assoc, ← hst]
    simp [statuses]

theorem Filled.add_all (rand : Nat → String) (files : List File) {s : State} {k : Nat}
    (h : Filled k s) (hm : ∀ f ∈ files, isMedia f.name = true) :
    Filled (k + files.length) (files.foldl (addFileToQueue rand) s) := by
  induction files generalizing s k with
  | nil => exact h
  | cons f fs ih =>
    have h1 := h.add_one rand (hm f (List.mem_cons_self _ _))
    have := ih h1 (fun g hg => hm g (List.mem_cons_of_mem _ hg))
    simp only [List.foldl_cons, List.length_cons]
    rw [show k + (fs.length + 1) = k + 1 + fs.length by omega]
    exact this

theorem Filled.dispatch_eq {s : State} {k : Nat} (h : Filled k s) : processQueue s = s := by
  obtain ⟨hmax, hact, hst⟩ := h
  apply processQueue_noop
  rcases Nat.lt_or_ge k 3 with hk | hk
  · left
    have hk1 : min k 3 = k := by omega
    rw [hk1] at hst
    simp only [Nat.sub_self, List.replicate_zero, List.append_nil] at hst
    intro t ht
    rw [statuses_replicate_mem hst t ht]
    decide
  · right
    have hk1 : min k 3 = 3 := by omega
    rw [hk1] at hact
    omega

theorem foldl_add_queue_file (rand : Nat → String) (files : List File) (s : State)
    (hm : ∀ f ∈ files, isMedia f.name = true) :
    (files.foldl (addFileToQueue rand) s).queue.map (fun t => t.file)
      = s.queue.map (fun t => t.file) ++ files := by
  induction files generalizing s with
  | nil => simp
  | cons f fs ih =>
    have hf := hm f (List.mem_cons_self _ _)
    rw [List.foldl_cons, ih _ (fun g hg => hm g (List.mem_cons_of_mem _ hg))]
    have hc := congrArg (List.map (fun c : String × File × String × Nat => c.2.1))
      (addFileToQueue_queue_core rand s hf)
    simp only [List.map_map, List.map_append, List.map_cons, List.map_nil] at hc
    have he : ((fun c : String × File × String × Nat => c.2.1) ∘ Task.core)
        = fun t => t.file := rfl
    rw [he] at hc
    rw [hc]
    simp

/-- C3: `handleFilesInput`, given `n` files with allowed extensions on an idle
manager (empty queue, `activeUploads = 0`, `maxConcurrent = 3`), returns with
one task per file in the order given, the first `min n 3` of them uploading
and the remaining `n - min n 3` pending, and with `activeUploads = min n 3`. -/
theorem C3_handleFilesInput_starts_three (rand : Nat → String) (s : State) (now : DateTime)
    (files : List File) (hq : s.queue = []) (ha : s.activeUploads = 0)
    (hmax : s.maxConcurrent = 3) (hm : ∀ f ∈ files, isMedia f.name = true) :
    (handleFilesInput rand s now files).queue.map (fun t => t.file) = files ∧
    (handleFilesInput rand s now files).queue.map (fun t => t.status)
      = List.replicate (min files.length 3) Status.uploading
        ++ List.replicate (files.length - min files.length 3) Status.pending ∧
    (handleFilesInput rand s now files).activeUploads = ((min files.length 3 : Nat) : Int) := by
  have h0 : Filled 0 (beginIngest s now) := by
    unfold beginIngest setNewBatchId
    dsimp only
    split_ifs <;> simp [Filled, statuses, hq, ha, hmax]
  have h1 := Filled.add_all rand files h0 hm
  rw [Nat.zero_add] at h1
  have h2 : Filled files.length
      { files.foldl (addFileToQueue rand) (beginIngest s now) with
        gatheringFiles := false } := h1
  have hfile := foldl_add_queue_file rand files (beginIngest s now) hm
  have hq0 : (beginIngest s now).queue = [] := by
    unfold beginIngest setNewBatchId
    dsimp only
    split_ifs <;> exact hq
  unfold handleFilesInput endIngest
  rw [h2.dispatch_eq]
  simp only [updateUI_queue, updateUI_activeUploads]
  refine ⟨?_, h1.2.2, h1.2.1⟩
  rw [hfile, hq0]
  rfl

/-- C3 for five photos picked by the sample user on a fresh page: three
uploading, two pending. -/
theorem C3_handleFilesInput_starts_three_witness :
    sampleLoggedIn.queue = [] ∧ sampleLoggedIn.activeUploads = 0 ∧
    sampleLoggedIn.maxConcurrent = 3 ∧ (∀ f ∈ samplePhotos 5, isMedia f.name = true) ∧
    (handleFilesInput sampleRand sampleLoggedIn sampleTime (samplePhotos 5)).queue.map
        (fun t => t.file) = samplePhotos 5 ∧
    (handleFilesInput sampleRand sampleLoggedIn sampleTime (samplePhotos 5)).queue.map
        (fun t => t.status)
      = [Status.uploading, Status.uploading, Status.uploading, Status.pending, Status.pending] ∧
    (handleFilesInput sampleRand sampleLoggedIn sampleTime (samplePhotos 5)).activeUploads = 3 :=
  ⟨rfl, rfl, rfl, by decide,
    C3_handleFilesInput_starts_three sampleRand sampleLoggedIn sampleTime (samplePhotos 5)
      rfl rfl rfl (by decide)⟩

/-! ## C4: a finished upload frees its slot for one pending task -/

theorem statusAt_updateAt_ne (f : Task → Task) {i k : Nat} (q : List Task) (h : k ≠ i) :
    statusAt (updateAt f i q) k = statusAt q k := by
  unfold statusAt
  rw [updateAt_getElem?_ne f q h]

theorem statusAt_updateAt_eq (f : Task → Task) (i : Nat) (q : List Task) :
    statusAt (updateAt f i q) i = (q[i]?).map (fun t => (f t).status) := by
  unfold statusAt
  rw [updateAt_getElem?_eq]
  cases q[i]? <;> rfl

theorem complete_refill {s s1 : State} {i : Nat} (f : Task → Task)
    (hf : ∀ t, (f t).status = Status.success ∨ (f t).status = Status.error)
    (hact : s.activeUploads = s.maxConcurrent)
    (hpend : ∃ k, statusAt s.queue k = some Status.pending)
    (hup : statusAt s.queue i = some Status.uploading)
    (hs1 : s1 = afterUpload { s with inflight := s.inflight.erase i, queue := updateAt f i s.queue }) :
    s1.activeUploads = s.maxConcurrent ∧
    (statusAt s1.queue i = some Status.success ∨ statusAt s1.queue i = some Status.error) ∧
    ∃ j, statusAt s.queue j = some Status.pending ∧
      statusAt s1.queue j = some Status.uploading ∧
      (∀ k, k ≠ j → statusAt s.queue k = some Status.pending →
        statusAt s1.queue k = some Status.pending) ∧
      (∀ k, k ≠ j → statusAt s1.queue k = some Status.uploading →
        statusAt s.queue k = some Status.uploading) := by
  subst hs1
  obtain ⟨k0, hk0⟩ := hpend
  have hk0i : k0 ≠ i := by
    intro h; rw [h, hup] at hk0; cases hk0
  -- the finished task is terminal afterwards
  have hfin : statusAt (updateAt f i s.queue) i = some Status.success ∨
      statusAt (updateAt f i s.queue) i = some Status.error := by
    rw [statusAt_updateAt_eq]
    unfold statusAt at hup
    cases hq : s.queue[i]? with
    | none => rw [hq] at hup; cases hup
    | some t =>
      rcases hf t with h | h
      · left; simp [h]
      · right; simp [h]
  -- a pending task is found
  cases hfind : findIndex (fun q => q.status == Status.pending) (updateAt f i s.queue) with
  | none =>
    exfalso
    have hk0q : statusAt (updateAt f i s.queue) k0 = some Status.pending := by
      rw [statusAt_updateAt_ne f _ hk0i]; exact hk0
    unfold statusAt at hk0q
    cases hq : (updateAt f i s.queue)[k0]? with
    | none => rw [hq] at hk0q; cases hk0q
    | some t =>
      rw [hq] at hk0q
      have hmem : t ∈ updateAt f i s.queue := List.getElem?_mem hq
      have := findIndex_none hfind t hmem
      simp at hk0q
      simp [hk0q] at this
  | some j =>
    obtain ⟨u, hu, hpu, -⟩ := findIndex_some hfind
    have hus : u.status = Status.pending := by simpa using hpu
    have hjq : statusAt (updateAt f i s.queue) j = some Status.pending := by
      unfold statusAt; rw [hu]; simp [hus]
    have hji : j ≠ i := by
      intro h
      rw [h] at hjq
      rcases hfin with h1 | h1 <;> rw [h1] at hjq <;> cases hjq
    have hrun : afterUpload { s with inflight := s.inflight.erase i, queue := updateAt f i s.queue }
        = uploadFile (claimed (updateUI { s with inflight := s.inflight.erase i, queue := updateAt f i s.queue, activeUploads := s.activeUploads - 1 }) j) j := by
      unfold afterUpload
      exact processQueue_start (by simp; omega) (by simpa using hfind)
    rw [hrun]
    simp only [uploadFile_activeUploads, uploadFile_queue, claimed, updateUI_activeUploads,
      updateUI_queue]
    refine ⟨by omega, ?_, j, ?_, ?_, ?_, ?_⟩
    · rw [statusAt_updateAt_ne _ _ (Ne.symm hji)]; exact hfin
    · rw [← statusAt_updateAt_ne f _ hji]; exact hjq
    · rw [statusAt_updateAt_eq, hu]; rfl
    · intro k hkj hk
      have hki : k ≠ i := by
        intro h; rw [h, hup] at hk; cases hk
      rw [statusAt_updateAt_ne _ _ hkj, statusAt_updateAt_ne _ _ hki]
      exact hk
    · intro k hkj hk
      rw [statusAt_updateAt_ne _ _ hkj] at hk
      by_cases hki : k = i
      · rw [hki] at hk
        rcases hfin with h1 | h1 <;> rw [h1] at hk <;> cases hk
      · rw [statusAt_updateAt_ne _ _ hki] at hk
        exact hk

/-- C4: in a state with `activeUploads = maxConcurrent` and at least one
pending task, let the upload of an uploading task `i` finish, by `onload` with
any HTTP status or by `onerror`.  The event is delivered; afterwards
`activeUploads` is `maxConcurrent` again, task `i` is `success` or `error`,
one task `j` that was pending is uploading, every other pending task is
still pending, and no other task has become uploading. -/
theorem C4_completion_starts_one_pending (rand : Nat → String) (s : State) (i : Nat) (e : Event)
    (he : (∃ status, e = Event.load i status) ∨ e = Event.error i)
    (hact : s.activeUploads = s.maxConcurrent)
    (hpend : ∃ k, statusAt s.queue k = some Status.pending)
    (hin : i ∈ s.inflight)
    (hup : statusAt s.queue i = some Status.uploading) :
    ∃ s1, step rand s e = some s1 ∧
      s1.activeUploads = s.maxConcurrent ∧
      (statusAt s1.queue i = some Status.success ∨ statusAt s1.queue i = some Status.error) ∧
      ∃ j, statusAt s.queue j = some Status.pending ∧
        statusAt s1.queue j = some Status.uploading ∧
        (∀ k, k ≠ j → statusAt s.queue k = some Status.pending →
          statusAt s1.queue k = some Status.pending) ∧
        (∀ k, k ≠ j → statusAt s1.queue k = some Status.uploading →
          statusAt s.queue k = some Status.uploading) := by
  rcases he with ⟨status, rfl⟩ | rfl
  · by_cases h200 : status = 200
    · refine ⟨_, by simp only [step, hin, if_true, onload, h200]; rfl, ?_⟩
      exact complete_refill (fun t => { t with status := Status.success, progress := 100 })
        (fun _ => Or.inl rfl) hact hpend hup rfl
    · refine ⟨_, by simp only [step, hin, if_true, onload, h200, if_false]; rfl, ?_⟩
      exact complete_refill (fun t => { t with status := Status.error })
        (fun _ => Or.inr rfl) hact hpend hup rfl
  · refine ⟨_, by simp only [step, hin, if_true, onerror]; rfl, ?_⟩
    exact complete_refill (fun t => { t with status := Status.error })
      (fun _ => Or.inr rfl) hact hpend hup rfl

/-- C4 at a concrete state: the first of three running uploads finishes with
HTTP status 200 while two tasks wait. -/
theorem C4_completion_starts_one_pending_witness :
    sampleBusy.activeUploads = sampleBusy.maxConcurrent ∧
    statusAt sampleBusy.queue 3 = some Status.pending ∧
    0 ∈ sampleBusy.inflight ∧
    statusAt sampleBusy.queue 0 = some Status.uploading ∧
    ∃ s1, step sampleRand sampleBusy (Event.load 0 200) = some s1 ∧
      s1.activeUploads = sampleBusy.maxConcurrent ∧
      (statusAt s1.queue 0 = some Status.success ∨ statusAt s1.queue 0 = some Status.error) ∧
      ∃ j, statusAt sampleBusy.queue j = some Status.pending ∧
        statusAt s1.queue j = some Status.uploading ∧
        (∀ k, k ≠ j → statusAt sampleBusy.queue k = some Status.pending →
          statusAt s1.queue k = some Status.pending) ∧
        (∀ k, k ≠ j → statusAt s1.queue k = some Status.uploading →
          statusAt sampleBusy.queue k = some Status.uploading) :=
  ⟨by decide, by decide, by decide, by decide,
    C4_completion_starts_one_pending sampleRand sampleBusy 0 (Event.load 0 200)
      (Or.inl ⟨200, rfl⟩) (by decide) ⟨3, by decide⟩ (by decide) (by decide)⟩

/-! ## C5: `processQueue` without work or without capacity -/

/-- C5: when no task is pending, or when `activeUploads` has reached
`maxConcurrent`, calling `processQueue` any number of times returns the state
it was given: queue, statuses, progress values, `activeUploads`, `batchId`,
`gatheringFiles` and the record of requests are all unchanged. -/
theorem C5_processQueue_noop (s : State) (n : Nat)
    (h : (∀ t ∈ s.queue, t.status ≠ Status.pending) ∨ s.maxConcurrent ≤ s.activeUploads) :
    processQueue^[n] s = s := by
  induction n with
  | zero => rfl
  | succ n ih => rw [Function.iterate_succ_apply, processQueue_noop h, ih]

/-- C5 at a concrete state: three uploads running, two tasks waiting. -/
theorem C5_processQueue_noop_witness :
    sampleBusy.maxConcurrent ≤ sampleBusy.activeUploads ∧
    processQueue^[2] sampleBusy = sampleBusy :=
  ⟨by decide, C5_processQueue_noop sampleBusy 2 (Or.inr (by decide))⟩

/-! ## C6: statuses only move forward -/

theorem Dispatched.refl (s : State) : Dispatched s s :=
  fun _ _ h => Or.inl h

theorem Dispatched.of_queue_eq {s s1 : State} (h : s1.queue = s.queue) : Dispatched s s1 := by
  intro k a hk
  rw [h]; exact Or.inl hk

theorem Dispatched.trans {s s1 s2 : State} (h1 : Dispatched s s1) (h2 : Dispatched s1 s2) :
    Dispatched s s2 := by
  intro k a hk
  rcases h1 k a hk with h | ⟨ha, h⟩
  · exact h2 k a h
  · rcases h2 k _ h with h3 | ⟨h3, -⟩
    · exact Or.inr ⟨ha, h3⟩
    · cases h3

theorem dispatched_updateUI (s : State) : Dispatched s (updateUI s) :=
  Dispatched.of_queue_eq (by simp)

theorem dispatched_processQueue (s : State) : Dispatched s (processQueue s) := by
  rcases processQueue_cases s with he | ⟨next, -, hfind, he⟩
  · rw [he]; exact Dispatched.refl s
  · obtain ⟨t, ht, hp, -⟩ := findIndex_some hfind
    have hpend : t.status = Status.pending := by simpa using hp
    rw [he]
    intro k a hk
    simp only [uploadFile_queue, claimed, updateUI_queue]
    by_cases hkn : k = next
    · subst hkn
      right
      have : a = Status.pending := by
        unfold statusAt at hk
        rw [ht] at hk
        simp at hk
        rw [← hk, hpend]
      refine ⟨this, ?_⟩
      rw [statusAt_updateAt_eq, ht]
      rfl
    · left
      rw [statusAt_updateAt_ne _ _ hkn]
      exact hk

theorem statusAt_append_of_some {q : List Task} {k : Nat} {a : Status} (t : Task)
    (h : statusAt q k = some a) : statusAt (q ++ [t]) k = some a := by
  unfold statusAt at h ⊢
  have hlt : k < q.length := by
    rcases Nat.lt_or_ge k q.length with hlt | hge
    · exact hlt
    · rw [List.getElem?_eq_none hge] at h; cases h
  rw [List.getElem?_append_left hlt]
  exact h

theorem dispatched_addFileToQueue (rand : Nat → String) (s : State) (f : File) :
    Dispatched s (addFileToQueue rand s f) := by
  by_cases hm : isMedia f.name = true
  · rw [addFileToQueue_of_media rand s hm]
    refine Dispatched.trans ?_ (dispatched_processQueue _)
    refine Dispatched.trans ?_ (dispatched_updateUI _)
    intro k a hk
    exact Or.inl (statusAt_append_of_some _ hk)
  · rw [addFileToQueue_of_not_media rand s (by simpa using hm)]
    exact Dispatched.refl s

theorem dispatched_beginIngest (s : State) (now : DateTime) :
    Dispatched s (beginIngest s now) := by
  apply Dispatched.of_queue_eq
  unfold beginIngest setNewBatchId
  dsimp only
  split_ifs <;> rfl

theorem dispatched_endIngest (s : State) : Dispatched s (endIngest s) := by
  unfold endIngest
  have h0 : Dispatched s { s with gatheringFiles := false } := Dispatched.of_queue_eq rfl
  exact (h0.trans (dispatched_processQueue _)).trans (dispatched_updateUI _)

theorem dispatched_foldl_add (rand : Nat → String) (files : List File) (s : State) :
    Dispatched s (files.foldl (addFileToQueue rand) s) := by
  induction files generalizing s with
  | nil => exact Dispatched.refl s
  | cons f fs ih => exact (dispatched_addFileToQueue rand s f).trans (ih _)

theorem dispatched_handleFilesInput (rand : Nat → String) (s : State) (now : DateTime)
    (files : List File) : Dispatched s (handleFilesInput rand s now files) :=
  ((dispatched_beginIngest s now).trans (dispatched_foldl_add rand files _)).trans
    (dispatched_endIngest _)

theorem dispatched_addFallback (rand : Nat → String) (files : List (Option File)) (s : State) :
    Dispatched s (addFallback rand s files) := by
  unfold addFallback
  induction files generalizing s with
  | nil => exact Dispatched.refl s
  | cons f fs ih =>
    cases f with
    | none => exact ih s
    | some file => exact (dispatched_addFileToQueue rand s file).trans (ih _)

theorem dispatched_handleDropEvent (rand : Nat → String) (s : State) (now : DateTime)
    (dt : DataTransfer) : Dispatched s (handleDropEvent rand s now dt) := by
  have h1 := (dispatched_beginIngest s now).trans
    (dispatched_addFallback rand (fallbackFiles dt) (beginIngest s now))
  unfold handleDropEvent
  dsimp only
  split
  · exact h1.trans (dispatched_endIngest _)
  · exact h1.trans (Dispatched.of_queue_eq rfl)

theorem dispatched_resume (s : State) (stack : List Frame) (rest : List Entry) :
    Dispatched s (resume s stack rest).1 := by
  unfold resume
  split
  · exact Dispatched.refl s
  · exact Dispatched.refl s
  · split
    · exact Dispatched.refl s
    · exact dispatched_endIngest s

theorem dispatched_onCallback (rand : Nat → String) (s : State) (w : Walk)
    {r : State × Option Walk} (hr : onCallback rand s w = some r) : Dispatched s r.1 := by
  unfold onCallback at hr
  split at hr
  · cases hr; exact (dispatched_addFileToQueue rand s _).trans (dispatched_resume _ _ _)
  · cases hr; exact dispatched_resume _ _ _
  · cases hr; exact dispatched_resume _ _ _
  · cases hr
  · cases hr; exact dispatched_resume _ _ _
  · cases hr; exact Dispatched.refl s

theorem dispatched_park (k : Nat) (r : State × Option Walk) : Dispatched r.1 (park k r) := by
  unfold park
  split <;> exact Dispatched.of_queue_eq rfl

theorem dispatched_onprogress (s : State) (i : Nat) (e : ProgressEvent) :
    Dispatched s (onprogress s i e) := by
  unfold onprogress
  split
  · refine Dispatched.trans ?_ (dispatched_updateUI _)
    intro k a hk
    left
    show statusAt (updateAt _ i s.queue) k = some a
    by_cases hki : k = i
    · subst hki
      rw [statusAt_updateAt_eq]
      unfold statusAt at hk
      cases hq : s.queue[k]? with
      | none => rw [hq] at hk; cases hk
      | some t => rw [hq] at hk; exact hk
    · rw [statusAt_updateAt_ne _ _ hki]; exact hk
  · exact Dispatched.refl s

theorem dispatched_afterUpload (s : State) : Dispatched s (afterUpload s) := by
  unfold afterUpload
  have h0 : Dispatched s { s with activeUploads := s.activeUploads - 1 } :=
    Dispatched.of_queue_eq rfl
  exact (h0.trans (dispatched_updateUI _)).trans (dispatched_processQueue _)

theorem forward_of_dispatched {s s1 : State} (h : Dispatched s s1) {k : Nat} {a : Status}
    (hk : statusAt s.queue k = some a) :
    ∃ b, statusAt s1.queue k = some b ∧ Status.forward a b = true := by
  rcases h k a hk with h1 | ⟨ha, h1⟩
  · exact ⟨a, h1, by cases a <;> rfl⟩
  · exact ⟨_, h1, by rw [ha]; rfl⟩

theorem forward_complete {s s1 : State} (hinv : Inv s) {i : Nat} (hi : i ∈ s.inflight)
    (f : Task → Task) (hf : ∀ t, (f t).status = Status.success ∨ (f t).status = Status.error)
    (hs1 : s1 = afterUpload { s with inflight := s.inflight.erase i, queue := updateAt f i s.queue })
    {k : Nat} {a : Status} (hk : statusAt s.queue k = some a) :
    ∃ b, statusAt s1.queue k = some b ∧ Status.forward a b = true := by
  subst hs1
  obtain ⟨t, ht, hts⟩ := hinv.inflight_uploading i hi
  have hd := dispatched_afterUpload
    { s with inflight := s.inflight.erase i, queue := updateAt f i s.queue }
  by_cases hki : k = i
  · subst hki
    have ha : a = Status.uploading := by
      unfold statusAt at hk
      rw [ht] at hk
      simp at hk
      rw [← hk, hts]
    have hmid : statusAt (updateAt f k s.queue) k = some (f t).status := by
      rw [statusAt_updateAt_eq, ht]; rfl
    rcases hd k _ hmid with h1 | ⟨h1, -⟩
    · refine ⟨_, h1, ?_⟩
      rw [ha]
      rcases hf t with h | h <;> rw [h] <;> rfl
    · rcases hf t with h | h <;> rw [h] at h1 <;> cases h1
  · have hmid : statusAt (updateAt f i s.queue) k = some a := by
      rw [statusAt_updateAt_ne _ _ hki]; exact hk
    exact forward_of_dispatched hd hmid

/-- C6: in every reachable state, one event moves the status of every task
at most one place forward along `pending`, `uploading`, then `success` or
`error`: the task is still in the queue at the same position, and its new
status is the old one, or `uploading` after `pending`, or `success` or `error`
after `uploading`.  So no status returns to `pending`, a `success` or `error`
stays what it is, and `pending` never turns into `success` or `error`
directly. -/
theorem C6_status_moves_forward (rand : Nat → String) (view : String) (s s1 : State) (e : Event)
    (hreach : Reachable rand view s) (hstep : step rand s e = some s1) (k : Nat) (a : Status)
    (hk : statusAt s.queue k = some a) :
    ∃ b, statusAt s1.queue k = some b ∧ Status.forward a b = true := by
  have hinv := Inv.of_reachable hreach
  cases e with
  | login u => cases hstep; exact forward_of_dispatched (Dispatched.of_queue_eq rfl) hk
  | navigate v => cases hstep; exact forward_of_dispatched (Dispatched.of_queue_eq rfl) hk
  | addFile f => cases hstep; exact forward_of_dispatched (dispatched_addFileToQueue rand s f) hk
  | dispatch => cases hstep; exact forward_of_dispatched (dispatched_processQueue s) hk
  | filesInput now files =>
    cases hstep; exact forward_of_dispatched (dispatched_handleFilesInput rand s now files) hk
  | drop now dt =>
    cases hstep; exact forward_of_dispatched (dispatched_handleDropEvent rand s now dt) hk
  | fsCallback j =>
    simp only [step] at hstep
    split at hstep
    · cases hstep
    · rename_i w hw
      cases hr : onCallback rand s w with
      | none => rw [hr] at hstep; cases hstep
      | some r =>
        rw [hr] at hstep
        cases hstep
        exact forward_of_dispatched
          ((dispatched_onCallback rand s w hr).trans (dispatched_park j r)) hk
  | progress i ev =>
    simp only [step] at hstep
    split at hstep
    · cases hstep; exact forward_of_dispatched (dispatched_onprogress s i ev) hk
    · cases hstep
  | load i status =>
    simp only [step] at hstep
    split at hstep
    · rename_i hi
      cases hstep
      unfold onload
      split
      · exact forward_complete hinv hi _ (fun _ => Or.inl rfl) rfl hk
      · exact forward_complete hinv hi _ (fun _ => Or.inr rfl) rfl hk
    · cases hstep
  | error i =>
    simp only [step] at hstep
    split at hstep
    · rename_i hi
      cases hstep
      exact forward_complete hinv hi _ (fun _ => Or.inr rfl) rfl hk
    · cases hstep

/-- C6 at a concrete step: the first running upload of the sample manager
finishes with HTTP status 200. -/
theorem C6_status_moves_forward_witness :
    statusAt sampleBusy.queue 0 = some Status.uploading ∧
    ∃ b, statusAt (afterUpload (onload { sampleBusy with inflight := sampleBusy.inflight.erase 0 }
        0 200)).queue 0 = some b ∧ Status.forward Status.uploading b = true :=
  ⟨by decide,
    C6_status_moves_forward sampleRand "files" sampleBusy _ (Event.load 0 200)
      sampleBusy_reachable rfl 0 Status.uploading (by decide)⟩

/-! ## C7: a settled manager has no active batch -/

theorem settled_updateUI (s : State) : Settled (updateUI s) := by
  intro hopen hg
  simp only [updateUI_queue, updateUI_gatheringFiles] at hopen hg
  have hfil : s.queue.filter isOpen = [] := List.filter_eq_nil_iff.mpr (by simpa using hopen)
  unfold updateUI
  dsimp only
  by_cases hb : s.batchId = none
  · simp [hfil, hg, hb]
  · simp [hfil, hg, hb]

theorem exists_open_of_statusAt {q : List Task} {k : Nat}
    (h : statusAt q k = some Status.uploading) : ∃ t ∈ q, isOpen t = true := by
  unfold statusAt at h
  cases hq : q[k]? with
  | none => rw [hq] at h; cases h
  | some t =>
    rw [hq] at h
    simp at h
    exact ⟨t, List.getElem?_mem hq, by simp [isOpen, h]⟩

theorem settled_processQueue {s : State} (h : Settled s) : Settled (processQueue s) := by
  rcases processQueue_cases s with he | ⟨next, -, hfind, he⟩
  · rw [he]; exact h
  · obtain ⟨t, ht, -, -⟩ := findIndex_some hfind
    intro hopen
    exfalso
    have hup : statusAt (processQueue s).queue next = some Status.uploading := by
      rw [he]
      simp only [uploadFile_queue, claimed, updateUI_queue]
      rw [statusAt_updateAt_eq, ht]; rfl
    obtain ⟨u, hu, huo⟩ := exists_open_of_statusAt hup
    rw [hopen u hu] at huo
    cases huo

theorem settled_addFileToQueue (rand : Nat → String) {s : State} (h : Settled s) (f : File) :
    Settled (addFileToQueue rand s f) := by
  unfold addFileToQueue
  split
  · exact h
  · exact settled_processQueue (settled_updateUI _)

theorem settled_endIngest (s : State) : Settled (endIngest s) :=
  settled_updateUI _

theorem settled_resume {s : State} (h : Settled s) (stack : List Frame) (rest : List Entry) :
    Settled (resume s stack rest).1 := by
  unfold resume
  split
  · exact h
  · exact h
  · split
    · exact h
    · exact settled_endIngest s

theorem settled_onCallback (rand : Nat → String) {s : State} (h : Settled s) (w : Walk)
    {r : State × Option Walk} (hr : onCallback rand s w = some r) : Settled r.1 := by
  unfold onCallback at hr
  split at hr
  · cases hr; exact settled_resume (settled_addFileToQueue rand h _) _ _
  · cases hr; exact settled_resume h _ _
  · cases hr; exact settled_resume h _ _
  · cases hr
  · cases hr; exact settled_resume h _ _
  · cases hr; exact h

theorem settled_park {r : State × Option Walk} (h : Settled r.1) (k : Nat) :
    Settled (park k r) := by
  unfold park
  split <;> exact h

theorem addFileToQueue_gatheringFiles (rand : Nat → String) (s : State) (f : File) :
    (addFileToQueue rand s f).gatheringFiles = s.gatheringFiles := by
  by_cases hm : isMedia f.name = true
  · rw [addFileToQueue_of_media rand s hm, processQueue_gatheringFiles, updateUI_gatheringFiles]
  · rw [addFileToQueue_of_not_media rand s (by simpa using hm)]

theorem addFallback_gatheringFiles (rand : Nat → String) (files : List (Option File))
    (s : State) : (addFallback rand s files).gatheringFiles = s.gatheringFiles := by
  unfold addFallback
  induction files generalizing s with
  | nil => rfl
  | cons f fs ih =>
    cases f with
    | none => exact ih s
    | some file =>
      simp only [List.foldl_cons]
      rw [ih, addFileToQueue_gatheringFiles]

theorem beginIngest_gatheringFiles (s : State) (now : DateTime) :
    (beginIngest s now).gatheringFiles = true := by
  unfold beginIngest setNewBatchId
  dsimp only
  split_ifs <;> rfl

theorem settled_handleDropEvent (rand : Nat → String) (s : State) (now : DateTime)
    (dt : DataTransfer) : Settled (handleDropEvent rand s now dt) := by
  unfold handleDropEvent
  dsimp only
  split
  · exact settled_endIngest _
  · intro _ hg
    have : (addFallback rand (beginIngest s now) (fallbackFiles dt)).gatheringFiles = true := by
      rw [addFallback_gatheringFiles, beginIngest_gatheringFiles]
    rw [this] at hg
    cases hg

theorem settled_onprogress {s : State} (h : Settled s) (i : Nat) (e : ProgressEvent) :
    Settled (onprogress s i e) := by
  unfold onprogress
  split
  · exact settled_updateUI _
  · exact h

theorem settled_afterUpload (s : State) : Settled (afterUpload s) :=
  settled_processQueue (settled_updateUI _)

theorem settled_step (rand : Nat → String) {s s1 : State} (h : Settled s) (e : Event)
    (hs : step rand s e = some s1) : Settled s1 := by
  cases e with
  | login u => cases hs; exact h
  | navigate v => cases hs; exact h
  | addFile f => cases hs; exact settled_addFileToQueue rand h f
  | dispatch => cases hs; exact settled_processQueue h
  | filesInput now files => cases hs; exact settled_endIngest _
  | drop now dt => cases hs; exact settled_handleDropEvent rand s now dt
  | fsCallback k =>
    simp only [step] at hs
    split at hs
    · cases hs
    · rename_i w hw
      cases hr : onCallback rand s w with
      | none => rw [hr] at hs; cases hs
      | some r =>
        rw [hr] at hs
        cases hs
        exact settled_park (settled_onCallback rand h w hr) k
  | progress i ev =>
    simp only [step] at hs
    split at hs
    · cases hs; exact settled_onprogress h i ev
    · cases hs
  | load i status =>
    simp only [step] at hs
    split at hs
    · cases hs; exact settled_afterUpload _
    · cases hs
  | error i =>
    simp only [step] at hs
    split at hs
    · cases hs; exact settled_afterUpload _
    · cases hs

theorem settled_of_reachable {rand : Nat → String} {view : String} {s : State}
    (h : Reachable rand view s) : Settled s := by
  induction h with
  | init => intro _ _; rfl
  | step e _ hs ih => exact settled_step rand ih e hs

/-- C7: in every reachable state (between two events, so with no handler or
continuation running) in which no task is pending or uploading and
`gatheringFiles` is false, `batchId` is `null`; an ingest that starts there
therefore calls `setNewBatchId` and holds the identifier made from its own
clock reading. -/
theorem C7_batch_unset_when_settled (rand : Nat → String) (view : String) (s : State)
    (now : DateTime) (hreach : Reachable rand view s)
    (hopen : ∀ t ∈ s.queue, t.status ≠ Status.pending ∧ t.status ≠ Status.uploading)
    (hg : s.gatheringFiles = false) :
    s.batchId = none ∧ (beginIngest s now).batchId = some (timestamp now) := by
  have hb : s.batchId = none :=
    settled_of_reachable hreach (fun t ht => by simp [isOpen, hopen t ht]) hg
  refine ⟨hb, ?_⟩
  unfold beginIngest setNewBatchId
  simp [hb]

/-- C7 at a concrete state: one photo was picked and its upload has finished. -/
theorem C7_batch_unset_when_settled_witness :
    (∀ t ∈ sampleDone.queue, t.status ≠ Status.pending ∧ t.status ≠ Status.uploading) ∧
    sampleDone.gatheringFiles = false ∧
    sampleDone.batchId = none ∧
    (beginIngest sampleDone sampleTime).batchId = some (timestamp sampleTime) :=
  ⟨by decide, by decide,
    C7_batch_unset_when_settled sampleRand "files" sampleDone sampleTime sampleDone_reachable
      (by decide) (by decide)⟩

/-! ## C8 and C9: overlapping ingests -/

/-- C8, the code at a failing run: the sample user drops a directory, and
while its traversal is suspended in `readEntries` (one walk outstanding,
`gatheringFiles` true, batch `20240105_070809` active) the file picker
delivers `notes.txt`.  `handleFilesInput` skips the file, sets
`gatheringFiles` to false, and its closing `updateUI` finds nothing pending and
clears `batchId`, although the walk has not finished. -/
theorem C8_batch_cleared_during_traversal :
    ∃ s1 s2,
      run sampleRand (init "files")
        [Event.login sampleUser, Event.drop sampleTime sampleDrop] = some s1 ∧
      step sampleRand s1 (Event.filesInput sampleTime [sampleNote]) = some s2 ∧
      s1.walks.length = 1 ∧ s1.gatheringFiles = true ∧ s1.batchId = some "20240105_070809" ∧
      s2.walks.length = 1 ∧ s2.gatheringFiles = false ∧ s2.batchId = none :=
  ⟨_, _, rfl, rfl, by decide, by decide, by decide, by decide, by decide, by decide⟩

/-- C9, the code at a failing run: after the run of C8 the walk goes on, reads
`a.jpg` and enqueues it; `processQueue` starts it at once and `uploadFile`
builds the only request of the run with `this.batchId` being `null`. -/
theorem C9_request_built_without_batch :
    (run sampleRand (init "files")
        [Event.login sampleUser, Event.drop sampleTime sampleDrop,
          Event.filesInput sampleTime [sampleNote], Event.fsCallback 0, Event.fsCallback 0]).map
      (fun s => (s.queue.map (fun t => (t.name, t.status)),
        s.sent.map (fun r => (r.fileName, r.upload_batch_id))))
      = some ([("a.jpg", Status.uploading)], [("a.jpg", none)]) := by
  decide

/-! ## C10: the traversal of a dropped tree -/

theorem traverseFileTree_files (e : Entry) (stack : List Frame) (rest : List Entry) :
    (traverseFileTree e stack rest).files = e.files ++ filesOfStack stack ++ filesOfList rest := by
  cases e <;> simp [traverseFileTree, Walk.files, Entry.files]

theorem traverseFileTree_reads (e : Entry) (stack : List Frame) (rest : List Entry) :
    (traverseFileTree e stack rest).reads = e.reads + readsOfStack stack + readsOfList rest := by
  cases e <;> simp [traverseFileTree, Walk.reads, Entry.reads]

theorem traverseFileTree_ok (e : Entry) (stack : List Frame) (rest : List Entry) :
    (traverseFileTree e stack rest).ok = (e.ok && okStack stack && okList rest) := by
  cases e <;> simp [traverseFileTree, Walk.ok, Entry.ok]

theorem mediaOf_append (a b : List File) : mediaOf (a ++ b) = mediaOf a ++ mediaOf b := by
  simp [mediaOf]

@[simp] theorem queueFiles_updateUI (s : State) : queueFiles (updateUI s) = queueFiles s := by
  simp [queueFiles]

theorem processQueue_walks (s : State) : (processQueue s).walks = s.walks := by
  rcases processQueue_cases s with he | ⟨next, -, -, he⟩
  · rw [he]
  · rw [he]; simp [claimed]

theorem queueFiles_processQueue (s : State) : queueFiles (processQueue s) = queueFiles s := by
  rcases processQueue_cases s with he | ⟨next, -, -, he⟩
  · rw [he]
  · rw [he]
    simp only [queueFiles, uploadFile_queue, claimed, updateUI_queue]
    exact map_updateAt (fun t => t.file) (fun t => { t with status := Status.uploading })
      (fun _ => rfl) _ _

theorem queueFiles_addFileToQueue (rand : Nat → String) (s : State) (f : File) :
    queueFiles (addFileToQueue rand s f) = queueFiles s ++ mediaOf [f] := by
  by_cases hm : isMedia f.name = true
  · rw [addFileToQueue_of_media rand s hm, queueFiles_processQueue, queueFiles_updateUI]
    simp [queueFiles, mediaOf, hm]
  · rw [addFileToQueue_of_not_media rand s (by simpa using hm)]
    simp [mediaOf, hm]

theorem addFileToQueue_walks (rand : Nat → String) (s : State) (f : File) :
    (addFileToQueue rand s f).walks = s.walks := by
  by_cases hm : isMedia f.name = true
  · rw [addFileToQueue_of_media rand s hm, processQueue_walks, updateUI_walks]
  · rw [addFileToQueue_of_not_media rand s (by simpa using hm)]

theorem queueFiles_endIngest (s : State) : queueFiles (endIngest s) = queueFiles s := by
  unfold endIngest
  rw [queueFiles_updateUI, queueFiles_processQueue]
  rfl

theorem endIngest_walks (s : State) : (endIngest s).walks = s.walks := by
  unfold endIngest
  rw [updateUI_walks, processQueue_walks]

theorem endIngest_gatheringFiles (s : State) : (endIngest s).gatheringFiles = false := by
  unfold endIngest
  rw [updateUI_gatheringFiles, processQueue_gatheringFiles]

/-- What `resume` leaves: the manager as it was, unless the handler finishes,
and a suspension that covers exactly the files and callbacks of the stack and
of the remaining entries. -/
theorem resume_spec (s : State) (stack : List Frame) (rest : List Entry) :
    queueFiles (resume s stack rest).1 = queueFiles s ∧
    (resume s stack rest).1.walks = s.walks ∧
    filesLeft (resume s stack rest).2 = filesOfStack stack ++ filesOfList rest ∧
    readsLeft (resume s stack rest).2 = readsOfStack stack + readsOfList rest ∧
    okLeft (resume s stack rest).2 = (okStack stack && okList rest) ∧
    ((resume s stack rest).2 = none → (resume s stack rest).1.gatheringFiles = false) := by
  unfold resume
  split
  · rename_i e es more fails stk
    refine ⟨rfl, rfl, ?_, ?_, ?_, by intro h; cases h⟩
    · simp [filesLeft, traverseFileTree_files, filesOfStack, Frame.files, filesOfList]
    · simp only [readsLeft, traverseFileTree_reads, readsOfStack, Frame.reads, readsOfList]
      omega
    · simp only [okLeft, traverseFileTree_ok, okStack, Frame.ok, okList]
      cases e.ok <;> cases okList es <;> cases okPages more <;> cases fails <;> simp
  · rename_i more fails stk
    refine ⟨rfl, rfl, ?_, ?_, ?_, by intro h; cases h⟩
    · simp [filesLeft, Walk.files, filesOfStack, Frame.files, filesOfList]
    · simp only [readsLeft, Walk.reads, readsOfStack, Frame.reads, readsOfList]
      omega
    · simp only [okLeft, Walk.ok, okStack, Frame.ok, okList]
      cases okPages more <;> cases fails <;> simp
  · split
    · rename_i e es
      refine ⟨rfl, rfl, ?_, ?_, ?_, by intro h; cases h⟩
      · simp [filesLeft, traverseFileTree_files, filesOfStack, filesOfList]
      · simp only [readsLeft, traverseFileTree_reads, readsOfStack, readsOfList]
        omega
      · simp [okLeft, traverseFileTree_ok, okStack, okList]
    · refine ⟨queueFiles_endIngest s, endIngest_walks s, ?_, ?_, ?_, ?_⟩
      · simp [filesLeft, filesOfStack, filesOfList]
      · simp [readsLeft, readsOfStack, readsOfList]
      · simp [okLeft, okStack, okList]
      · intro _; exact endIngest_gatheringFiles s

/-- One callback of a well-behaved walk is delivered, enqueues what it has read
and leaves a well-behaved suspension with one callback fewer to wait for. -/
theorem onCallback_spec (rand : Nat → String) (s : State) (w : Walk) (hok : w.ok = true) :
    ∃ r, onCallback rand s w = some r ∧
      queueFiles r.1 ++ mediaOf (filesLeft r.2) = queueFiles s ++ mediaOf w.files ∧
      readsLeft r.2 + 1 = w.reads ∧
      okLeft r.2 = true ∧
      r.1.walks = s.walks ∧
      (r.2 = none → r.1.gatheringFiles = false) := by
  obtain ⟨wait, stack, rest⟩ := w
  simp only [Walk.ok, Bool.and_eq_true] at hok
  obtain ⟨⟨hwait, hstack⟩, hrest⟩ := hok
  cases wait with
  | file f readable =>
    simp only at hwait
    subst hwait
    obtain ⟨h1, h2, h3, h4, h5, h6⟩ := resume_spec (addFileToQueue rand s f) stack rest
    refine ⟨_, rfl, ?_, ?_, ?_, ?_, h6⟩
    · rw [h1, h3, queueFiles_addFileToQueue]
      have hw : Walk.files { wait := Wait.file f true, stack := stack, rest := rest }
          = [f] ++ (filesOfStack stack ++ filesOfList rest) := by simp [Walk.files]
      rw [hw]
      simp only [mediaOf_append, List.append_assoc]
    · rw [h4]; simp only [Walk.reads]; omega
    · rw [h5, hstack, hrest]; rfl
    · rw [h2, addFileToQueue_walks]
  | dir pages fails =>
    simp only [Bool.and_eq_true, Bool.not_eq_true'] at hwait
    obtain ⟨hf, hp⟩ := hwait
    subst hf
    cases pages with
    | nil =>
      obtain ⟨h1, h2, h3, h4, h5, h6⟩ := resume_spec s stack rest
      refine ⟨_, rfl, ?_, ?_, ?_, h2, h6⟩
      · rw [h1, h3]
        simp [Walk.files, filesOfPages]
      · rw [h4]; simp only [Walk.reads, readsOfPages]; omega
      · rw [h5, hstack, hrest]; rfl
    | cons p more =>
      cases p with
      | nil => simp [okPages] at hp
      | cons e es =>
        simp only [okPages, okList, List.isEmpty_cons, Bool.not_false, Bool.true_and,
          Bool.and_eq_true] at hp
        obtain ⟨⟨he, hes⟩, hmore⟩ := hp
        refine ⟨_, rfl, ?_, ?_, ?_, rfl, by intro h; cases h⟩
        · simp only [filesLeft, traverseFileTree_files]
          simp [Walk.files, filesOfStack, Frame.files, filesOfPages, filesOfList]
        · simp only [readsLeft, traverseFileTree_reads]
          simp only [Walk.reads, readsOfStack, Frame.reads, readsOfPages, readsOfList]
          omega
        · simp only [okLeft, traverseFileTree_ok]
          simp [okStack, Frame.ok, he, hes, hmore, hstack, hrest]

theorem walk_reads_pos (w : Walk) : 0 < w.reads := by
  obtain ⟨wait, stack, rest⟩ := w
  cases wait with
  | file f r => simp only [Walk.reads]; omega
  | dir pages fails =>
    cases pages <;> simp only [Walk.reads, readsOfPages] <;> omega

theorem eraseIdx_set_same {α : Type} (l : List α) (k : Nat) (a : α) :
    (l.set k a).eraseIdx k = l.eraseIdx k := by
  induction l generalizing k with
  | nil => rfl
  | cons x xs ih =>
    cases k with
    | zero => rfl
    | succ k => simp [List.set, List.eraseIdx, ih]

theorem eraseIdx_length_append_singleton {α : Type} (l : List α) (a : α) :
    (l ++ [a]).eraseIdx l.length = l := by
  induction l with
  | nil => rfl
  | cons x xs ih => simp [List.eraseIdx, ih]

theorem run_cons (rand : Nat → String) (s : State) (e : Event) (es : List Event) :
    run rand s (e :: es) = (step rand s e).bind (fun s1 => run rand s1 es) := rfl

/-- Delivering the callbacks of a well-behaved walk one after the other brings
its handler to its end: every media file the walk still had to visit is in the
queue, in traversal order, and the walk is gone. -/
theorem pump (rand : Nat → String) (k : Nat) (n : Nat) :
    ∀ (s : State) (w : Walk), s.walks[k]? = some w → w.ok = true → w.reads = n →
      ∃ s1, run rand s (List.replicate n (Event.fsCallback k)) = some s1 ∧
        queueFiles s1 = queueFiles s ++ mediaOf w.files ∧
        s1.walks = s.walks.eraseIdx k ∧
        s1.gatheringFiles = false := by
  induction n with
  | zero =>
    intro s w _ _ hn
    have := walk_reads_pos w
    omega
  | succ n ih =>
    intro s w hw hok hn
    obtain ⟨r, hr, hfiles, hreads, hokr, hwalks, hdone⟩ := onCallback_spec rand s w hok
    have hk : k < s.walks.length := by
      rcases Nat.lt_or_ge k s.walks.length with h | h
      · exact h
      · rw [List.getElem?_eq_none h] at hw; cases hw
    have hstep : step rand s (Event.fsCallback k) = some (park k r) := by
      simp only [step, hw, hr, Option.map_some']
    rw [List.replicate_succ, run_cons, hstep, Option.some_bind]
    obtain ⟨s', r2⟩ := r
    cases r2 with
    | none =>
      have hn0 : n = 0 := by
        simp only [readsLeft] at hreads
        omega
      subst hn0
      refine ⟨park k (s', none), rfl, ?_, ?_, ?_⟩
      · simpa [filesLeft, mediaOf] using hfiles
      · show s'.walks.eraseIdx k = s.walks.eraseIdx k
        rw [show s'.walks = s.walks from hwalks]
      · exact hdone rfl
    | some w1 =>
      have hw1 : (park k (s', some w1)).walks[k]? = some w1 := by
        show (s'.walks.set k w1)[k]? = some w1
        rw [show s'.walks = s.walks from hwalks]
        exact List.getElem?_set_self hk
      obtain ⟨s1, hrun, hq, hwk, hg⟩ := ih (park k (s', some w1)) w1 hw1 hokr
        (by simp only [readsLeft] at hreads; omega)
      refine ⟨s1, hrun, ?_, ?_, hg⟩
      · rw [hq]
        exact hfiles
      · rw [hwk]
        show (s'.walks.set k w1).eraseIdx k = s.walks.eraseIdx k
        rw [show s'.walks = s.walks from hwalks, eraseIdx_set_same]

theorem beginIngest_walks (s : State) (now : DateTime) : (beginIngest s now).walks = s.walks := by
  unfold beginIngest setNewBatchId
  dsimp only
  split_ifs <;> rfl

theorem queueFiles_beginIngest (s : State) (now : DateTime) :
    queueFiles (beginIngest s now) = queueFiles s := by
  unfold beginIngest setNewBatchId queueFiles
  dsimp only
  split_ifs <;> rfl

/-- C10: let `root` be a finite tree of file and directory entries in which
every file read succeeds, no directory read fails and every reader returns
non-empty batches followed by an empty one.  Dropping `root` and delivering
the `root.reads` callbacks of its traversal is possible from every state; the
handler then has finished (`gatheringFiles` is false, no walk is left behind),
and the queue has grown by exactly one task per file entry of the tree whose
name has an allowed extension, in traversal order.  The number of new tasks
depends only on the files of the tree as a multiset: it is the same for every
tree with the same files, however they are paginated or ordered.  The files
counted are those whose name the specification allows, and they are the same
under every case mapping that treats ASCII and the Kelvin sign as Unicode
does. -/
theorem C10_traversal_enqueues_media_files (rand : Nat → String) (s : State) (now : DateTime)
    (root : Entry) (hok : root.ok = true) :
    (∃ s1, run rand s (Event.drop now (dropOf root)
          :: List.replicate root.reads (Event.fsCallback s.walks.length)) = some s1 ∧
        queueFiles s1 = queueFiles s ++ mediaOf root.files ∧
        s1.queue.length = s.queue.length + (mediaOf root.files).length ∧
        s1.walks = s.walks ∧
        s1.gatheringFiles = false) ∧
    (∀ other : Entry, other.files.Perm root.files →
        (mediaOf other.files).length = (mediaOf root.files).length) ∧
    (∀ f : File, f ∈ mediaOf root.files ↔ f ∈ root.files ∧ specAllowed f.name) ∧
    (∀ lower : List Char → Char → List Char → List Char, AsciiExact lower →
        mediaOf root.files = root.files.filter (fun f => isMediaWith lower f.name)) := by
  refine ⟨?_, ?_, ?_, ?_⟩
  · have hdrop : handleDropEvent rand s now (dropOf root)
        = { beginIngest s now with
            walks := (beginIngest s now).walks ++ [traverseFileTree root [] []] } := by
      simp [handleDropEvent, dropOf, dropEntries, fallbackFiles, fileItems, addFallback]
    have hw : (handleDropEvent rand s now (dropOf root)).walks[s.walks.length]?
        = some (traverseFileTree root [] []) := by
      rw [hdrop]
      show ((beginIngest s now).walks ++ [traverseFileTree root [] []])[s.walks.length]? = _
      rw [beginIngest_walks]
      simp
    obtain ⟨s1, hrun, hq, hwk, hg⟩ := pump rand s.walks.length root.reads
      (handleDropEvent rand s now (dropOf root)) (traverseFileTree root [] []) hw
      (by rw [traverseFileTree_ok, hok]; rfl)
      (by rw [traverseFileTree_reads]; simp [readsOfStack, readsOfList])
    have hq1 : queueFiles s1 = queueFiles s ++ mediaOf root.files := by
      rw [hq, traverseFileTree_files, hdrop]
      show queueFiles (beginIngest s now) ++ _ = _
      rw [queueFiles_beginIngest]
      simp [filesOfStack, filesOfList]
    refine ⟨s1, ?_, hq1, ?_, ?_, hg⟩
    · rw [run_cons]
      show (some (handleDropEvent rand s now (dropOf root))).bind _ = _
      rw [Option.some_bind]
      exact hrun
    · have := congrArg List.length hq1
      simpa [queueFiles] using this
    · rw [hwk, hdrop]
      show ((beginIngest s now).walks ++ [traverseFileTree root [] []]).eraseIdx s.walks.length = _
      rw [beginIngest_walks]
      exact eraseIdx_length_append_singleton _ _
  · intro other hperm
    exact (hperm.filter _).length_eq
  · intro f
    unfold mediaOf
    rw [List.mem_filter, isMedia_iff]
  · intro lower hl
    unfold mediaOf
    apply List.filter_congr
    intro f _
    exact (isMediaWith_eq hl f.name).symm

/-- C10 for the sample tree, two media files in a directory and two in its
subdirectory, dropped by the sample user on a fresh page: four tasks. -/
theorem C10_traversal_enqueues_media_files_witness :
    sampleTree.ok = true ∧
    mediaOf sampleTree.files
      = [{ name := "a.jpg", handle := 1 }, { name := "c.png", handle := 3 },
         { name := "d.MP4", handle := 4 }, { name := "b.jpeg", handle := 2 }] ∧
    (∃ s1, run sampleRand sampleLoggedIn (Event.drop sampleTime (dropOf sampleTree)
          :: List.replicate sampleTree.reads (Event.fsCallback sampleLoggedIn.walks.length))
          = some s1 ∧
        queueFiles s1 = queueFiles sampleLoggedIn ++ mediaOf sampleTree.files ∧
        s1.queue.length = sampleLoggedIn.queue.length + (mediaOf sampleTree.files).length ∧
        s1.walks = sampleLoggedIn.walks ∧
        s1.gatheringFiles = false) ∧
    (∀ other : Entry, other.files.Perm sampleTree.files →
        (mediaOf other.files).length = (mediaOf sampleTree.files).length) ∧
    (∀ f : File, f ∈ mediaOf sampleTree.files ↔ f ∈ sampleTree.files ∧ specAllowed f.name) ∧
    (∀ lower : List Char → Char → List Char → List Char, AsciiExact lower →
        mediaOf sampleTree.files
          = sampleTree.files.filter (fun f => isMediaWith lower f.name)) :=
  ⟨by decide, by decide,
    C10_traversal_enqueues_media_files sampleRand sampleLoggedIn sampleTime sampleTree
      (by decide)⟩

/-- A directory with one file whose extension is written with the Kelvin
sign: the traversal enqueues it. -/
theorem traversal_kelvin_sample :
    sampleKelvinTree.ok = true ∧
    (run sampleRand sampleLoggedIn (Event.drop sampleTime (dropOf sampleKelvinTree)
        :: List.replicate sampleKelvinTree.reads (Event.fsCallback 0))).map queueFiles
      = some [sampleKelvin] := by
  decide

/-! ## C11: a directory whose read fails -/

/-- The walk of the locked drop is the only one, nothing is queued or in
flight, and the handler still holds `gatheringFiles`. -/
theorem locked_step {s s1 : State} {e : Event} (he : e.isIngest = false)
    (hq : s.queue = []) (hi : s.inflight = []) (hg : s.gatheringFiles = true)
    (hw : s.walks = [sampleLockedWalk]) (hs : step sampleRand s e = some s1) :
    s1.queue = [] ∧ s1.inflight = [] ∧ s1.gatheringFiles = true ∧
      s1.walks = [sampleLockedWalk] := by
  cases e with
  | login u => cases hs; exact ⟨hq, hi, hg, hw⟩
  | navigate v => cases hs; exact ⟨hq, hi, hg, hw⟩
  | addFile f => cases he
  | dispatch =>
    cases hs
    have : processQueue s = s := processQueue_noop (Or.inl (by rw [hq]; simp))
    rw [this]; exact ⟨hq, hi, hg, hw⟩
  | filesInput now files => cases he
  | drop now dt => cases he
  | fsCallback k =>
    exfalso
    simp only [step, hw] at hs
    cases k with
    | zero => simp [onCallback, sampleLockedWalk] at hs
    | succ k => simp at hs
  | progress i ev => simp [step, hi] at hs
  | load i status => simp [step, hi] at hs
  | error i => simp [step, hi] at hs

theorem locked_run (es : List Event) (hes : ∀ e ∈ es, e.isIngest = false) :
    ∀ s s1 : State, s.queue = [] → s.inflight = [] → s.gatheringFiles = true →
      s.walks = [sampleLockedWalk] → run sampleRand s es = some s1 →
      s1.queue = [] ∧ s1.gatheringFiles = true ∧ s1.walks = [sampleLockedWalk] := by
  induction es with
  | nil =>
    intro s s1 hq _ hg hw hr
    cases hr
    exact ⟨hq, hg, hw⟩
  | cons e es ih =>
    intro s s1 hq hi hg hw hr
    rw [run_cons] at hr
    cases hstep : step sampleRand s e with
    | none => rw [hstep] at hr; cases hr
    | some s2 =>
      rw [hstep, Option.some_bind] at hr
      obtain ⟨hq2, hi2, hg2, hw2⟩ :=
        locked_step (hes e (List.mem_cons_self _ _)) hq hi hg hw hstep
      exact ih (fun e1 h1 => hes e1 (List.mem_cons_of_mem _ h1)) s2 s1 hq2 hi2 hg2 hw2 hr

/-- C11, the code at a failing run: the sample user drops the directory
`locked`, whose read fails, followed by the photo `b.jpg`.  `readEntries` was
given no error callback, so the callback of the walk can never be delivered,
and whatever happens afterwards short of a new ingest, `handleDropEvent` stays
suspended: `gatheringFiles` is still true, the walk is still waiting with
`b.jpg` unvisited, and the queue is still empty. -/
theorem C11_unreadable_directory_blocks_the_drop (es : List Event) (s1 : State)
    (hes : ∀ e ∈ es, e.isIngest = false) (hrun : run sampleRand sampleLocked es = some s1) :
    step sampleRand s1 (Event.fsCallback 0) = none ∧
    s1.queue = [] ∧ s1.gatheringFiles = true ∧ s1.walks = [sampleLockedWalk] := by
  have h := locked_run es hes sampleLocked s1 rfl rfl rfl rfl hrun
  refine ⟨?_, h⟩
  simp [step, h.2.2, onCallback, sampleLockedWalk]

/-- C11 at a concrete continuation: a dispatch call and a change of view after
the drop. -/
theorem C11_unreadable_directory_blocks_the_drop_witness :
    step sampleRand ({ sampleLocked with view := "photos" }) (Event.fsCallback 0) = none ∧
    ({ sampleLocked with view := "photos" } : State).queue = [] ∧
    ({ sampleLocked with view := "photos" } : State).gatheringFiles = true ∧
    ({ sampleLocked with view := "photos" } : State).walks = [sampleLockedWalk] :=
  C11_unreadable_directory_blocks_the_drop [Event.dispatch, Event.navigate "photos"] _
    (by decide) rfl

/-! ## Completion events -/

theorem processQueue_getElem?_of_not_pending {s : State} {k : Nat} {t : Task}
    (hk : s.queue[k]? = some t) (ht : t.status ≠ Status.pending) :
    (processQueue s).queue[k]? = some t := by
  rcases processQueue_cases s with he | ⟨next, -, hfind, he⟩
  · rw [he]; exact hk
  · obtain ⟨u, hu, hp, -⟩ := findIndex_some hfind
    have hne : k ≠ next := by
      intro h
      rw [h, hu] at hk
      cases hk
      exact ht (by simpa using hp)
    rw [he]
    simp only [uploadFile_queue, claimed, updateUI_queue]
    rw [updateAt_getElem?_ne _ _ hne]
    exact hk

theorem handler_queue (s : State) (i : Nat) (o : Outcome) :
    (o.handler s i).queue = updateAt o.write i s.queue := by
  cases o with
  | response status =>
    simp only [Outcome.handler, onload]
    split
    · rename_i h
      have : Outcome.write (Outcome.response status)
          = fun t => { t with status := Status.success, progress := 100 } := by
        funext t; simp [Outcome.write, h]
      rw [this]
    · rename_i h
      have : Outcome.write (Outcome.response status)
          = fun t => { t with status := Status.error } := by
        funext t; simp [Outcome.write, h]
      rw [this]
  | networkError => rfl

theorem write_status (o : Outcome) (t : Task) : (o.write t).status = o.result := by
  cases o with
  | response status =>
    simp only [Outcome.write, Outcome.result]
    split <;> rfl
  | networkError => rfl

theorem result_ne_pending (o : Outcome) : o.result ≠ Status.pending := by
  cases o with
  | response status =>
    simp only [Outcome.result]
    split <;> decide
  | networkError => decide

theorem result_ne_uploading (o : Outcome) : o.result ≠ Status.uploading := by
  cases o with
  | response status =>
    simp only [Outcome.result]
    split <;> decide
  | networkError => decide

/-- The step of an outcome: the handler runs on the state without the request,
then the awaiting `processQueue` resumes. -/
theorem step_outcome (rand : Nat → String) {s : State} {i : Nat} (o : Outcome)
    (hin : i ∈ s.inflight) :
    step rand s (o.event i)
      = some (afterUpload (o.handler { s with inflight := s.inflight.erase i } i)) := by
  cases o <;> simp [Outcome.event, Outcome.handler, step, hin]

/-- After the whole completion event the finished task holds what its handler
wrote. -/
theorem step_outcome_task (rand : Nat → String) {s : State} {i : Nat} {t : Task} (o : Outcome)
    (hin : i ∈ s.inflight) (ht : s.queue[i]? = some t) :
    ∃ s1, step rand s (o.event i) = some s1 ∧ s1.queue[i]? = some (o.write t) := by
  refine ⟨_, step_outcome rand o hin, ?_⟩
  unfold afterUpload
  apply processQueue_getElem?_of_not_pending
  · simp only [updateUI_queue]
    show (o.handler { s with inflight := s.inflight.erase i } i).queue[i]? = _
    rw [handler_queue, updateAt_getElem?_eq]
    show (s.queue[i]?).map o.write = _
    rw [ht]; rfl
  · rw [write_status]; exact result_ne_pending o

/-! ## C12: a response with status 200 -/

/-- C12: when the request of a task that is in flight completes with HTTP
status 200, the event is delivered and afterwards the task has status
`success` and progress 100, whatever its progress was before; its other
fields are as they were. -/
theorem C12_status_200_sets_success (rand : Nat → String) (s : State) (i : Nat) (t : Task)
    (hin : i ∈ s.inflight) (ht : s.queue[i]? = some t) :
    ∃ s1, step rand s (Event.load i 200) = some s1 ∧
      s1.queue[i]? = some { t with status := Status.success, progress := 100 } :=
  step_outcome_task rand (Outcome.response 200) hin ht

/-- C12 at a concrete state: the only upload of the sample manager is answered
with HTTP status 200. -/
theorem C12_status_200_sets_success_witness :
    (0 ∈ sampleOne.inflight ∧ sampleOne.queue[0]? = some sampleTask) ∧
    ∃ s1, step sampleRand sampleOne (Event.load 0 200) = some s1 ∧
      s1.queue[0]? = some { sampleTask with status := Status.success, progress := 100 } :=
  ⟨⟨by decide, by decide⟩,
    C12_status_200_sets_success sampleRand sampleOne 0 sampleTask (by decide) (by decide)⟩

/-! ## C13: which outcomes end in `error` -/

/-- C13, the code at a failing input: the only upload of the sample manager is
answered with HTTP status 204, a status in 200..299, and the task ends in
`error`. -/
theorem C13_status_204_ends_in_error :
    (200 ≤ 204 ∧ 204 ≤ 299) ∧
    statusAt sampleOne.queue 0 = some Status.uploading ∧
    (step sampleRand sampleOne (Event.load 0 204)).map (fun s => statusAt s.queue 0)
      = some (some Status.error) := by
  decide

/-- C13 as amended: for every task in flight and every transport outcome, the
event is delivered and the task ends in `error` exactly when the transport
reported a network error or a response whose status is not 200, and in
`success` exactly when the response has status 200. -/
theorem C13_error_iff_not_status_200 (rand : Nat → String) (s : State) (i : Nat) (t : Task)
    (o : Outcome) (hin : i ∈ s.inflight) (ht : s.queue[i]? = some t) :
    ∃ s1 t1, step rand s (o.event i) = some s1 ∧ s1.queue[i]? = some t1 ∧
      (t1.status = Status.error ↔
        (o = Outcome.networkError ∨ ∃ status, o = Outcome.response status ∧ status ≠ 200)) ∧
      (t1.status = Status.success ↔ o = Outcome.response 200) := by
  obtain ⟨s1, hs, hq⟩ := step_outcome_task rand o hin ht
  refine ⟨s1, o.write t, hs, hq, ?_, ?_⟩
  · rw [write_status]
    cases o with
    | networkError => simp [Outcome.result]
    | response status =>
      by_cases h : status = 200 <;> simp [Outcome.result, h]
  · rw [write_status]
    cases o with
    | networkError => simp [Outcome.result]
    | response status =>
      by_cases h : status = 200 <;> simp [Outcome.result, h]

/-- The amended C13 at a concrete state: the only upload of the sample manager
is answered with HTTP status 204. -/
theorem C13_error_iff_not_status_200_witness :
    (0 ∈ sampleOne.inflight ∧ sampleOne.queue[0]? = some sampleTask) ∧
    ∃ s1 t1, step sampleRand sampleOne ((Outcome.response 204).event 0) = some s1 ∧
      s1.queue[0]? = some t1 ∧
      (t1.status = Status.error ↔
        (Outcome.response 204 = Outcome.networkError ∨
          ∃ status, Outcome.response 204 = Outcome.response status ∧ status ≠ 200)) ∧
      (t1.status = Status.success ↔ Outcome.response 204 = Outcome.response 200) :=
  ⟨⟨by decide, by decide⟩,
    C13_error_iff_not_status_200 sampleRand sampleOne 0 sampleTask (Outcome.response 204)
      (by decide) (by decide)⟩

/-! ## C14: a completion writes only its own task -/

theorem handler_fields (s : State) (i : Nat) (o : Outcome) :
    (o.handler s i).activeUploads = s.activeUploads ∧
    (o.handler s i).batchId = s.batchId ∧
    (o.handler s i).gatheringFiles = s.gatheringFiles := by
  cases o with
  | response status =>
    simp only [Outcome.handler, onload]
    split <;> exact ⟨rfl, rfl, rfl⟩
  | networkError => exact ⟨rfl, rfl, rfl⟩

theorem write_fields (o : Outcome) (t : Task) :
    (o.write t).id = t.id ∧ (o.write t).file = t.file ∧ (o.write t).name = t.name ∧
    (o.write t).progress = if o = Outcome.response 200 then 100 else t.progress := by
  cases o with
  | response status =>
    by_cases h : status = 200 <;> simp [Outcome.write, h]
  | networkError => simp [Outcome.write]

theorem processQueue_other_task (s : State) {k : Nat} {t : Task} (hk : s.queue[k]? = some t) :
    ∃ t1, (processQueue s).queue[k]? = some t1 ∧ t1.id = t.id ∧ t1.file = t.file ∧
      t1.name = t.name ∧ t1.progress = t.progress ∧
      (t1.status = t.status ∨
        (t.status = Status.pending ∧ t1.status = Status.uploading)) := by
  rcases processQueue_cases s with he | ⟨next, -, hfind, he⟩
  · rw [he]; exact ⟨t, hk, rfl, rfl, rfl, rfl, Or.inl rfl⟩
  · obtain ⟨u, hu, hp, -⟩ := findIndex_some hfind
    rw [he]
    simp only [uploadFile_queue, claimed, updateUI_queue]
    by_cases hkn : k = next
    · subst hkn
      rw [hu] at hk
      cases hk
      refine ⟨{ t with status := Status.uploading }, ?_, rfl, rfl, rfl, rfl,
        Or.inr ⟨by simpa using hp, rfl⟩⟩
      rw [updateAt_getElem?_eq, hu]; rfl
    · refine ⟨t, ?_, rfl, rfl, rfl, rfl, Or.inl rfl⟩
      rw [updateAt_getElem?_ne _ _ hkn]; exact hk

/-- C14: the completion handler of the request of task `i`, for every outcome
(status 200, another status, a network error), writes nothing but task `i`:
the queue keeps its length, every other position holds the identical task
(same id, file, name, status and progress), and `activeUploads`, `batchId`
and `gatheringFiles` are untouched.  Of task `i` it keeps id, file and name,
sets the status, and sets the progress to 100 only on status 200.  The
continuation that follows (`activeUploads--`, `updateUI`, `processQueue`)
keeps id, file, name and progress of every task and changes no status except
to start one pending task. -/
theorem C14_completion_writes_only_its_task (s : State) (i : Nat) (o : Outcome) :
    (o.handler s i).queue.length = s.queue.length ∧
    (∀ k, k ≠ i → (o.handler s i).queue[k]? = s.queue[k]?) ∧
    ((o.handler s i).activeUploads = s.activeUploads ∧
      (o.handler s i).batchId = s.batchId ∧
      (o.handler s i).gatheringFiles = s.gatheringFiles) ∧
    (∀ t : Task, s.queue[i]? = some t → ∃ t1, (o.handler s i).queue[i]? = some t1 ∧
      t1.id = t.id ∧ t1.file = t.file ∧ t1.name = t.name ∧ t1.status = o.result ∧
      t1.progress = if o = Outcome.response 200 then 100 else t.progress) ∧
    (∀ (k : Nat) (t : Task), (o.handler s i).queue[k]? = some t →
      ∃ t1, (afterUpload (o.handler s i)).queue[k]? = some t1 ∧
        t1.id = t.id ∧ t1.file = t.file ∧ t1.name = t.name ∧ t1.progress = t.progress ∧
        (t1.status = t.status ∨
          (t.status = Status.pending ∧ t1.status = Status.uploading))) := by
  refine ⟨?_, ?_, handler_fields s i o, ?_, ?_⟩
  · rw [handler_queue, updateAt_length]
  · intro k hk
    rw [handler_queue, updateAt_getElem?_ne _ _ hk]
  · intro t ht
    obtain ⟨h1, h2, h3, h4⟩ := write_fields o t
    refine ⟨o.write t, ?_, h1, h2, h3, write_status o t, h4⟩
    rw [handler_queue, updateAt_getElem?_eq, ht]; rfl
  · intro k t hk
    unfold afterUpload
    apply processQueue_other_task
    simpa using hk

/-! ## C15: the queue drains -/

theorem uploadFile_inflight_of {s : State} {i : Nat} {item : Task}
    (hu : s.user.isSome = true) (hq : s.queue[i]? = some item) :
    (uploadFile s i).inflight = s.inflight ++ [i] := by
  unfold uploadFile
  cases hus : s.user with
  | none => rw [hus] at hu; cases hu
  | some u => simp [hq]

theorem statusAt_eq_some {q : List Task} {k : Nat} {a : Status} :
    statusAt q k = some a ↔ ∃ t, q[k]? = some t ∧ t.status = a := by
  unfold statusAt
  cases q[k]? <;> simp

/-- What one call of `processQueue` keeps. -/
theorem Tracked.after_dispatch {s : State} (h : Tracked s) (out : Nat → Outcome) :
    Tracked (processQueue s) ∧ Fed (processQueue s) ∧
    openCount (processQueue s).queue = openCount s.queue ∧
    (processQueue s).queue.length = s.queue.length ∧
    (∀ (k : Nat) (t : Task), s.queue[k]? = some t →
      ∃ t1, (processQueue s).queue[k]? = some t1 ∧
        finalStatus out k t1 = finalStatus out k t) := by
  by_cases hfull : s.maxConcurrent ≤ s.activeUploads
  · rw [processQueue_full hfull]
    refine ⟨h, ?_, rfl, rfl, fun k t hk => ⟨t, hk, rfl⟩⟩
    intro _ hnil
    have h1 := h.active_eq
    have h2 := h.max_pos
    rw [hnil] at h1
    simp at h1
    omega
  · cases hfind : findIndex (fun q => q.status == Status.pending) s.queue with
    | none =>
      rw [processQueue_idle hfind]
      refine ⟨h, ?_, rfl, rfl, fun k t hk => ⟨t, hk, rfl⟩⟩
      rintro ⟨k, hk⟩
      exfalso
      obtain ⟨t, ht, hts⟩ := statusAt_eq_some.mp hk
      have := findIndex_none hfind t (List.getElem?_mem ht)
      simp [hts] at this
    | some next =>
      obtain ⟨t, ht, hp, -⟩ := findIndex_some hfind
      have hpend : t.status = Status.pending := by simpa using hp
      have hstart := processQueue_start (by omega) hfind
      have hq : (processQueue s).queue
          = updateAt (fun t => { t with status := Status.uploading }) next s.queue := by
        rw [hstart]; simp [claimed]
      have hnext : (claimed s next).queue[next]? = some { t with status := Status.uploading } := by
        simp only [claimed, updateUI_queue]
        rw [updateAt_getElem?_eq, ht]; rfl
      have hin : (processQueue s).inflight = s.inflight ++ [next] := by
        rw [hstart, uploadFile_inflight_of (by simpa [claimed] using h.user) hnext]
        simp [claimed]
      have hnot : next ∉ s.inflight := by
        intro hmem
        have := (h.inflight_iff next).mp hmem
        obtain ⟨u, hu, hus⟩ := statusAt_eq_some.mp this
        rw [ht] at hu; cases hu
        rw [hpend] at hus; cases hus
      have hact : (processQueue s).activeUploads = s.activeUploads + 1 := by
        rw [hstart]; simp [claimed]
      have hmax : (processQueue s).maxConcurrent = s.maxConcurrent := by
        rw [hstart]; simp [claimed]
      have huser : (processQueue s).user = s.user := by
        rw [hstart]; simp [claimed]
      refine ⟨?_, ?_, ?_, ?_, ?_⟩
      · constructor
        · rw [huser]; exact h.user
        · rw [hmax]; exact h.max_pos
        · rw [hact, hin, h.active_eq]; simp
        · rw [hact, hmax]; omega
        · rw [hin]
          exact List.Nodup.append h.nodup (List.nodup_singleton _) (by simpa using hnot)
        · intro j
          rw [hin, hq]
          by_cases hj : j = next
          · subst hj
            simp only [List.mem_append, List.mem_singleton, or_true, true_iff]
            rw [statusAt_updateAt_eq, ht]; rfl
          · rw [statusAt_updateAt_ne _ _ hj]
            simp only [List.mem_append, List.mem_singleton, hj, or_false]
            exact h.inflight_iff j
      · intro _
        rw [hin]; simp
      · rw [hq]
        have := filter_updateAt_length isOpen
          (fun t => { t with status := Status.uploading }) ht
        simp [isOpen, hpend] at this
        simpa [openCount, isOpen] using this
      · rw [hq, updateAt_length]
      · intro k u hk
        rw [hq]
        by_cases hkn : k = next
        · subst hkn
          rw [ht] at hk; cases hk
          refine ⟨{ t with status := Status.uploading }, ?_, ?_⟩
          · rw [updateAt_getElem?_eq, ht]; rfl
          · simp [finalStatus, isOpen, hpend]
        · exact ⟨u, by rw [updateAt_getElem?_ne _ _ hkn]; exact hk, rfl⟩


theorem handler_more_fields (s : State) (i : Nat) (o : Outcome) :
    (o.handler s i).user = s.user ∧ (o.handler s i).maxConcurrent = s.maxConcurrent ∧
    (o.handler s i).inflight = s.inflight := by
  cases o with
  | response status =>
    simp only [Outcome.handler, onload]
    split <;> exact ⟨rfl, rfl, rfl⟩
  | networkError => exact ⟨rfl, rfl, rfl⟩

/-- What the completion of one open request keeps, and what it achieves: one
task fewer is pending or uploading. -/
theorem Tracked.after_completion (rand : Nat → String) {s : State} (h : Tracked s)
    (out : Nat → Outcome) {i : Nat} (hin : i ∈ s.inflight) :
    ∃ s1, step rand s ((out i).event i) = some s1 ∧
      Tracked s1 ∧ Fed s1 ∧
      openCount s1.queue + 1 = openCount s.queue ∧
      s1.queue.length = s.queue.length ∧
      (∀ (k : Nat) (t : Task), s.queue[k]? = some t →
        ∃ t1, s1.queue[k]? = some t1 ∧ finalStatus out k t1 = finalStatus out k t) := by
  obtain ⟨t, ht, hts⟩ := statusAt_eq_some.mp ((h.inflight_iff i).mp hin)
  obtain ⟨hf1, hf2, hf3⟩ := handler_fields { s with inflight := s.inflight.erase i } i (out i)
  obtain ⟨hg1, hg2, hg3⟩ :=
    handler_more_fields { s with inflight := s.inflight.erase i } i (out i)
  have hq := handler_queue { s with inflight := s.inflight.erase i } i (out i)
  have hlen : 0 < s.inflight.length := List.length_pos.mpr (List.ne_nil_of_mem hin)
  -- the state in which the continuation calls `processQueue`
  have hmid : Tracked (updateUI { (out i).handler { s with inflight := s.inflight.erase i } i with activeUploads := ((out i).handler { s with inflight := s.inflight.erase i } i).activeUploads - 1 }) := by
    constructor
    · simp only [updateUI_user]; rw [hg1]; exact h.user
    · simp only [updateUI_maxConcurrent]; rw [hg2]; exact h.max_pos
    · simp only [updateUI_activeUploads, updateUI_inflight]
      rw [hf1, hg3]
      show s.activeUploads - 1 = ((s.inflight.erase i).length : Int)
      rw [h.active_eq, List.length_erase_of_mem hin]
      omega
    · simp only [updateUI_activeUploads, updateUI_maxConcurrent]
      rw [hf1, hg2]
      have := h.active_le
      show s.activeUploads - 1 ≤ s.maxConcurrent
      omega
    · simp only [updateUI_inflight]
      rw [hg3]
      exact h.nodup.erase i
    · intro j
      simp only [updateUI_inflight, updateUI_queue]
      rw [hg3, hq]
      show j ∈ s.inflight.erase i ↔ statusAt (updateAt (out i).write i s.queue) j = _
      by_cases hj : j = i
      · subst hj
        rw [statusAt_updateAt_eq, ht]
        constructor
        · intro hmem
          exact absurd hmem (List.Nodup.not_mem_erase h.nodup)
        · intro hst
          exfalso
          simp only [Option.map_some', Option.some.injEq] at hst
          rw [write_status] at hst
          exact result_ne_uploading _ hst
      · rw [statusAt_updateAt_ne _ _ hj]
        rw [List.mem_erase_of_ne hj]
        exact h.inflight_iff j
  obtain ⟨hT, hF, hc, hl, hfin⟩ := hmid.after_dispatch out
  refine ⟨_, step_outcome rand (out i) hin, hT, hF, ?_, ?_, ?_⟩
  · unfold afterUpload
    rw [hc]
    simp only [updateUI_queue]
    rw [hq]
    have := filter_updateAt_length isOpen (out i).write ht
    have h1 : isOpen t = true := by simp [isOpen, hts]
    have h2 : isOpen ((out i).write t) = false := by
      have e := write_status (out i) t
      have n1 := result_ne_pending (out i)
      have n2 := result_ne_uploading (out i)
      simp only [isOpen, e]
      cases hr : (out i).result <;> simp_all
    simp only [h1, h2, if_true] at this
    simpa [openCount] using this
  · unfold afterUpload
    rw [hl]
    simp only [updateUI_queue]
    rw [hq, updateAt_length]
  · intro k u hk
    have hwrite : ∃ u1, (updateAt (out i).write i s.queue)[k]? = some u1 ∧
        finalStatus out k u1 = finalStatus out k u := by
      by_cases hki : k = i
      · subst hki
        rw [ht] at hk; cases hk
        refine ⟨(out k).write t, by rw [updateAt_getElem?_eq, ht]; rfl, ?_⟩
        have e := write_status (out k) t
        have n1 := result_ne_pending (out k)
        have n2 := result_ne_uploading (out k)
        have h2 : isOpen ((out k).write t) = false := by
          simp only [isOpen, e]
          cases hr : (out k).result <;> simp_all
        simp [finalStatus, h2, isOpen, hts, e]
      · exact ⟨u, by rw [updateAt_getElem?_ne _ _ hki]; exact hk, rfl⟩
    obtain ⟨u1, hu1, hf⟩ := hwrite
    obtain ⟨u2, hu2, hf2⟩ := hfin k u1 (by simpa [hq] using hu1)
    exact ⟨u2, hu2, hf2.trans hf⟩


theorem openCount_pos_of_open {q : List Task} {k : Nat} {t : Task} (hk : q[k]? = some t)
    (ho : isOpen t = true) : 0 < openCount q := by
  unfold openCount
  apply List.length_pos.mpr
  intro hnil
  have : t ∈ q.filter isOpen := List.mem_filter.mpr ⟨List.getElem?_mem hk, ho⟩
  rw [hnil] at this
  cases this

theorem Tracked.inflight_ne_nil {s : State} (h : Tracked s) (hf : Fed s)
    (hpos : 0 < openCount s.queue) : s.inflight ≠ [] := by
  unfold openCount at hpos
  obtain ⟨t, ht⟩ := List.exists_mem_of_length_pos hpos
  obtain ⟨htq, hto⟩ := List.mem_filter.mp ht
  obtain ⟨k, hk⟩ := List.getElem?_of_mem htq
  have hst : t.status = Status.pending ∨ t.status = Status.uploading := by
    cases hs : t.status <;> simp [isOpen, hs] at hto ⊢
  rcases hst with hp | hu
  · exact hf ⟨k, statusAt_eq_some.mpr ⟨t, hk, hp⟩⟩
  · have := (h.inflight_iff k).mpr (statusAt_eq_some.mpr ⟨t, hk, hu⟩)
    exact List.ne_nil_of_mem this

/-- Draining a tracked manager in which no pending task waits alone: as many
completions as there are tasks pending or uploading empty the pool. -/
theorem drain_spec (rand : Nat → String) (pick : State → Nat) (out : Nat → Outcome)
    (hpick : ∀ s : State, s.inflight ≠ [] → pick s ∈ s.inflight) (n : Nat) :
    ∀ s : State, Tracked s → Fed s → openCount s.queue = n →
      ∃ s1, drain rand pick out n s = some s1 ∧ Tracked s1 ∧ s1.inflight = [] ∧
        openCount s1.queue = 0 ∧ s1.queue.length = s.queue.length ∧
        (∀ (k : Nat) (t : Task), s.queue[k]? = some t →
          ∃ t1, s1.queue[k]? = some t1 ∧ finalStatus out k t1 = finalStatus out k t) := by
  induction n with
  | zero =>
    intro s h _ hn
    refine ⟨s, rfl, h, ?_, hn, rfl, fun k t hk => ⟨t, hk, rfl⟩⟩
    cases hi : s.inflight with
    | nil => rfl
    | cons i rest =>
      exfalso
      have hmem : i ∈ s.inflight := by rw [hi]; exact List.mem_cons_self _ _
      obtain ⟨t, ht, hts⟩ := statusAt_eq_some.mp ((h.inflight_iff i).mp hmem)
      have := openCount_pos_of_open ht (by simp [isOpen, hts])
      omega
  | succ n ih =>
    intro s h hf hn
    have hne : s.inflight ≠ [] := h.inflight_ne_nil hf (by omega)
    obtain ⟨s2, hstep, hT, hF, hc, hl, hfin⟩ := h.after_completion rand out (hpick s hne)
    obtain ⟨s1, hd, hT1, hi1, hc1, hl1, hfin1⟩ := ih s2 hT hF (by omega)
    refine ⟨s1, ?_, hT1, hi1, hc1, hl1.trans hl, ?_⟩
    · simp only [drain, hne, if_false]
      rw [hstep, Option.some_bind]
      exact hd
    · intro k t hk
      obtain ⟨t2, ht2, hf2⟩ := hfin k t hk
      obtain ⟨t1, ht1, hf1⟩ := hfin1 k t2 ht2
      exact ⟨t1, ht1, hf1.trans hf2⟩

/-- C15: take a manager all of whose started uploads have their request (a
user is logged in, the tasks with an open request are exactly the uploading
ones, `activeUploads` counts them and is within a positive `maxConcurrent`),
any assignment `out` of an outcome to every task, and any rule `pick` for which
open request completes next.  Calling `processQueue` and then delivering
completions until no request is open ends after as many completions as there
were tasks pending or uploading.  In the final state no request is open,
`activeUploads` is 0, the queue has its old length, and every task is
`success` or `error`: a task that was pending or uploading has the result of
its own outcome (`success` for status 200, `error` otherwise), a task that was
finished has kept its status. -/
theorem C15_queue_drains (rand : Nat → String) (s : State) (pick : State → Nat)
    (out : Nat → Outcome) (h : Tracked s)
    (hpick : ∀ s1 : State, s1.inflight ≠ [] → pick s1 ∈ s1.inflight) :
    ∃ s1, drain rand pick out (openCount s.queue) (processQueue s) = some s1 ∧
      s1.inflight = [] ∧ s1.activeUploads = 0 ∧ s1.queue.length = s.queue.length ∧
      (∀ (k : Nat) (t : Task), s.queue[k]? = some t →
        ∃ t1, s1.queue[k]? = some t1 ∧ t1.status = finalStatus out k t ∧
          (t1.status = Status.success ∨ t1.status = Status.error)) := by
  obtain ⟨hT, hF, hc, hl, hfin⟩ := h.after_dispatch out
  obtain ⟨s1, hd, hT1, hi1, hc1, hl1, hfin1⟩ :=
    drain_spec rand pick out hpick (openCount s.queue) (processQueue s) hT hF hc
  refine ⟨s1, hd, hi1, ?_, hl1.trans hl, ?_⟩
  · rw [hT1.active_eq, hi1]; rfl
  · intro k t hk
    obtain ⟨t2, ht2, hf2⟩ := hfin k t hk
    obtain ⟨t1, ht1, hf1⟩ := hfin1 k t2 ht2
    have hclosed : isOpen t1 = false := by
      cases ho : isOpen t1 with
      | false => rfl
      | true =>
        have := openCount_pos_of_open ht1 ho
        omega
    have hst : finalStatus out k t1 = t1.status := by simp [finalStatus, hclosed]
    refine ⟨t1, ht1, ?_, ?_⟩
    · rw [← hst, hf1, hf2]
    · cases hs : t1.status <;> simp [isOpen, hs] at hclosed ⊢

theorem sampleNewestFirst_mem (s : State) (h : s.inflight ≠ []) :
    sampleNewestFirst s ∈ s.inflight := by
  unfold sampleNewestFirst
  rw [List.getLast?_eq_getLast _ h]
  exact List.getLast_mem h

theorem sampleBusy_tracked : Tracked sampleBusy := by
  constructor
  · decide
  · decide
  · decide
  · decide
  · decide
  · intro i
    by_cases hi : i < 5
    · interval_cases i <;> decide
    · have h1 : i ∉ sampleBusy.inflight := by
        intro hmem
        have : sampleBusy.inflight = [0, 1, 2] := by decide
        rw [this] at hmem
        simp at hmem
        omega
      have h2 : statusAt sampleBusy.queue i = none := by
        unfold statusAt
        rw [List.getElem?_eq_none (by
          have : sampleBusy.queue.length = 5 := by decide
          omega)]
        rfl
      simp [h1, h2]

/-- C15 for the sample manager (three uploads running, two tasks waiting) with
the sample outcomes, the newest request completing first: five completions
drain the queue, and the statuses are those of the outcomes. -/
theorem C15_queue_drains_witness :
    (drain sampleRand sampleNewestFirst sampleOutcomes 5 (processQueue sampleBusy)).map
        (fun s => statuses s.queue)
      = some [Status.success, Status.error, Status.success, Status.error, Status.success] ∧
    ∃ s1, drain sampleRand sampleNewestFirst sampleOutcomes (openCount sampleBusy.queue)
        (processQueue sampleBusy) = some s1 ∧
      s1.inflight = [] ∧ s1.activeUploads = 0 ∧ s1.queue.length = sampleBusy.queue.length ∧
      (∀ (k : Nat) (t : Task), sampleBusy.queue[k]? = some t →
        ∃ t1, s1.queue[k]? = some t1 ∧ t1.status = finalStatus sampleOutcomes k t ∧
          (t1.status = Status.success ∨ t1.status = Status.error)) :=
  ⟨by decide,
    C15_queue_drains sampleRand sampleBusy sampleNewestFirst sampleOutcomes sampleBusy_tracked
      sampleNewestFirst_mem⟩

/-! ## C16: the format of the batch identifier -/

theorem format_eq_twoDigits : ∀ n, n < 100 → format n = String.mk (twoDigits n) := by
  decide

theorem repr_eq_fourDigits {n : Nat} (h1 : 1000 ≤ n) (h2 : n ≤ 9999) :
    Nat.repr n = String.mk (fourDigits n) := by
  obtain ⟨f, hf⟩ : ∃ f, n + 1 = f + 4 := ⟨n - 3, by omega⟩
  have d1 : ¬ (n / 10 = 0) := by omega
  have d2 : ¬ (n / 10 / 10 = 0) := by omega
  have d3 : ¬ (n / 10 / 10 / 10 = 0) := by omega
  have d4 : n / 10 / 10 / 10 / 10 = 0 := by omega
  have e2 : n / 10 / 10 % 10 = n / 100 % 10 := by omega
  have e3 : n / 10 / 10 / 10 % 10 = n / 1000 := by omega
  have hcore : Nat.toDigits 10 n = Nat.toDigitsCore 10 (f + 4) n [] := by
    rw [Nat.toDigits, hf]
  rw [Nat.repr, hcore]
  simp only [Nat.toDigitsCore, d1, d2, d3, d4, if_false, if_true, fourDigits, e2, e3,
    List.asString]


theorem mk_append_mk (a b : List Char) : String.mk a ++ String.mk b = String.mk (a ++ b) := rfl

theorem timestamp_eq_specStamp {d : DateTime} (h : d.valid) : timestamp d = specStamp d := by
  obtain ⟨h1, h2, h3, h4, h5, h6, h7, h8⟩ := h
  have hu : ("_" : String) = String.mk ['_'] := rfl
  unfold timestamp specStamp
  rw [repr_eq_fourDigits h1 h2, format_eq_twoDigits (d.month + 1) (by omega),
    format_eq_twoDigits d.day (by omega), format_eq_twoDigits d.hours (by omega),
    format_eq_twoDigits d.minutes (by omega), format_eq_twoDigits d.seconds (by omega), hu]
  simp only [mk_append_mk, List.append_assoc, List.cons_append, List.nil_append]

/-- C16: for every local date-time with a year in 1000..9999,
`setNewBatchId` sets `batchId` to the string written digit by digit as
`YYYYMMDD_HHMMSS` (four digits of the year, then two digits each, zero-padded,
of the month counted from 1 and of the day, an underscore, and two digits each
of hours, minutes and seconds); the string has 15 characters, and no other
field of the manager changes. -/
theorem C16_setNewBatchId_format (s : State) (now : DateTime) (h : now.valid) :
    (setNewBatchId s now).batchId = some (specStamp now) ∧
    (specStamp now).length = 15 ∧
    (setNewBatchId s now).queue = s.queue ∧
    (setNewBatchId s now).activeUploads = s.activeUploads ∧
    (setNewBatchId s now).gatheringFiles = s.gatheringFiles := by
  refine ⟨?_, rfl, rfl, rfl, rfl⟩
  show some (timestamp now) = _
  rw [timestamp_eq_specStamp h]

/-- C16 for the sample time, 5 January 2024, 07:08:09. -/
theorem C16_setNewBatchId_format_witness :
    sampleTime.valid ∧ specStamp sampleTime = "20240105_070809" ∧
    (setNewBatchId sampleLoggedIn sampleTime).batchId = some (specStamp sampleTime) ∧
    (specStamp sampleTime).length = 15 ∧
    (setNewBatchId sampleLoggedIn sampleTime).queue = sampleLoggedIn.queue ∧
    (setNewBatchId sampleLoggedIn sampleTime).activeUploads = sampleLoggedIn.activeUploads ∧
    (setNewBatchId sampleLoggedIn sampleTime).gatheringFiles = sampleLoggedIn.gatheringFiles :=
  ⟨by decide, by decide, C16_setNewBatchId_format sampleLoggedIn sampleTime (by decide)⟩

/-! ## C17: batch identifiers are ordered like their times -/

theorem digitChar_lt_iff : ∀ a, a < 10 → ∀ b, b < 10 →
    (Nat.digitChar a < Nat.digitChar b ↔ a < b) := by
  decide

theorem digitChar_eq_iff : ∀ a, a < 10 → ∀ b, b < 10 →
    (Nat.digitChar a = Nat.digitChar b ↔ a = b) := by
  decide

theorem lt_cons_iff (a b : Char) (l1 l2 : List Char) :
    List.Lex (· < ·) (a :: l1) (b :: l2) ↔ a < b ∨ (a = b ∧ List.Lex (· < ·) l1 l2) := by
  constructor
  · intro h
    cases h with
    | cons h => exact Or.inr ⟨rfl, h⟩
    | rel h => exact Or.inl h
  · rintro (hab | ⟨rfl, h⟩)
    · exact List.Lex.rel hab
    · exact List.Lex.cons h

theorem twoDigits_lt_iff {a b : Nat} (ha : a < 100) (hb : b < 100) (l1 l2 : List Char) :
    List.Lex (· < ·) (twoDigits a ++ l1) (twoDigits b ++ l2) ↔ a < b ∨ (a = b ∧ List.Lex (· < ·) l1 l2) := by
  simp only [twoDigits, List.cons_append, List.nil_append, lt_cons_iff]
  rw [digitChar_lt_iff (a / 10) (by omega) (b / 10) (by omega),
    digitChar_eq_iff (a / 10) (by omega) (b / 10) (by omega),
    digitChar_lt_iff (a % 10) (by omega) (b % 10) (by omega),
    digitChar_eq_iff (a % 10) (by omega) (b % 10) (by omega)]
  by_cases hl : List.Lex (· < ·) l1 l2 <;> simp only [hl, and_true, and_false, or_false]
  all_goals omega

theorem twoDigits_eq_iff {a b : Nat} (ha : a < 100) (hb : b < 100) (l1 l2 : List Char) :
    twoDigits a ++ l1 = twoDigits b ++ l2 ↔ a = b ∧ l1 = l2 := by
  simp only [twoDigits, List.cons_append, List.nil_append, List.cons.injEq]
  rw [digitChar_eq_iff (a / 10) (by omega) (b / 10) (by omega),
    digitChar_eq_iff (a % 10) (by omega) (b % 10) (by omega)]
  by_cases hl : l1 = l2 <;> simp only [hl, and_true, and_false]
  all_goals omega

theorem fourDigits_lt_iff {a b : Nat} (ha : a < 10000) (hb : b < 10000) (l1 l2 : List Char) :
    List.Lex (· < ·) (fourDigits a ++ l1) (fourDigits b ++ l2) ↔ a < b ∨ (a = b ∧ List.Lex (· < ·) l1 l2) := by
  simp only [fourDigits, List.cons_append, List.nil_append, lt_cons_iff]
  rw [digitChar_lt_iff (a / 1000) (by omega) (b / 1000) (by omega),
    digitChar_eq_iff (a / 1000) (by omega) (b / 1000) (by omega),
    digitChar_lt_iff (a / 100 % 10) (by omega) (b / 100 % 10) (by omega),
    digitChar_eq_iff (a / 100 % 10) (by omega) (b / 100 % 10) (by omega),
    digitChar_lt_iff (a / 10 % 10) (by omega) (b / 10 % 10) (by omega),
    digitChar_eq_iff (a / 10 % 10) (by omega) (b / 10 % 10) (by omega),
    digitChar_lt_iff (a % 10) (by omega) (b % 10) (by omega),
    digitChar_eq_iff (a % 10) (by omega) (b % 10) (by omega)]
  by_cases hl : List.Lex (· < ·) l1 l2 <;> simp only [hl, and_true, and_false, or_false]
  all_goals omega

theorem fourDigits_eq_iff {a b : Nat} (ha : a < 10000) (hb : b < 10000) (l1 l2 : List Char) :
    fourDigits a ++ l1 = fourDigits b ++ l2 ↔ a = b ∧ l1 = l2 := by
  simp only [fourDigits, List.cons_append, List.nil_append, List.cons.injEq]
  rw [digitChar_eq_iff (a / 1000) (by omega) (b / 1000) (by omega),
    digitChar_eq_iff (a / 100 % 10) (by omega) (b / 100 % 10) (by omega),
    digitChar_eq_iff (a / 10 % 10) (by omega) (b / 10 % 10) (by omega),
    digitChar_eq_iff (a % 10) (by omega) (b % 10) (by omega)]
  by_cases hl : l1 = l2 <;> simp only [hl, and_true, and_false]
  all_goals omega

theorem specStamp_lt_iff {a b : DateTime} (ha : a.valid) (hb : b.valid) :
    specStamp a < specStamp b ↔ a.before b := by
  obtain ⟨a1, a2, a3, a4, a5, a6, a7, a8⟩ := ha
  obtain ⟨b1, b2, b3, b4, b5, b6, b7, b8⟩ := hb
  have key : specStamp a < specStamp b
      ↔ List.Lex (· < ·) (specStamp a).data (specStamp b).data := String.lt_iff_toList_lt
  rw [key]
  simp only [specStamp]
  have hlast : List.Lex (· < ·) (twoDigits a.seconds) (twoDigits b.seconds) ↔ a.seconds < b.seconds := by
    have := twoDigits_lt_iff (show a.seconds < 100 by omega) (show b.seconds < 100 by omega) [] []
    simp only [List.append_nil] at this
    rw [this]
    have hnil : ¬ List.Lex (· < ·) ([] : List Char) [] := by intro h; cases h
    simp [hnil]
  rw [fourDigits_lt_iff (by omega) (by omega), twoDigits_lt_iff (by omega) (by omega),
    twoDigits_lt_iff (by omega) (by omega), lt_cons_iff,
    twoDigits_lt_iff (by omega) (by omega), twoDigits_lt_iff (by omega) (by omega), hlast]
  unfold DateTime.before
  have hu : ¬ ('_' < '_') := by decide
  simp only [hu, false_or, true_and]
  constructor <;> intro h <;> omega

theorem specStamp_eq_iff {a b : DateTime} (ha : a.valid) (hb : b.valid) :
    specStamp a = specStamp b ↔ a = b := by
  obtain ⟨a1, a2, a3, a4, a5, a6, a7, a8⟩ := ha
  obtain ⟨b1, b2, b3, b4, b5, b6, b7, b8⟩ := hb
  constructor
  · intro h
    have hd : (specStamp a).data = (specStamp b).data := by rw [h]
    simp only [specStamp] at hd
    have hlast : twoDigits a.seconds = twoDigits b.seconds ↔ a.seconds = b.seconds := by
      have := twoDigits_eq_iff (show a.seconds < 100 by omega) (show b.seconds < 100 by omega)
        [] []
      simpa using this
    rw [fourDigits_eq_iff (by omega) (by omega), twoDigits_eq_iff (by omega) (by omega),
      twoDigits_eq_iff (by omega) (by omega), List.cons.injEq,
      twoDigits_eq_iff (by omega) (by omega), twoDigits_eq_iff (by omega) (by omega),
      hlast] at hd
    obtain ⟨e1, e2, e3, -, e4, e5, e6⟩ := hd
    cases a; cases b
    simp only at e1 e2 e3 e4 e5 e6
    simp only [DateTime.mk.injEq]
    omega
  · intro h; rw [h]

/-- C17: for two local date-times with years in 1000..9999, the identifiers
that `setNewBatchId` makes from them are equal exactly when the date-times are
equal in all six fields, and the first identifier is smaller in the
lexicographic order of strings exactly when the first date-time is the earlier
one.  So a later date-time, be it by one second, gives a different and larger
identifier. -/
theorem C17_batch_ids_ordered_like_time (s1 s2 : State) (d1 d2 : DateTime) (h1 : d1.valid)
    (h2 : d2.valid) :
    ((setNewBatchId s1 d1).batchId = (setNewBatchId s2 d2).batchId ↔ d1 = d2) ∧
    (timestamp d1 < timestamp d2 ↔ d1.before d2) ∧
    (d1.before d2 → timestamp d1 ≠ timestamp d2 ∧ timestamp d1 < timestamp d2) := by
  have hlt : timestamp d1 < timestamp d2 ↔ d1.before d2 := by
    rw [timestamp_eq_specStamp h1, timestamp_eq_specStamp h2]
    exact specStamp_lt_iff h1 h2
  have heq : timestamp d1 = timestamp d2 ↔ d1 = d2 := by
    rw [timestamp_eq_specStamp h1, timestamp_eq_specStamp h2]
    exact specStamp_eq_iff h1 h2
  refine ⟨?_, hlt, ?_⟩
  · show some (timestamp d1) = some (timestamp d2) ↔ _
    rw [Option.some.injEq]
    exact heq
  · intro hb
    refine ⟨?_, hlt.mpr hb⟩
    intro he
    have := heq.mp he
    subst this
    unfold DateTime.before at hb
    omega

/-- C17 for the sample time and the time one second later. -/
theorem C17_batch_ids_ordered_like_time_witness :
    sampleTime.valid ∧ sampleLater.valid ∧ sampleTime.before sampleLater ∧
    ((setNewBatchId sampleLoggedIn sampleTime).batchId
        = (setNewBatchId sampleLoggedIn sampleLater).batchId ↔ sampleTime = sampleLater) ∧
    (timestamp sampleTime < timestamp sampleLater ↔ sampleTime.before sampleLater) ∧
    (sampleTime.before sampleLater →
      timestamp sampleTime ≠ timestamp sampleLater ∧
        timestamp sampleTime < timestamp sampleLater) :=
  ⟨by decide, by decide, by decide,
    C17_batch_ids_ordered_like_time sampleLoggedIn sampleLoggedIn sampleTime sampleLater
      (by decide) (by decide)⟩

/-! ## Numbers: rounding to IEEE 754 binary64 -/

theorem roundHalfEven_intCast (n : ℤ) : roundHalfEven (n : ℚ) = n := by
  unfold roundHalfEven
  simp

theorem roundHalfEven_le_floor_succ (x : ℚ) : roundHalfEven x ≤ ⌊x⌋ + 1 := by
  unfold roundHalfEven
  split_ifs <;> omega

theorem floor_le_roundHalfEven (x : ℚ) : ⌊x⌋ ≤ roundHalfEven x := by
  unfold roundHalfEven
  split_ifs <;> omega

theorem roundHalfEven_mono {x y : ℚ} (h : x ≤ y) : roundHalfEven x ≤ roundHalfEven y := by
  have hfl : ⌊x⌋ ≤ ⌊y⌋ := Int.floor_mono h
  rcases lt_or_eq_of_le hfl with hlt | heq
  · calc roundHalfEven x ≤ ⌊x⌋ + 1 := roundHalfEven_le_floor_succ x
      _ ≤ ⌊y⌋ := hlt
      _ ≤ roundHalfEven y := floor_le_roundHalfEven y
  · have hfrac : x - ⌊x⌋ ≤ y - ⌊y⌋ := by rw [heq]; linarith
    unfold roundHalfEven
    rw [heq]
    rw [heq] at hfrac
    split_ifs <;> first | omega | (exfalso; linarith)

theorem le_roundHalfEven {n : ℤ} {x : ℚ} (h : (n : ℚ) ≤ x) : n ≤ roundHalfEven x := by
  have := roundHalfEven_mono h
  rwa [roundHalfEven_intCast] at this

theorem roundHalfEven_le {n : ℤ} {x : ℚ} (h : x ≤ (n : ℚ)) : roundHalfEven x ≤ n := by
  have := roundHalfEven_mono h
  rwa [roundHalfEven_intCast] at this

theorem abs_roundHalfEven_sub_le (x : ℚ) : |(roundHalfEven x : ℚ) - x| ≤ 1 / 2 := by
  have h1 := Int.floor_le x
  have h2 := Int.lt_floor_add_one x
  unfold roundHalfEven
  rw [abs_le]
  split_ifs <;> push_cast <;> constructor <;> linarith

theorem two_zpow_pos (z : ℤ) : (0 : ℚ) < 2 ^ z := zpow_pos (by norm_num) z

theorem zpow_log_le {x : ℚ} (hx : 0 < x) : (2 : ℚ) ^ Int.log 2 x ≤ x := by
  have := Int.zpow_log_le_self (by norm_num : (1 : ℕ) < 2) hx
  simpa using this

theorem lt_zpow_log_succ (x : ℚ) : x < (2 : ℚ) ^ (Int.log 2 x + 1) := by
  have := Int.lt_zpow_succ_log_self (by norm_num : (1 : ℕ) < 2) x
  simpa using this

theorem log_eq_of_bounds {x : ℚ} {e : ℤ} (h1 : (2 : ℚ) ^ e ≤ x) (h2 : x < (2 : ℚ) ^ (e + 1)) :
    Int.log 2 x = e := by
  have hx : 0 < x := lt_of_lt_of_le (two_zpow_pos e) h1
  have a1 : e ≤ Int.log 2 x := by
    apply (Int.zpow_le_iff_le_log (by norm_num : (1 : ℕ) < 2) hx).mp
    simpa using h1
  have a2 : Int.log 2 x < e + 1 := by
    apply (Int.lt_zpow_iff_log_lt (by norm_num : (1 : ℕ) < 2) hx).mp
    simpa using h2
  omega

theorem toDouble_of_pos {x : ℚ} (hx : 0 < x) :
    toDouble x
      = (roundHalfEven (x * 2 ^ (52 - Int.log 2 x)) : ℚ) * 2 ^ (Int.log 2 x - 52) := by
  unfold toDouble
  rw [if_neg (not_le.mpr hx)]

theorem scaled_bounds {x : ℚ} (hx : 0 < x) :
    (2 : ℚ) ^ (52 : ℤ) ≤ x * 2 ^ (52 - Int.log 2 x) ∧
      x * 2 ^ (52 - Int.log 2 x) < (2 : ℚ) ^ (53 : ℤ) := by
  have hs := two_zpow_pos (52 - Int.log 2 x)
  constructor
  · have : (2 : ℚ) ^ (52 : ℤ) = 2 ^ Int.log 2 x * 2 ^ (52 - Int.log 2 x) := by
      rw [← zpow_add₀ (by norm_num : (2 : ℚ) ≠ 0)]
      congr 1; omega
    rw [this]
    exact mul_le_mul_of_nonneg_right (zpow_log_le hx) (le_of_lt hs)
  · have : (2 : ℚ) ^ (53 : ℤ) = 2 ^ (Int.log 2 x + 1) * 2 ^ (52 - Int.log 2 x) := by
      rw [← zpow_add₀ (by norm_num : (2 : ℚ) ≠ 0)]
      congr 1; omega
    rw [this]
    exact mul_lt_mul_of_pos_right (lt_zpow_log_succ x) hs

theorem significand_bounds {x : ℚ} (hx : 0 < x) :
    (2 : ℤ) ^ 52 ≤ roundHalfEven (x * 2 ^ (52 - Int.log 2 x)) ∧
      roundHalfEven (x * 2 ^ (52 - Int.log 2 x)) ≤ (2 : ℤ) ^ 53 := by
  obtain ⟨h1, h2⟩ := scaled_bounds hx
  constructor
  · apply le_roundHalfEven
    have : (((2 : ℤ) ^ 52 : ℤ) : ℚ) = (2 : ℚ) ^ (52 : ℤ) := by norm_num
    rw [this]; exact h1
  · apply roundHalfEven_le
    have : (((2 : ℤ) ^ 53 : ℤ) : ℚ) = (2 : ℚ) ^ (53 : ℤ) := by norm_num
    rw [this]; exact le_of_lt h2

theorem toDouble_bounds {x : ℚ} (hx : 0 < x) :
    (2 : ℚ) ^ Int.log 2 x ≤ toDouble x ∧ toDouble x ≤ (2 : ℚ) ^ (Int.log 2 x + 1) := by
  obtain ⟨h1, h2⟩ := significand_bounds hx
  have hs := two_zpow_pos (Int.log 2 x - 52)
  rw [toDouble_of_pos hx]
  constructor
  · have : (2 : ℚ) ^ Int.log 2 x = 2 ^ (52 : ℤ) * 2 ^ (Int.log 2 x - 52) := by
      rw [← zpow_add₀ (by norm_num : (2 : ℚ) ≠ 0)]
      congr 1; omega
    rw [this]
    apply mul_le_mul_of_nonneg_right _ (le_of_lt hs)
    have : ((2 : ℚ) ^ (52 : ℤ)) = (((2 : ℤ) ^ 52 : ℤ) : ℚ) := by norm_num
    rw [this]
    exact_mod_cast h1
  · have : (2 : ℚ) ^ (Int.log 2 x + 1) = 2 ^ (53 : ℤ) * 2 ^ (Int.log 2 x - 52) := by
      rw [← zpow_add₀ (by norm_num : (2 : ℚ) ≠ 0)]
      congr 1; omega
    rw [this]
    apply mul_le_mul_of_nonneg_right _ (le_of_lt hs)
    have : ((2 : ℚ) ^ (53 : ℤ)) = (((2 : ℤ) ^ 53 : ℤ) : ℚ) := by norm_num
    rw [this]
    exact_mod_cast h2

theorem toDouble_nonneg (x : ℚ) : 0 ≤ toDouble x := by
  rcases le_or_lt x 0 with h | h
  · unfold toDouble; rw [if_pos h]
  · exact le_trans (le_of_lt (two_zpow_pos _)) (toDouble_bounds h).1

theorem toDouble_pos {x : ℚ} (hx : 0 < x) : 0 < toDouble x :=
  lt_of_lt_of_le (two_zpow_pos _) (toDouble_bounds hx).1

/-- Rounding to the nearest Number is monotone. -/
theorem toDouble_mono {x y : ℚ} (h : x ≤ y) : toDouble x ≤ toDouble y := by
  rcases le_or_lt x 0 with hx | hx
  · have : toDouble x = 0 := by unfold toDouble; rw [if_pos hx]
    rw [this]; exact toDouble_nonneg y
  · have hy : 0 < y := lt_of_lt_of_le hx h
    have hlog : Int.log 2 x ≤ Int.log 2 y := Int.log_mono_right hx h
    rcases lt_or_eq_of_le hlog with hlt | heq
    · calc toDouble x ≤ (2 : ℚ) ^ (Int.log 2 x + 1) := (toDouble_bounds hx).2
        _ ≤ (2 : ℚ) ^ Int.log 2 y := zpow_le_zpow_right₀ (by norm_num) (by omega)
        _ ≤ toDouble y := (toDouble_bounds hy).1
    · rw [toDouble_of_pos hx, toDouble_of_pos hy, heq]
      apply mul_le_mul_of_nonneg_right _ (le_of_lt (two_zpow_pos _))
      have : x * 2 ^ (52 - Int.log 2 y) ≤ y * 2 ^ (52 - Int.log 2 y) :=
        mul_le_mul_of_nonneg_right h (le_of_lt (two_zpow_pos _))
      exact_mod_cast roundHalfEven_mono this

/-- A rational whose 53-bit significand is an integer is a Number. -/
theorem toDouble_of_exact {x : ℚ} (hx : 0 < x) (n : ℤ)
    (hn : x * 2 ^ (52 - Int.log 2 x) = n) : toDouble x = x := by
  rw [toDouble_of_pos hx, hn, roundHalfEven_intCast, ← hn, mul_assoc,
    ← zpow_add₀ (by norm_num : (2 : ℚ) ≠ 0)]
  have : 52 - Int.log 2 x + (Int.log 2 x - 52) = 0 := by omega
  rw [this, zpow_zero, mul_one]

theorem toDouble_one : toDouble 1 = 1 := by
  have hl : Int.log 2 (1 : ℚ) = 0 := Int.log_one_right 2
  apply toDouble_of_exact (by norm_num) (2 ^ 52)
  rw [hl]; norm_num

theorem toDouble_hundred : toDouble 100 = 100 := by
  have hl : Int.log 2 (100 : ℚ) = 6 := log_eq_of_bounds (by norm_num) (by norm_num)
  apply toDouble_of_exact (by norm_num) (100 * 2 ^ 46)
  rw [hl]; norm_num

theorem toDouble_natCast_pos {n : Nat} (h : n ≠ 0) : 1 ≤ toDouble (n : ℚ) := by
  have h1 : (1 : ℚ) ≤ (n : ℚ) := by exact_mod_cast Nat.one_le_iff_ne_zero.mpr h
  have := toDouble_mono h1
  rwa [toDouble_one] at this

/-- The Number that `(e.loaded / e.total) * 100` evaluates to. -/
theorem product_le_hundred {loaded total : Nat} (h : loaded ≤ total) (ht : total ≠ 0) :
    toDouble (toDouble (toDouble loaded / toDouble total) * 100) ≤ 100 := by
  have hb : 1 ≤ toDouble (total : ℚ) := toDouble_natCast_pos ht
  have hab : toDouble (loaded : ℚ) ≤ toDouble (total : ℚ) :=
    toDouble_mono (by exact_mod_cast h)
  have hq : toDouble loaded / toDouble total ≤ 1 := (div_le_one (by linarith)).mpr hab
  have h1 : toDouble (toDouble loaded / toDouble total) ≤ 1 := by
    have := toDouble_mono hq
    rwa [toDouble_one] at this
  have h2 : toDouble (toDouble loaded / toDouble total) * 100 ≤ 100 := by linarith
  have := toDouble_mono h2
  rwa [toDouble_hundred] at this

theorem roundPercent_le_hundred {loaded total : Nat} (h : loaded ≤ total) (ht : total ≠ 0) :
    roundPercent loaded total ≤ 100 := by
  have hp := product_le_hundred h ht
  unfold roundPercent mathRound
  have hfl : ⌊toDouble (toDouble (toDouble loaded / toDouble total) * 100) + 1 / 2⌋ ≤ 100 := by
    rw [← Int.lt_add_one_iff, Int.floor_lt]
    push_cast
    linarith
  omega

/-- The percentage is monotone in the number of bytes sent. -/
theorem roundPercent_mono {a b : Nat} (h : a ≤ b) (total : Nat) :
    roundPercent a total ≤ roundPercent b total := by
  unfold roundPercent mathRound
  apply Int.toNat_le_toNat
  apply Int.floor_mono
  have h1 : toDouble (a : ℚ) ≤ toDouble (b : ℚ) := toDouble_mono (by exact_mod_cast h)
  have h2 : toDouble a / toDouble total ≤ toDouble b / toDouble total :=
    div_le_div_of_nonneg_right h1 (toDouble_nonneg _)
  have h3 := toDouble_mono h2
  have h4 : toDouble (toDouble a / toDouble total) * 100
      ≤ toDouble (toDouble b / toDouble total) * 100 := by linarith
  have h5 := toDouble_mono h4
  linarith

theorem roundHalfEven_eq_of_near {x : ℚ} {n : ℤ} (h1 : (n : ℚ) - 1 / 2 < x)
    (h2 : x < (n : ℚ) + 1 / 2) : roundHalfEven x = n := by
  have h := abs_le.mp (abs_roundHalfEven_sub_le x)
  have a1 : ((roundHalfEven x : ℤ) : ℚ) < (n : ℚ) + 1 := by linarith [h.2]
  have a2 : (n : ℚ) - 1 < ((roundHalfEven x : ℤ) : ℚ) := by linarith [h.1]
  have b1 : roundHalfEven x < n + 1 := by exact_mod_cast a1
  have b2 : n - 1 < roundHalfEven x := by exact_mod_cast a2
  omega

/-- Evaluation of `toDouble` from the binade of `x` and the integer nearest to
its significand. -/
theorem toDouble_eval {x : ℚ} (e n : ℤ) (h1 : (2 : ℚ) ^ e ≤ x) (h2 : x < (2 : ℚ) ^ (e + 1))
    (h3 : (n : ℚ) - 1 / 2 < x * 2 ^ (52 - e)) (h4 : x * 2 ^ (52 - e) < (n : ℚ) + 1 / 2) :
    toDouble x = (n : ℚ) * 2 ^ (e - 52) := by
  have hx : 0 < x := lt_of_lt_of_le (two_zpow_pos e) h1
  rw [toDouble_of_pos hx, log_eq_of_bounds h1 h2, roundHalfEven_eq_of_near h3 h4]

theorem roundPercent_23_40 : roundPercent 23 40 = 57 := by
  have e1 : toDouble ((23 : ℕ) : ℚ) = 23 := by
    have := @toDouble_eval (23 : ℚ) 4 (23 * 2 ^ 48) (by norm_num) (by norm_num) (by norm_num)
      (by norm_num)
    rw [Nat.cast_ofNat, this]; norm_num
  have e2 : toDouble ((40 : ℕ) : ℚ) = 40 := by
    have := @toDouble_eval (40 : ℚ) 5 (40 * 2 ^ 47) (by norm_num) (by norm_num) (by norm_num)
      (by norm_num)
    rw [Nat.cast_ofNat, this]; norm_num
  have e3 : toDouble ((23 : ℚ) / 40) = 5179139571476070 * 2 ^ (-53 : ℤ) := by
    have := @toDouble_eval ((23 : ℚ) / 40) (-1) 5179139571476070 (by norm_num) (by norm_num)
      (by norm_num) (by norm_num)
    rw [this]; norm_num
  have e4 : toDouble (5179139571476070 * 2 ^ (-53 : ℤ) * 100)
      = 8092405580431359 * 2 ^ (-47 : ℤ) := by
    have := @toDouble_eval ((5179139571476070 : ℚ) * 2 ^ (-53 : ℤ) * 100) 5 8092405580431359
      (by norm_num) (by norm_num) (by norm_num) (by norm_num)
    rw [this]; norm_num
  unfold roundPercent mathRound
  rw [e1, e2, e3, e4]
  have : ⌊(8092405580431359 : ℚ) * 2 ^ (-47 : ℤ) + 1 / 2⌋ = 57 := by
    rw [Int.floor_eq_iff]
    constructor <;> norm_num
  rw [this]; rfl

/-- Rounding to binary64 changes a non-negative value by at most the relative
error `2 ^ (-53)`. -/
theorem toDouble_rel {x : ℚ} (hx : 0 ≤ x) :
    (1 - 1 / 2 ^ 53) * x ≤ toDouble x ∧ toDouble x ≤ (1 + 1 / 2 ^ 53) * x := by
  rcases eq_or_lt_of_le hx with h0 | hpos
  · subst h0
    have : toDouble 0 = 0 := by unfold toDouble; simp
    rw [this]; simp
  · have hlog := zpow_log_le hpos
    have habs := abs_le.mp (abs_roundHalfEven_sub_le (x * 2 ^ (52 - Int.log 2 x)))
    rw [toDouble_of_pos hpos]
    have hp : (0 : ℚ) < 2 ^ (Int.log 2 x - 52) := two_zpow_pos _
    have hmul : x * 2 ^ (52 - Int.log 2 x) * 2 ^ (Int.log 2 x - 52) = x := by
      rw [mul_assoc, ← zpow_add₀ (by norm_num : (2 : ℚ) ≠ 0)]
      simp
    have hsplit : (2 : ℚ) ^ (Int.log 2 x - 52) = 2 ^ (Int.log 2 x) * (1 / 2 ^ 52) := by
      rw [zpow_sub₀ (by norm_num : (2 : ℚ) ≠ 0)]
      norm_num
      ring
    have hsmall : (2 : ℚ) ^ (Int.log 2 x - 52) ≤ x * (1 / 2 ^ 52) := by
      rw [hsplit]
      exact mul_le_mul_of_nonneg_right hlog (by norm_num)
    constructor
    · have : x - 1 / 2 * 2 ^ (Int.log 2 x - 52)
          ≤ (roundHalfEven (x * 2 ^ (52 - Int.log 2 x)) : ℚ) * 2 ^ (Int.log 2 x - 52) := by
        have h1 := mul_le_mul_of_nonneg_right habs.1 hp.le
        rw [sub_mul, hmul] at h1
        linarith
      linarith
    · have : (roundHalfEven (x * 2 ^ (52 - Int.log 2 x)) : ℚ) * 2 ^ (Int.log 2 x - 52)
          ≤ x + 1 / 2 * 2 ^ (Int.log 2 x - 52) := by
        have h1 := mul_le_mul_of_nonneg_right habs.2 hp.le
        rw [sub_mul, hmul] at h1
        linarith
      linarith

/-- The Number computed for `(loaded / total) * 100` is within one half of the
exact percentage. -/
theorem product_close {a b : Nat} (h : a ≤ b) (hb : b ≠ 0) :
    (100 * (a : ℚ) / b - 1 / 2 ≤ toDouble (toDouble (toDouble a / toDouble b) * 100)) ∧
    toDouble (toDouble (toDouble a / toDouble b) * 100) ≤ 100 * (a : ℚ) / b + 1 / 2 := by
  have hb0 : (0 : ℚ) < b := by exact_mod_cast Nat.pos_of_ne_zero hb
  have ha0 : (0 : ℚ) ≤ a := by exact_mod_cast Nat.zero_le a
  have hab : (a : ℚ) ≤ b := by exact_mod_cast h
  obtain ⟨hA1, hA2⟩ := toDouble_rel ha0
  obtain ⟨hB1, hB2⟩ := toDouble_rel hb0.le
  have hBpos : (0 : ℚ) < toDouble (b : ℚ) := lt_of_lt_of_le one_pos (toDouble_natCast_pos hb)
  have hr0 : (0 : ℚ) ≤ (a : ℚ) / b := div_nonneg ha0 hb0.le
  have hr1 : (a : ℚ) / b ≤ 1 := (div_le_one hb0).mpr hab
  have har : (a : ℚ) = (a : ℚ) / b * b := by field_simp
  have hQ0 : 0 ≤ toDouble (a : ℚ) / toDouble (b : ℚ) := div_nonneg (toDouble_nonneg _) hBpos.le
  have hQ2 : toDouble (a : ℚ) / toDouble (b : ℚ)
      ≤ (1 + 1 / 2 ^ 53) / (1 - 1 / 2 ^ 53) * ((a : ℚ) / b) := by
    rw [div_le_iff₀ hBpos]
    have hc : (0 : ℚ) ≤ (1 + 1 / 2 ^ 53) / (1 - 1 / 2 ^ 53) * ((a : ℚ) / b) :=
      mul_nonneg (by norm_num) hr0
    have h1 := mul_le_mul_of_nonneg_left hB1 hc
    have h2 : (1 + 1 / 2 ^ 53) / (1 - 1 / 2 ^ 53) * ((a : ℚ) / b) * ((1 - 1 / 2 ^ 53) * b)
        = (1 + 1 / 2 ^ 53) * a := by
      field_simp
    linarith
  have hQ1 : (1 - 1 / 2 ^ 53) / (1 + 1 / 2 ^ 53) * ((a : ℚ) / b)
      ≤ toDouble (a : ℚ) / toDouble (b : ℚ) := by
    rw [le_div_iff₀ hBpos]
    have hc : (0 : ℚ) ≤ (1 - 1 / 2 ^ 53) / (1 + 1 / 2 ^ 53) * ((a : ℚ) / b) :=
      mul_nonneg (by norm_num) hr0
    have h1 := mul_le_mul_of_nonneg_left hB2 hc
    have h2 : (1 - 1 / 2 ^ 53) / (1 + 1 / 2 ^ 53) * ((a : ℚ) / b) * ((1 + 1 / 2 ^ 53) * b)
        = (1 - 1 / 2 ^ 53) * a := by
      field_simp
    linarith
  obtain ⟨hF1, hF2⟩ := toDouble_rel hQ0
  have hP0 : 0 ≤ toDouble (toDouble (a : ℚ) / toDouble (b : ℚ)) * 100 :=
    mul_nonneg (toDouble_nonneg _) (by norm_num)
  obtain ⟨hG1, hG2⟩ := toDouble_rel hP0
  have up : toDouble (toDouble (toDouble (a : ℚ) / toDouble (b : ℚ)) * 100)
      ≤ (1 + 1 / 2 ^ 53) * ((1 + 1 / 2 ^ 53)
          * ((1 + 1 / 2 ^ 53) / (1 - 1 / 2 ^ 53) * ((a : ℚ) / b)) * 100) := by
    have h1 : toDouble (toDouble (a : ℚ) / toDouble (b : ℚ))
        ≤ (1 + 1 / 2 ^ 53) * ((1 + 1 / 2 ^ 53) / (1 - 1 / 2 ^ 53) * ((a : ℚ) / b)) :=
      le_trans hF2 (mul_le_mul_of_nonneg_left hQ2 (by norm_num))
    have h2 : toDouble (toDouble (a : ℚ) / toDouble (b : ℚ)) * 100
        ≤ (1 + 1 / 2 ^ 53) * ((1 + 1 / 2 ^ 53) / (1 - 1 / 2 ^ 53) * ((a : ℚ) / b)) * 100 :=
      mul_le_mul_of_nonneg_right h1 (by norm_num)
    exact le_trans hG2 (mul_le_mul_of_nonneg_left h2 (by norm_num))
  have lo : (1 - 1 / 2 ^ 53) * ((1 - 1 / 2 ^ 53)
          * ((1 - 1 / 2 ^ 53) / (1 + 1 / 2 ^ 53) * ((a : ℚ) / b)) * 100)
      ≤ toDouble (toDouble (toDouble (a : ℚ) / toDouble (b : ℚ)) * 100) := by
    have h1 : (1 - 1 / 2 ^ 53) * ((1 - 1 / 2 ^ 53) / (1 + 1 / 2 ^ 53) * ((a : ℚ) / b))
        ≤ toDouble (toDouble (a : ℚ) / toDouble (b : ℚ)) :=
      le_trans (mul_le_mul_of_nonneg_left hQ1 (by norm_num)) hF1
    have h2 : (1 - 1 / 2 ^ 53) * ((1 - 1 / 2 ^ 53) / (1 + 1 / 2 ^ 53) * ((a : ℚ) / b)) * 100
        ≤ toDouble (toDouble (a : ℚ) / toDouble (b : ℚ)) * 100 :=
      mul_le_mul_of_nonneg_right h1 (by norm_num)
    exact le_trans (mul_le_mul_of_nonneg_left h2 (by norm_num)) hG1
  have e100 : 100 * (a : ℚ) / b = 100 * ((a : ℚ) / b) := by ring
  rw [e100]
  constructor
  · have hk : (1 - 1 / 2 ^ 53) * ((1 - 1 / 2 ^ 53)
          * ((1 - 1 / 2 ^ 53) / (1 + 1 / 2 ^ 53) * ((a : ℚ) / b)) * 100)
        = 100 * ((a : ℚ) / b) - (100 - (1 - 1 / 2 ^ 53) * ((1 - 1 / 2 ^ 53)
          * ((1 - 1 / 2 ^ 53) / (1 + 1 / 2 ^ 53)) * 100)) * ((a : ℚ) / b) := by ring
    have hc : (0 : ℚ) ≤ 100 - (1 - 1 / 2 ^ 53) * ((1 - 1 / 2 ^ 53)
          * ((1 - 1 / 2 ^ 53) / (1 + 1 / 2 ^ 53)) * 100) := by norm_num
    have hc2 : (100 : ℚ) - (1 - 1 / 2 ^ 53) * ((1 - 1 / 2 ^ 53)
          * ((1 - 1 / 2 ^ 53) / (1 + 1 / 2 ^ 53)) * 100) ≤ 1 / 2 := by norm_num
    have := mul_le_mul hc2 hr1 hr0 (by norm_num : (0 : ℚ) ≤ 1 / 2)
    linarith
  · have hk : (1 + 1 / 2 ^ 53) * ((1 + 1 / 2 ^ 53)
          * ((1 + 1 / 2 ^ 53) / (1 - 1 / 2 ^ 53) * ((a : ℚ) / b)) * 100)
        = 100 * ((a : ℚ) / b) + ((1 + 1 / 2 ^ 53) * ((1 + 1 / 2 ^ 53)
          * ((1 + 1 / 2 ^ 53) / (1 - 1 / 2 ^ 53)) * 100) - 100) * ((a : ℚ) / b) := by ring
    have hc : (0 : ℚ) ≤ (1 + 1 / 2 ^ 53) * ((1 + 1 / 2 ^ 53)
          * ((1 + 1 / 2 ^ 53) / (1 - 1 / 2 ^ 53)) * 100) - 100 := by norm_num
    have hc2 : (1 + 1 / 2 ^ 53) * ((1 + 1 / 2 ^ 53)
          * ((1 + 1 / 2 ^ 53) / (1 - 1 / 2 ^ 53)) * 100) - 100 ≤ (1 : ℚ) / 2 := by norm_num
    have := mul_le_mul hc2 hr1 hr0 (by norm_num : (0 : ℚ) ≤ 1 / 2)
    linarith

theorem specRoundHalfUp_eq_floor (a b : Nat) (hb : b ≠ 0) :
    (specRoundHalfUp a b : ℤ) = ⌊100 * (a : ℚ) / b + 1 / 2⌋ := by
  have hb0 : (0 : ℚ) < b := by exact_mod_cast Nat.pos_of_ne_zero hb
  have e : 100 * (a : ℚ) / b + 1 / 2 = (((200 * a + b : ℕ) : ℤ) : ℚ) / ((2 * b : ℕ) : ℚ) := by
    push_cast
    field_simp
    ring
  rw [e, Rat.floor_intCast_div_natCast]
  unfold specRoundHalfUp
  push_cast
  rfl

/-- The percentage written by the progress handler is the exact half-up
rounding or a neighbour of it. -/
theorem roundPercent_near {a b : Nat} (h : a ≤ b) (hb : b ≠ 0) :
    roundPercent a b ≤ specRoundHalfUp a b + 1 ∧ specRoundHalfUp a b ≤ roundPercent a b + 1 := by
  obtain ⟨h1, h2⟩ := product_close h hb
  have hs := specRoundHalfUp_eq_floor a b hb
  have hlo : ⌊100 * (a : ℚ) / b + 1 / 2⌋ - 1
      ≤ ⌊toDouble (toDouble (toDouble (a : ℚ) / toDouble (b : ℚ)) * 100) + 1 / 2⌋ := by
    rw [← Int.floor_sub_one]
    exact Int.floor_mono (by linarith)
  have hhi : ⌊toDouble (toDouble (toDouble (a : ℚ) / toDouble (b : ℚ)) * 100) + 1 / 2⌋
      ≤ ⌊100 * (a : ℚ) / b + 1 / 2⌋ + 1 := by
    rw [← Int.floor_add_one]
    exact Int.floor_mono (by linarith)
  unfold roundPercent mathRound
  omega

/-! ## The range of progress values -/

theorem InRange.range_of_core {s s1 : State} (h : InRange s)
    (hq : s1.queue.map Task.core = s.queue.map Task.core) : InRange s1 := by
  intro t1 ht1
  have hm : Task.core t1 ∈ s.queue.map Task.core := by
    rw [← hq]; exact List.mem_map_of_mem _ ht1
  obtain ⟨t, ht, hc⟩ := List.mem_map.mp hm
  have hp : t.progress = t1.progress := congrArg (fun c => c.2.2.2) hc
  rw [← hp]
  exact h t ht

theorem InRange.range_of_queue_eq {s s1 : State} (h : InRange s) (hq : s1.queue = s.queue) :
    InRange s1 :=
  h.range_of_core (by rw [hq])

theorem InRange.range_updateUI {s : State} (h : InRange s) : InRange (updateUI s) :=
  h.range_of_queue_eq (by simp)

theorem InRange.range_processQueue {s : State} (h : InRange s) : InRange (processQueue s) :=
  h.range_of_core (processQueue_queue_core s)

theorem InRange.range_addFileToQueue (rand : Nat → String) {s : State} (h : InRange s) (f : File) :
    InRange (addFileToQueue rand s f) := by
  by_cases hm : isMedia f.name = true
  · intro t1 ht1
    have hm1 : Task.core t1 ∈ (addFileToQueue rand s f).queue.map Task.core :=
      List.mem_map_of_mem _ ht1
    rw [addFileToQueue_queue_core rand s hm, List.mem_append] at hm1
    rcases hm1 with hm1 | hm1
    · obtain ⟨t, ht, hc⟩ := List.mem_map.mp hm1
      have hp : t.progress = t1.progress := congrArg (fun c => c.2.2.2) hc
      rw [← hp]
      exact h t ht
    · have hc : Task.core t1 = (rand s.draws, f, f.name, 0) := by simpa using hm1
      have hp : t1.progress = 0 := congrArg (fun c => c.2.2.2) hc
      rw [hp]
      exact Nat.zero_le _
  · rw [addFileToQueue_of_not_media rand s (by simpa using hm)]
    exact h

theorem InRange.range_beginIngest {s : State} (h : InRange s) (now : DateTime) :
    InRange (beginIngest s now) := by
  apply h.range_of_queue_eq
  unfold beginIngest setNewBatchId
  dsimp only
  split_ifs <;> rfl

theorem InRange.range_endIngest {s : State} (h : InRange s) : InRange (endIngest s) := by
  unfold endIngest
  have h0 : InRange { s with gatheringFiles := false } := h.range_of_queue_eq rfl
  exact h0.range_processQueue.range_updateUI

theorem InRange.range_foldl_add (rand : Nat → String) (files : List File) {s : State}
    (h : InRange s) : InRange (files.foldl (addFileToQueue rand) s) := by
  induction files generalizing s with
  | nil => exact h
  | cons f fs ih => exact ih (h.range_addFileToQueue rand f)

theorem InRange.range_handleFilesInput (rand : Nat → String) {s : State} (h : InRange s)
    (now : DateTime) (files : List File) : InRange (handleFilesInput rand s now files) :=
  ((h.range_beginIngest now).range_foldl_add rand files).range_endIngest

theorem InRange.range_addFallback (rand : Nat → String) (files : List (Option File)) {s : State}
    (h : InRange s) : InRange (addFallback rand s files) := by
  unfold addFallback
  induction files generalizing s with
  | nil => exact h
  | cons f fs ih =>
    cases f with
    | none => exact ih h
    | some file => exact ih (h.range_addFileToQueue rand file)

theorem InRange.range_handleDropEvent (rand : Nat → String) {s : State} (h : InRange s)
    (now : DateTime) (dt : DataTransfer) : InRange (handleDropEvent rand s now dt) := by
  have h1 := (h.range_beginIngest now).range_addFallback rand (fallbackFiles dt)
  unfold handleDropEvent
  dsimp only
  split
  · exact h1.range_endIngest
  · exact h1.range_of_queue_eq rfl

theorem InRange.range_resume {s : State} (h : InRange s) (stack : List Frame) (rest : List Entry) :
    InRange (resume s stack rest).1 := by
  unfold resume
  split
  · exact h
  · exact h
  · split
    · exact h
    · exact h.range_endIngest

theorem InRange.range_onCallback (rand : Nat → String) {s : State} (h : InRange s) (w : Walk)
    {r : State × Option Walk} (hr : onCallback rand s w = some r) : InRange r.1 := by
  unfold onCallback at hr
  split at hr
  · cases hr; exact (h.range_addFileToQueue rand _).range_resume _ _
  · cases hr; exact h.range_resume _ _
  · cases hr; exact h.range_resume _ _
  · cases hr
  · cases hr; exact h.range_resume _ _
  · cases hr; exact h

theorem InRange.range_park {r : State × Option Walk} (h : InRange r.1) (k : Nat) :
    InRange (park k r) := by
  unfold park
  split <;> exact h.range_of_queue_eq rfl

theorem mem_updateAt {f : Task → Task} {i : Nat} {q : List Task} {t1 : Task}
    (h : t1 ∈ updateAt f i q) : t1 ∈ q ∨ ∃ t ∈ q, t1 = f t := by
  induction q generalizing i with
  | nil => simp [updateAt] at h
  | cons t ts ih =>
    cases i with
    | zero =>
      simp only [updateAt, List.mem_cons] at h
      rcases h with h | h
      · exact Or.inr ⟨t, List.mem_cons_self _ _, h⟩
      · exact Or.inl (List.mem_cons_of_mem _ h)
    | succ j =>
      simp only [updateAt, List.mem_cons] at h
      rcases h with h | h
      · exact Or.inl (by rw [h]; exact List.mem_cons_self _ _)
      · rcases ih h with h1 | ⟨u, hu, h1⟩
        · exact Or.inl (List.mem_cons_of_mem _ h1)
        · exact Or.inr ⟨u, List.mem_cons_of_mem _ hu, h1⟩

theorem InRange.range_updateAt {s s1 : State} (h : InRange s) (f : Task → Task) (i : Nat)
    (hf : ∀ t, t.progress ≤ 100 → (f t).progress ≤ 100)
    (hq : s1.queue = updateAt f i s.queue) : InRange s1 := by
  intro t1 ht1
  rw [hq] at ht1
  rcases mem_updateAt ht1 with h1 | ⟨t, ht, h1⟩
  · exact h t1 h1
  · rw [h1]; exact hf t (h t ht)

theorem InRange.range_onprogress {s : State} (h : InRange s) (i : Nat) (e : ProgressEvent)
    (hle : e.loaded ≤ e.total) (h0 : e.lengthComputable = true → e.total ≠ 0) :
    InRange (onprogress s i e) := by
  unfold onprogress
  split
  · rename_i hc
    apply InRange.range_updateUI
    exact h.range_updateAt (fun t => { t with progress := roundPercent e.loaded e.total }) i
      (fun _ _ => roundPercent_le_hundred hle (h0 hc)) rfl
  · exact h

theorem InRange.range_afterUpload {s : State} (h : InRange s) : InRange (afterUpload s) := by
  unfold afterUpload
  have h0 : InRange { s with activeUploads := s.activeUploads - 1 } := h.range_of_queue_eq rfl
  exact h0.range_updateUI.range_processQueue

theorem write_progress (o : Outcome) (t : Task) (h : t.progress ≤ 100) :
    (o.write t).progress ≤ 100 := by
  cases o with
  | response status =>
    simp only [Outcome.write]
    split
    · exact Nat.le_refl _
    · exact h
  | networkError => exact h

theorem InRange.range_step (rand : Nat → String) {s s1 : State} (h : InRange s) (e : Event)
    (hb : e.bounded = true) (hs : step rand s e = some s1) : InRange s1 := by
  cases e with
  | login u => cases hs; exact h.range_of_queue_eq rfl
  | navigate v => cases hs; exact h.range_of_queue_eq rfl
  | addFile f => cases hs; exact h.range_addFileToQueue rand f
  | dispatch => cases hs; exact h.range_processQueue
  | filesInput now files => cases hs; exact h.range_handleFilesInput rand now files
  | drop now dt => cases hs; exact h.range_handleDropEvent rand now dt
  | fsCallback k =>
    simp only [step] at hs
    cases hw : s.walks[k]? with
    | none => rw [hw] at hs; cases hs
    | some w =>
      rw [hw] at hs
      dsimp only at hs
      cases hc : onCallback rand s w with
      | none => rw [hc] at hs; cases hs
      | some r =>
        rw [hc] at hs
        cases hs
        exact (h.range_onCallback rand w hc).range_park k
  | progress i ev =>
    simp only [step] at hs
    split_ifs at hs with hg
    cases hs
    exact h.range_onprogress i ev (by simpa [Event.bounded] using hb) hg.2
  | load i status =>
    have hi : i ∈ s.inflight := by
      by_contra hn
      simp [step, hn] at hs
    have h2 := step_outcome rand (Outcome.response status) hi
    rw [show (Outcome.response status).event i = Event.load i status from rfl, hs] at h2
    cases h2
    apply InRange.range_afterUpload
    exact InRange.range_updateAt (h.range_of_queue_eq rfl) (Outcome.response status).write i
      (write_progress _) (handler_queue _ i _)
  | error i =>
    have hi : i ∈ s.inflight := by
      by_contra hn
      simp [step, hn] at hs
    have h2 := step_outcome rand Outcome.networkError hi
    rw [show Outcome.networkError.event i = Event.error i from rfl, hs] at h2
    cases h2
    apply InRange.range_afterUpload
    exact InRange.range_updateAt (h.range_of_queue_eq rfl) Outcome.networkError.write i
      (write_progress _) (handler_queue _ i _)

theorem InRange.range_run (rand : Nat → String) (es : List Event) {s s1 : State} (h : InRange s)
    (hb : ∀ e ∈ es, e.bounded = true) (hr : run rand s es = some s1) : InRange s1 := by
  induction es generalizing s with
  | nil => cases hr; exact h
  | cons e es ih =>
    simp only [run] at hr
    cases hs : step rand s e with
    | none => rw [hs] at hr; cases hr
    | some s2 =>
      rw [hs] at hr
      exact ih (h.range_step rand e (hb e (List.mem_cons_self _ _)) hs)
        (fun e1 he1 => hb e1 (List.mem_cons_of_mem _ he1)) hr

theorem InRange.range_init (view : String) : InRange (init view) := by
  intro t ht
  simp [UploadManager.init] at ht

/-! ## C18: the value a progress event writes -/

theorem onprogress_queue (s : State) (i : Nat) {e : ProgressEvent}
    (hc : e.lengthComputable = true) :
    (onprogress s i e).queue
      = updateAt (fun t => { t with progress := roundPercent e.loaded e.total }) i s.queue := by
  unfold onprogress
  rw [if_pos hc, updateUI_queue]

theorem onprogress_inflight (s : State) (i : Nat) (e : ProgressEvent) :
    (onprogress s i e).inflight = s.inflight := by
  unfold onprogress
  split
  · rw [updateUI_inflight]
  · rfl

/-- The step of a progress event with a computable, non-zero length. -/
theorem step_progress (rand : Nat → String) {s : State} {i : Nat} {e : ProgressEvent}
    (hin : i ∈ s.inflight) (h0 : e.total ≠ 0) :
    step rand s (Event.progress i e) = some (onprogress s i e) := by
  simp only [step]
  rw [if_pos ⟨hin, fun _ => h0⟩]

/-- C18, the code at a failing input: the upload of the sample manager reports
23 of 40 bytes sent.  The exact percentage is 57.5, which rounds half up to
58; the handler writes 57, because the Number nearest to 23/40 lies below it
and its product with 100 is the Number 57.49999999999999. -/
theorem C18_progress_23_of_40_is_57 :
    sampleProgress.lengthComputable = true ∧ sampleProgress.loaded ≤ sampleProgress.total ∧
    specRoundHalfUp sampleProgress.loaded sampleProgress.total = 58 ∧
    (step sampleRand sampleOne (Event.progress 0 sampleProgress)).map
        (fun s => (s.queue[0]?).map Task.progress) = some (some 57) := by
  refine ⟨rfl, by decide, by decide, ?_⟩
  have hin : 0 ∈ sampleOne.inflight := by decide
  have h0 : sampleProgress.total ≠ 0 := by decide
  rw [step_progress sampleRand hin h0, Option.map_some', onprogress_queue _ _ rfl,
    updateAt_getElem?_eq]
  have hq : ∃ t, sampleOne.queue[0]? = some t := ⟨_, rfl⟩
  obtain ⟨t, ht⟩ := hq
  rw [ht]
  show some (some (roundPercent 23 40)) = some (some 57)
  rw [roundPercent_23_40]

/-- C18 as amended: a progress event with computable length and
`0 ≤ loaded ≤ total`, `total > 0`, for a task in flight is delivered and sets
the progress of that task, and of no other, to
`Math.round((loaded / total) * 100)` as computed on Numbers; this value is an
integer in 0..100 and is the half-up rounding of the exact percentage or
differs from it by one.  Consequently, after every run of events from a fresh
page whose progress events report `loaded ≤ total`, every task has a progress
in 0..100. -/
theorem C18_progress_is_rounded_product (rand : Nat → String) (s : State) (i : Nat)
    (e : ProgressEvent) (hin : i ∈ s.inflight) (hc : e.lengthComputable = true)
    (hle : e.loaded ≤ e.total) (h0 : e.total ≠ 0) :
    (∃ s1, step rand s (Event.progress i e) = some s1 ∧
      (∀ t : Task, s.queue[i]? = some t →
        s1.queue[i]? = some { t with progress := roundPercent e.loaded e.total }) ∧
      (∀ k : Nat, k ≠ i → s1.queue[k]? = s.queue[k]?)) ∧
    roundPercent e.loaded e.total ≤ 100 ∧
    roundPercent e.loaded e.total ≤ specRoundHalfUp e.loaded e.total + 1 ∧
    specRoundHalfUp e.loaded e.total ≤ roundPercent e.loaded e.total + 1 ∧
    (∀ (view : String) (es : List Event) (s2 : State), (∀ ev ∈ es, ev.bounded = true) →
      run rand (init view) es = some s2 → ∀ t ∈ s2.queue, t.progress ≤ 100) := by
  refine ⟨⟨_, step_progress rand hin h0, ?_, ?_⟩, roundPercent_le_hundred hle h0,
    (roundPercent_near hle h0).1, (roundPercent_near hle h0).2, ?_⟩
  · intro t ht
    rw [onprogress_queue _ _ hc, updateAt_getElem?_eq, ht]
    rfl
  · intro k hk
    rw [onprogress_queue _ _ hc, updateAt_getElem?_ne _ _ hk]
  · intro view es s2 hb hr
    exact (InRange.range_init view).range_run rand es hb hr

theorem C18_progress_is_rounded_product_witness :
    (0 ∈ sampleOne.inflight ∧ sampleProgress.loaded ≤ sampleProgress.total) ∧
    ((∃ s1, step sampleRand sampleOne (Event.progress 0 sampleProgress) = some s1 ∧
      (∀ t : Task, sampleOne.queue[0]? = some t →
        s1.queue[0]? = some { t with progress := roundPercent sampleProgress.loaded sampleProgress.total }) ∧
      (∀ k : Nat, k ≠ 0 → s1.queue[k]? = sampleOne.queue[k]?)) ∧
    roundPercent sampleProgress.loaded sampleProgress.total ≤ 100 ∧
    roundPercent sampleProgress.loaded sampleProgress.total
      ≤ specRoundHalfUp sampleProgress.loaded sampleProgress.total + 1 ∧
    specRoundHalfUp sampleProgress.loaded sampleProgress.total
      ≤ roundPercent sampleProgress.loaded sampleProgress.total + 1 ∧
    (∀ (view : String) (es : List Event) (s2 : State), (∀ ev ∈ es, ev.bounded = true) →
      run sampleRand (init view) es = some s2 → ∀ t ∈ s2.queue, t.progress ≤ 100)) :=
  ⟨⟨by decide, by decide⟩,
    C18_progress_is_rounded_product sampleRand sampleOne 0 sampleProgress (by decide) rfl
      (by decide) (by decide)⟩

/-! ## C19: progress does not decrease -/

theorem progressTrace_events (rand : Nat → String) (i total : Nat) (h0 : total ≠ 0)
    (sents : List Nat) (s : State) (t : Task) (hin : i ∈ s.inflight)
    (ht : s.queue[i]? = some t) :
    progressTrace rand i s (progressEvents i total sents ++ [Event.load i 200])
      = sents.map (fun n => some (roundPercent n total)) ++ [some 100] := by
  induction sents generalizing s t with
  | nil =>
    obtain ⟨s1, hs, hq⟩ := step_outcome_task rand (Outcome.response 200) hin ht
    have hs1 : step rand s (Event.load i 200) = some s1 := hs
    simp only [progressEvents, List.map_nil, List.nil_append, progressTrace, hs1, hq]
    rfl
  | cons n ns ih =>
    have hs : step rand s (Event.progress i { lengthComputable := true, loaded := n, total := total })
        = some (onprogress s i { lengthComputable := true, loaded := n, total := total }) :=
      step_progress rand hin h0
    have hq : (onprogress s i { lengthComputable := true, loaded := n, total := total }).queue[i]?
        = some { t with progress := roundPercent n total } := by
      rw [onprogress_queue _ _ rfl, updateAt_getElem?_eq, ht]
      rfl
    have hi : i ∈ (onprogress s i { lengthComputable := true, loaded := n, total := total }).inflight := by
      rw [onprogress_inflight]; exact hin
    have htail := ih _ _ hi hq
    simp only [progressEvents, List.map_cons, List.cons_append, progressTrace, hs, hq]
    simp only [progressEvents] at htail
    exact congrArg (fun l => some (roundPercent n total) :: l) htail

/-- C19: for a task in flight, let progress events with computable length, one
fixed total greater than 0 and non-decreasing byte counts `loaded ≤ total` be
delivered one after the other, followed by a response with status 200.  Every
event is delivered; after the event that reports `n` bytes the task shows
`Math.round((n / total) * 100)` as computed on Numbers, and after the response
it shows 100; each value in this sequence is at least every earlier one, so
the progress never decreases and the transition to `success` does not
decrease it.  The computed percentage is monotone in the byte count. -/
theorem C19_progress_non_decreasing (rand : Nat → String) (s : State) (i : Nat) (t : Task)
    (total : Nat) (sents : List Nat) (hin : i ∈ s.inflight) (ht : s.queue[i]? = some t)
    (h0 : total ≠ 0) (hsorted : List.Chain' (fun a b => a ≤ b) sents)
    (hle : ∀ n ∈ sents, n ≤ total) :
    progressTrace rand i s (progressEvents i total sents ++ [Event.load i 200])
      = sents.map (fun n => some (roundPercent n total)) ++ [some 100] ∧
    List.Pairwise (fun a b => a ≤ b) (sents.map (fun n => roundPercent n total) ++ [100]) ∧
    ∀ a b : Nat, a ≤ b → roundPercent a total ≤ roundPercent b total := by
  refine ⟨progressTrace_events rand i total h0 sents s t hin ht, ?_,
    fun a b hab => roundPercent_mono hab total⟩
  rw [List.pairwise_append]
  refine ⟨?_, List.pairwise_singleton _ _, ?_⟩
  · rw [List.pairwise_map]
    have hp : List.Pairwise (fun a b => a ≤ b) sents := List.chain'_iff_pairwise.mp hsorted
    exact hp.imp (fun hab => roundPercent_mono hab total)
  · intro a ha b hb
    obtain ⟨n, hn, rfl⟩ := List.mem_map.mp ha
    rw [List.mem_singleton.mp hb]
    exact roundPercent_le_hundred (hle n hn) h0

theorem C19_progress_non_decreasing_witness :
    (0 ∈ sampleOne.inflight ∧ List.Chain' (fun a b => a ≤ b) [10, 23, 40]) ∧
    (progressTrace sampleRand 0 sampleOne (progressEvents 0 40 [10, 23, 40] ++ [Event.load 0 200])
      = [10, 23, 40].map (fun n => some (roundPercent n 40)) ++ [some 100] ∧
    List.Pairwise (fun a b => a ≤ b) ([10, 23, 40].map (fun n => roundPercent n 40) ++ [100]) ∧
    ∀ a b : Nat, a ≤ b → roundPercent a 40 ≤ roundPercent b 40) :=
  ⟨⟨by decide, by simp⟩,
    C19_progress_non_decreasing sampleRand sampleOne 0 _ 40 [10, 23, 40] (by decide) rfl
      (by decide) (by simp) (by decide)⟩

/-! ## C20: a failed upload keeps its progress -/

/-- C20: when the request of a task that is in flight fails, by a network
error or by a response whose status is not 200, the event is delivered and
afterwards the task has status `error`, and every other field of it, its
progress included, is what it was immediately before. -/
theorem C20_failure_keeps_progress (rand : Nat → String) (s : State) (i : Nat) (t : Task)
    (o : Outcome) (hin : i ∈ s.inflight) (ht : s.queue[i]? = some t)
    (ho : o ≠ Outcome.response 200) :
    ∃ s1, step rand s (o.event i) = some s1 ∧
      s1.queue[i]? = some { t with status := Status.error } := by
  obtain ⟨s1, hs, hq⟩ := step_outcome_task rand o hin ht
  refine ⟨s1, hs, ?_⟩
  rw [hq]
  cases o with
  | networkError => rfl
  | response status =>
    have h : status ≠ 200 := fun h => ho (by rw [h])
    simp [Outcome.write, h]

/-- C20 at a concrete state: the only upload of the sample manager fails with
a network error. -/
theorem C20_failure_keeps_progress_witness :
    (0 ∈ sampleOne.inflight ∧ sampleOne.queue[0]? = some sampleTask ∧
      Outcome.networkError ≠ Outcome.response 200) ∧
    ∃ s1, step sampleRand sampleOne (Outcome.networkError.event 0) = some s1 ∧
      s1.queue[0]? = some { sampleTask with status := Status.error } :=
  ⟨⟨by decide, by decide, by decide⟩,
    C20_failure_keeps_progress sampleRand sampleOne 0 sampleTask Outcome.networkError
      (by decide) (by decide) (by decide)⟩

/-! ## The two cases of `updateUI` -/

theorem updateUI_test (s : State) :
    ((s.queue.filter isOpen).length == 0 && !s.gatheringFiles && s.batchId != none) = true
      ↔ (openCount s.queue = 0 ∧ s.gatheringFiles = false ∧ s.batchId ≠ none) := by
  simp [openCount, and_assoc]

theorem updateUI_of_not_done {s : State}
    (h : ¬ (openCount s.queue = 0 ∧ s.gatheringFiles = false ∧ s.batchId ≠ none)) :
    updateUI s = s := by
  unfold updateUI
  dsimp only
  rw [if_neg (fun hc => h ((updateUI_test s).mp hc))]

theorem updateUI_of_done {s : State}
    (h : openCount s.queue = 0 ∧ s.gatheringFiles = false ∧ s.batchId ≠ none) :
    updateUI s = { (if s.view = "files" ∨ s.view = "photos" then refreshViewData s else s) with
      batchId := none } := by
  unfold updateUI
  dsimp only
  rw [if_pos ((updateUI_test s).mpr h)]
  by_cases hv : s.view = "files" ∨ s.view = "photos"
  · have : (s.view == "files" || s.view == "photos") = true := by simpa using hv
    rw [if_pos this, if_pos hv]
  · have : ¬ ((s.view == "files" || s.view == "photos") = true) := by simpa using hv
    rw [if_neg this, if_neg hv]

/-! ## What the operations do to `batchId` -/

theorem openCount_processQueue (s : State) :
    openCount (processQueue s).queue = openCount s.queue := by
  rcases processQueue_cases s with he | ⟨next, -, hfind, he⟩
  · rw [he]
  · obtain ⟨t, ht, hp, -⟩ := findIndex_some hfind
    have hpend : t.status = Status.pending := by simpa using hp
    have hcount := filter_updateAt_length isOpen
      (fun t => { t with status := Status.uploading }) ht
    simp [isOpen, hpend] at hcount
    rw [he]
    simp only [uploadFile_queue, claimed, updateUI_queue, openCount]
    simpa [isOpen] using hcount

theorem processQueue_batchId (s : State) : (processQueue s).batchId = s.batchId := by
  rcases processQueue_cases s with he | ⟨next, hlt, hfind, he⟩
  · rw [he]
  · obtain ⟨t, ht, -, -⟩ := findIndex_some hfind
    have hopen : 0 < openCount (processQueue s).queue := by
      apply @openCount_pos_of_open _ next { t with status := Status.uploading }
      · rw [he]
        simp only [uploadFile_queue, claimed, updateUI_queue]
        rw [updateAt_getElem?_eq, ht]
        rfl
      · rfl
    rw [he] at hopen ⊢
    simp only [uploadFile_queue, claimed, updateUI_queue] at hopen
    simp only [uploadFile_batchId, claimed]
    rw [updateUI_of_not_done]
    intro hd
    have := hd.1
    simp only at this
    omega

theorem openCount_push (q : List Task) (t : Task) (ht : t.status = Status.pending) :
    openCount (q ++ [t]) = openCount q + 1 := by
  simp [openCount, List.filter_append, isOpen, ht]

theorem addFileToQueue_batchId (rand : Nat → String) (s : State) (f : File) :
    (addFileToQueue rand s f).batchId = s.batchId := by
  by_cases hm : isMedia f.name = true
  · rw [addFileToQueue_of_media rand s hm, processQueue_batchId, updateUI_of_not_done]
    intro hd
    have := hd.1
    simp only at this
    rw [openCount_push _ _ rfl] at this
    omega
  · rw [addFileToQueue_of_not_media rand s (by simpa using hm)]

theorem openCount_addFileToQueue (rand : Nat → String) (s : State) (f : File) :
    openCount s.queue ≤ openCount (addFileToQueue rand s f).queue := by
  by_cases hm : isMedia f.name = true
  · rw [addFileToQueue_of_media rand s hm, openCount_processQueue, updateUI_queue]
    simp only
    rw [openCount_push _ _ rfl]
    omega
  · rw [addFileToQueue_of_not_media rand s (by simpa using hm)]

theorem foldl_add_batchId (rand : Nat → String) (files : List File) (s : State) :
    (files.foldl (addFileToQueue rand) s).batchId = s.batchId ∧
    openCount s.queue ≤ openCount (files.foldl (addFileToQueue rand) s).queue := by
  induction files generalizing s with
  | nil => exact ⟨rfl, Nat.le_refl _⟩
  | cons f fs ih =>
    obtain ⟨h1, h2⟩ := ih (addFileToQueue rand s f)
    exact ⟨h1.trans (addFileToQueue_batchId rand s f),
      Nat.le_trans (openCount_addFileToQueue rand s f) h2⟩

theorem addFallback_batchId (rand : Nat → String) (files : List (Option File)) (s : State) :
    (addFallback rand s files).batchId = s.batchId ∧
    openCount s.queue ≤ openCount (addFallback rand s files).queue := by
  unfold addFallback
  induction files generalizing s with
  | nil => exact ⟨rfl, Nat.le_refl _⟩
  | cons f fs ih =>
    cases f with
    | none => exact ih s
    | some file =>
      obtain ⟨h1, h2⟩ := ih (addFileToQueue rand s file)
      exact ⟨h1.trans (addFileToQueue_batchId rand s file),
        Nat.le_trans (openCount_addFileToQueue rand s file) h2⟩

/-- After an operation `batchId` is what it was or null. -/
theorem updateUI_batchId (s : State) :
    (updateUI s).batchId = s.batchId ∨ (updateUI s).batchId = none := by
  by_cases hd : openCount s.queue = 0 ∧ s.gatheringFiles = false ∧ s.batchId ≠ none
  · right; rw [updateUI_of_done hd]
  · left; rw [updateUI_of_not_done hd]

theorem endIngest_batchId (s : State) :
    (endIngest s).batchId = s.batchId ∨ (endIngest s).batchId = none := by
  unfold endIngest
  rcases updateUI_batchId (processQueue { s with gatheringFiles := false }) with h | h
  · left; rw [h, processQueue_batchId]
  · right; exact h

theorem endIngest_of_open {s : State} (h : 0 < openCount s.queue) :
    (endIngest s).batchId = s.batchId := by
  unfold endIngest
  rw [updateUI_of_not_done, processQueue_batchId]
  intro hd
  have := hd.1
  rw [openCount_processQueue] at this
  simp only at this
  omega

theorem beginIngest_of_set {s : State} {b : String} (hb : s.batchId = some b) (hne : b ≠ "")
    (now : DateTime) : (beginIngest s now).batchId = some b ∧
      (beginIngest s now).queue = s.queue := by
  unfold beginIngest
  simp [hb, hne]

theorem resume_batchId (s : State) (stack : List Frame) (rest : List Entry) :
    (resume s stack rest).1.batchId = s.batchId ∨ (resume s stack rest).1.batchId = none := by
  unfold resume
  split
  · exact Or.inl rfl
  · exact Or.inl rfl
  · split
    · exact Or.inl rfl
    · exact endIngest_batchId s

theorem onCallback_batchId (rand : Nat → String) (s : State) (w : Walk)
    {r : State × Option Walk} (hr : onCallback rand s w = some r) :
    r.1.batchId = s.batchId ∨ r.1.batchId = none := by
  unfold onCallback at hr
  split at hr
  · cases hr
    rcases resume_batchId (addFileToQueue rand s _) w.stack w.rest with h | h
    · left; rw [h, addFileToQueue_batchId]
    · right; exact h
  · cases hr; exact resume_batchId _ _ _
  · cases hr; exact resume_batchId _ _ _
  · cases hr
  · cases hr; exact resume_batchId _ _ _
  · cases hr; exact Or.inl rfl

theorem park_batchId (k : Nat) (r : State × Option Walk) : (park k r).batchId = r.1.batchId := by
  unfold park
  split <;> rfl

theorem afterUpload_batchId (s : State) :
    (afterUpload s).batchId = s.batchId ∨ (afterUpload s).batchId = none := by
  unfold afterUpload
  rw [processQueue_batchId]
  exact updateUI_batchId { s with activeUploads := s.activeUploads - 1 }

theorem onprogress_batchId (s : State) (i : Nat) (e : ProgressEvent) :
    (onprogress s i e).batchId = s.batchId ∨ (onprogress s i e).batchId = none := by
  unfold onprogress
  split
  · exact updateUI_batchId _
  · exact Or.inl rfl

/-- One event leaves a set `batchId` as it is or clears it. -/
theorem step_batchId (rand : Nat → String) {s s1 : State} {b : String} (e : Event)
    (hb : s.batchId = some b) (hne : b ≠ "") (hs : step rand s e = some s1) :
    s1.batchId = some b ∨ s1.batchId = none := by
  have key : ∀ s2 : State, (s2.batchId = s.batchId ∨ s2.batchId = none) →
      s2.batchId = some b ∨ s2.batchId = none := by
    intro s2 h
    rcases h with h | h
    · left; rw [h, hb]
    · right; exact h
  cases e with
  | login u => cases hs; exact Or.inl hb
  | navigate v => cases hs; exact Or.inl hb
  | addFile f => cases hs; exact key _ (Or.inl (addFileToQueue_batchId rand s f))
  | dispatch => cases hs; exact key _ (Or.inl (processQueue_batchId s))
  | filesInput now files =>
    cases hs
    unfold handleFilesInput
    rcases endIngest_batchId (files.foldl (addFileToQueue rand) (beginIngest s now)) with h | h
    · left
      rw [h, (foldl_add_batchId rand files _).1]
      exact (beginIngest_of_set hb hne now).1
    · right; exact h
  | drop now dt =>
    cases hs
    have h1 : (addFallback rand (beginIngest s now) (fallbackFiles dt)).batchId = some b := by
      rw [(addFallback_batchId rand _ _).1]
      exact (beginIngest_of_set hb hne now).1
    unfold handleDropEvent
    dsimp only
    split
    · rcases endIngest_batchId (addFallback rand (beginIngest s now) (fallbackFiles dt))
        with h | h
      · left; rw [h, h1]
      · right; exact h
    · exact Or.inl h1
  | fsCallback k =>
    simp only [step] at hs
    cases hw : s.walks[k]? with
    | none => rw [hw] at hs; cases hs
    | some w =>
      rw [hw] at hs
      dsimp only at hs
      cases hc : onCallback rand s w with
      | none => rw [hc] at hs; cases hs
      | some r =>
        rw [hc] at hs
        cases hs
        rw [park_batchId]
        exact key _ (onCallback_batchId rand s w hc)
  | progress i ev =>
    simp only [step] at hs
    split_ifs at hs with hg
    cases hs
    exact key _ (onprogress_batchId s i ev)
  | load i status =>
    have hi : i ∈ s.inflight := by
      by_contra hn
      simp [step, hn] at hs
    have h2 := step_outcome rand (Outcome.response status) hi
    rw [show (Outcome.response status).event i = Event.load i status from rfl, hs] at h2
    cases h2
    apply key
    rcases afterUpload_batchId
      ((Outcome.response status).handler { s with inflight := s.inflight.erase i } i) with h | h
    · left; rw [h, (handler_fields _ i _).2.1]
    · right; exact h
  | error i =>
    have hi : i ∈ s.inflight := by
      by_contra hn
      simp [step, hn] at hs
    have h2 := step_outcome rand Outcome.networkError hi
    rw [show Outcome.networkError.event i = Event.error i from rfl, hs] at h2
    cases h2
    apply key
    rcases afterUpload_batchId
      (Outcome.networkError.handler { s with inflight := s.inflight.erase i } i) with h | h
    · left; rw [h, (handler_fields _ i _).2.1]
    · right; exact h

/-! ## The counter and the pool -/

theorem pendingCount_eq_zero_of_none {q : List Task}
    (h : findIndex (fun t => t.status == Status.pending) q = none) : pendingCount q = 0 := by
  unfold pendingCount
  rw [List.length_eq_zero, List.filter_eq_nil_iff]
  intro t ht
  have := findIndex_none h t ht
  simpa using this

theorem openCount_eq_add (q : List Task) : openCount q = pendingCount q + uploadingCount q := by
  unfold openCount pendingCount uploadingCount
  induction q with
  | nil => rfl
  | cons t ts ih =>
    simp only [List.filter_cons]
    cases hs : t.status <;> simp [isOpen, hs] <;> omega

theorem pendingCount_pos_iff {q : List Task} :
    0 < pendingCount q ↔ ∃ k, statusAt q k = some Status.pending := by
  unfold pendingCount
  rw [List.length_pos_iff_exists_mem]
  constructor
  · rintro ⟨t, ht⟩
    obtain ⟨hm, hp⟩ := List.mem_filter.mp ht
    obtain ⟨k, hk⟩ := List.getElem?_of_mem hm
    exact ⟨k, statusAt_eq_some.mpr ⟨t, hk, by simpa using hp⟩⟩
  · rintro ⟨k, hk⟩
    obtain ⟨t, ht, hs⟩ := statusAt_eq_some.mp hk
    exact ⟨t, List.mem_filter.mpr ⟨List.getElem?_mem ht, by simp [hs]⟩⟩

/-- What `processQueue` reaches from a state whose counter is right and which
is at most one start away from saturation. -/
theorem processQueue_balance {s : State} (ha : s.activeUploads = (uploadingCount s.queue : Int))
    (hslack : pendingCount s.queue ≤ 1 ∨ s.maxConcurrent ≤ s.activeUploads + 1) :
    Balanced (processQueue s) := by
  by_cases hfull : s.maxConcurrent ≤ s.activeUploads
  · rw [processQueue_full hfull]
    exact ⟨ha, Or.inr hfull⟩
  · cases hfind : findIndex (fun q => q.status == Status.pending) s.queue with
    | none =>
      rw [processQueue_idle hfind]
      exact ⟨ha, Or.inl (pendingCount_eq_zero_of_none hfind)⟩
    | some next =>
      obtain ⟨t, ht, hp, -⟩ := findIndex_some hfind
      have hpend : t.status = Status.pending := by simpa using hp
      have hu := filter_updateAt_length (fun t => t.status == Status.uploading)
        (fun t => { t with status := Status.uploading }) ht
      have hpc := filter_updateAt_length (fun t => t.status == Status.pending)
        (fun t => { t with status := Status.uploading }) ht
      simp [hpend] at hu hpc
      rw [processQueue_start (by omega) hfind]
      constructor
      · simp only [uploadFile_queue, uploadFile_activeUploads, claimed, updateUI_queue,
          updateUI_activeUploads, uploadingCount]
        simp only [uploadingCount] at ha
        omega
      · simp only [uploadFile_queue, uploadFile_activeUploads, uploadFile_maxConcurrent, claimed,
          updateUI_queue, updateUI_activeUploads, updateUI_maxConcurrent, pendingCount]
        simp only [pendingCount] at hslack
        omega

theorem Balanced.bal_of_eq {s s1 : State} (h : Balanced s) (hq : s1.queue = s.queue)
    (ha : s1.activeUploads = s.activeUploads) (hm : s1.maxConcurrent = s.maxConcurrent) :
    Balanced s1 := by
  constructor
  · rw [hq, ha]; exact h.active_eq
  · rw [hq, ha, hm]; exact h.saturated

theorem Balanced.bal_updateUI {s : State} (h : Balanced s) : Balanced (updateUI s) :=
  h.bal_of_eq (by simp) (by simp) (by simp)

theorem Balanced.bal_processQueue {s : State} (h : Balanced s) : Balanced (processQueue s) := by
  apply processQueue_balance h.active_eq
  rcases h.saturated with h0 | h1
  · left; omega
  · right; omega

theorem counts_push (q : List Task) (t : Task) (ht : t.status = Status.pending) :
    uploadingCount (q ++ [t]) = uploadingCount q ∧ pendingCount (q ++ [t]) = pendingCount q + 1 := by
  simp [uploadingCount, pendingCount, List.filter_append, ht]

theorem Balanced.bal_addFileToQueue (rand : Nat → String) {s : State} (h : Balanced s)
    (f : File) : Balanced (addFileToQueue rand s f) := by
  by_cases hm : isMedia f.name = true
  · rw [addFileToQueue_of_media rand s hm]
    obtain ⟨hu, hp⟩ :=
      counts_push s.queue ⟨rand s.draws, f, f.name, Status.pending, 0⟩ rfl
    apply processQueue_balance
    · simp only [updateUI_queue, updateUI_activeUploads]
      rw [hu]
      exact h.active_eq
    · simp only [updateUI_queue, updateUI_activeUploads, updateUI_maxConcurrent]
      rw [hp]
      rcases h.saturated with h0 | h1
      · left; omega
      · right; omega
  · rw [addFileToQueue_of_not_media rand s (by simpa using hm)]
    exact h

theorem Balanced.bal_beginIngest {s : State} (h : Balanced s) (now : DateTime) :
    Balanced (beginIngest s now) := by
  unfold beginIngest setNewBatchId
  dsimp only
  split_ifs <;> exact h.bal_of_eq rfl rfl rfl

theorem Balanced.bal_endIngest {s : State} (h : Balanced s) : Balanced (endIngest s) := by
  unfold endIngest
  have h0 : Balanced { s with gatheringFiles := false } := h.bal_of_eq rfl rfl rfl
  exact h0.bal_processQueue.bal_updateUI

theorem Balanced.bal_foldl_add (rand : Nat → String) (files : List File) {s : State}
    (h : Balanced s) : Balanced (files.foldl (addFileToQueue rand) s) := by
  induction files generalizing s with
  | nil => exact h
  | cons f fs ih => exact ih (h.bal_addFileToQueue rand f)

theorem Balanced.bal_handleFilesInput (rand : Nat → String) {s : State} (h : Balanced s)
    (now : DateTime) (files : List File) : Balanced (handleFilesInput rand s now files) :=
  ((h.bal_beginIngest now).bal_foldl_add rand files).bal_endIngest

theorem Balanced.bal_addFallback (rand : Nat → String) (files : List (Option File)) {s : State}
    (h : Balanced s) : Balanced (addFallback rand s files) := by
  unfold addFallback
  induction files generalizing s with
  | nil => exact h
  | cons f fs ih =>
    cases f with
    | none => exact ih h
    | some file => exact ih (h.bal_addFileToQueue rand file)

theorem Balanced.bal_handleDropEvent (rand : Nat → String) {s : State} (h : Balanced s)
    (now : DateTime) (dt : DataTransfer) : Balanced (handleDropEvent rand s now dt) := by
  have h1 := (h.bal_beginIngest now).bal_addFallback rand (fallbackFiles dt)
  unfold handleDropEvent
  dsimp only
  split
  · exact h1.bal_endIngest
  · exact h1.bal_of_eq rfl rfl rfl

theorem Balanced.bal_resume {s : State} (h : Balanced s) (stack : List Frame)
    (rest : List Entry) : Balanced (resume s stack rest).1 := by
  unfold resume
  split
  · exact h
  · exact h
  · split
    · exact h
    · exact h.bal_endIngest

theorem Balanced.bal_onCallback (rand : Nat → String) {s : State} (h : Balanced s) (w : Walk)
    {r : State × Option Walk} (hr : onCallback rand s w = some r) : Balanced r.1 := by
  unfold onCallback at hr
  split at hr
  · cases hr; exact (h.bal_addFileToQueue rand _).bal_resume _ _
  · cases hr; exact h.bal_resume _ _
  · cases hr; exact h.bal_resume _ _
  · cases hr
  · cases hr; exact h.bal_resume _ _
  · cases hr; exact h

theorem Balanced.bal_park {r : State × Option Walk} (h : Balanced r.1) (k : Nat) :
    Balanced (park k r) := by
  unfold park
  split <;> exact h.bal_of_eq rfl rfl rfl

theorem Balanced.bal_onprogress {s : State} (h : Balanced s) (i : Nat) (e : ProgressEvent) :
    Balanced (onprogress s i e) := by
  unfold onprogress
  split
  · apply Balanced.bal_updateUI
    have hst : statuses (updateAt (fun t => { t with progress := roundPercent e.loaded e.total })
        i s.queue) = statuses s.queue :=
      map_updateAt Task.status (fun t => { t with progress := roundPercent e.loaded e.total })
        (fun _ => rfl) i s.queue
    have hu : ∀ q : List Task, uploadingCount q
        = ((statuses q).filter (fun a => a == Status.uploading)).length := by
      intro q; simp [uploadingCount, statuses, List.filter_map, Function.comp_def]
    have hp : ∀ q : List Task, pendingCount q
        = ((statuses q).filter (fun a => a == Status.pending)).length := by
      intro q; simp [pendingCount, statuses, List.filter_map, Function.comp_def]
    constructor
    · show s.activeUploads = _
      rw [hu, hst, ← hu]
      exact h.active_eq
    · show pendingCount _ = 0 ∨ s.maxConcurrent ≤ s.activeUploads
      rw [hp, hst, ← hp]
      exact h.saturated
  · exact h

/-- The state between a completion handler and the continuation of
`processQueue`: the task has left `uploading`, the counter still counts it. -/
theorem handler_counts {s : State} (hinv : Inv s) {i : Nat} (hi : i ∈ s.inflight) (o : Outcome) :
    uploadingCount (o.handler { s with inflight := s.inflight.erase i } i).queue + 1
      = uploadingCount s.queue ∧
    pendingCount (o.handler { s with inflight := s.inflight.erase i } i).queue
      = pendingCount s.queue ∧
    (o.handler { s with inflight := s.inflight.erase i } i).activeUploads = s.activeUploads ∧
    (o.handler { s with inflight := s.inflight.erase i } i).maxConcurrent = s.maxConcurrent := by
  obtain ⟨t, ht, hts⟩ := hinv.inflight_uploading i hi
  have hu := filter_updateAt_length (fun t => t.status == Status.uploading) o.write ht
  have hp := filter_updateAt_length (fun t => t.status == Status.pending) o.write ht
  have h1 : (o.write t).status ≠ Status.uploading := by
    rw [write_status]; exact result_ne_uploading o
  have h2 : (o.write t).status ≠ Status.pending := by
    rw [write_status]; exact result_ne_pending o
  simp [hts, h1, h2] at hu hp
  refine ⟨?_, ?_, (handler_fields _ i o).1, ?_⟩
  · rw [handler_queue]
    simp only [uploadingCount]
    omega
  · rw [handler_queue]
    simp only [pendingCount]
    omega
  · cases o with
    | response status => simp only [Outcome.handler, onload]; split <;> rfl
    | networkError => rfl

theorem Balanced.bal_complete {s : State} (h : Balanced s) (hinv : Inv s) {i : Nat}
    (hi : i ∈ s.inflight) (o : Outcome) :
    Balanced (afterUpload (o.handler { s with inflight := s.inflight.erase i } i)) := by
  obtain ⟨hu, hp, ha, hm⟩ := handler_counts hinv hi o
  unfold afterUpload
  apply processQueue_balance
  · simp only [updateUI_queue, updateUI_activeUploads]
    have := h.active_eq
    omega
  · simp only [updateUI_queue, updateUI_activeUploads, updateUI_maxConcurrent]
    rw [hp, ha, hm]
    rcases h.saturated with h0 | h1
    · left; omega
    · right; omega

theorem Balanced.bal_step (rand : Nat → String) {s s1 : State} (h : Balanced s) (hinv : Inv s)
    (e : Event) (hs : step rand s e = some s1) : Balanced s1 := by
  cases e with
  | login u => cases hs; exact h.bal_of_eq rfl rfl rfl
  | navigate v => cases hs; exact h.bal_of_eq rfl rfl rfl
  | addFile f => cases hs; exact h.bal_addFileToQueue rand f
  | dispatch => cases hs; exact h.bal_processQueue
  | filesInput now files => cases hs; exact h.bal_handleFilesInput rand now files
  | drop now dt => cases hs; exact h.bal_handleDropEvent rand now dt
  | fsCallback k =>
    simp only [step] at hs
    cases hw : s.walks[k]? with
    | none => rw [hw] at hs; cases hs
    | some w =>
      rw [hw] at hs
      dsimp only at hs
      cases hc : onCallback rand s w with
      | none => rw [hc] at hs; cases hs
      | some r =>
        rw [hc] at hs
        cases hs
        exact (h.bal_onCallback rand w hc).bal_park k
  | progress i ev =>
    simp only [step] at hs
    split_ifs at hs with hg
    cases hs
    exact h.bal_onprogress i ev
  | load i status =>
    have hi : i ∈ s.inflight := by
      by_contra hn
      simp [step, hn] at hs
    have h2 := step_outcome rand (Outcome.response status) hi
    rw [show (Outcome.response status).event i = Event.load i status from rfl, hs] at h2
    cases h2
    exact h.bal_complete hinv hi _
  | error i =>
    have hi : i ∈ s.inflight := by
      by_contra hn
      simp [step, hn] at hs
    have h2 := step_outcome rand Outcome.networkError hi
    rw [show Outcome.networkError.event i = Event.error i from rfl, hs] at h2
    cases h2
    exact h.bal_complete hinv hi _

theorem Balanced.bal_init (view : String) : Balanced (init view) := by
  constructor <;> simp [UploadManager.init, uploadingCount, pendingCount]

theorem Balanced.bal_of_reachable {rand : Nat → String} {view : String} {s : State}
    (h : Reachable rand view s) : Balanced s := by
  induction h with
  | init => exact Balanced.bal_init view
  | step e hr hs ih => exact ih.bal_step rand (Inv.of_reachable hr) e hs

/-! ## C21: the pool is kept saturated -/

/-- C21: in every state the page can be in between two events, the number of
uploading tasks is the smaller of `maxConcurrent` and the number of tasks that
are pending or uploading; and when some task is pending no slot is free
(`activeUploads`, which is then the number of uploading tasks, is not below
`maxConcurrent`). -/
theorem C21_pool_is_saturated (rand : Nat → String) (view : String) (s : State)
    (h : Reachable rand view s) :
    (uploadingCount s.queue : Int) = min s.maxConcurrent (openCount s.queue : Int) ∧
    ((∃ k, statusAt s.queue k = some Status.pending) →
      ¬ s.activeUploads < s.maxConcurrent ∧ (uploadingCount s.queue : Int) = s.maxConcurrent) := by
  have hb := Balanced.bal_of_reachable h
  have hi := Inv.of_reachable h
  have ha := hb.active_eq
  have hle := hi.active_le
  have ho := openCount_eq_add s.queue
  constructor
  · rcases hb.saturated with h0 | h1
    · rw [ho, h0]
      have : (uploadingCount s.queue : Int) ≤ s.maxConcurrent := by omega
      simp only [Nat.zero_add]
      exact (min_eq_right this).symm
    · have : s.maxConcurrent ≤ (openCount s.queue : Int) := by omega
      rw [min_eq_left this]
      omega
  · intro hp
    have hpos := pendingCount_pos_iff.mpr hp
    rcases hb.saturated with h0 | h1
    · omega
    · constructor <;> omega

/-- C21 at a concrete state: the busy sample manager, with three uploads
running and two tasks waiting. -/
theorem C21_pool_is_saturated_witness :
    Reachable sampleRand "files" sampleBusy ∧
    (uploadingCount sampleBusy.queue : Int)
      = min sampleBusy.maxConcurrent (openCount sampleBusy.queue : Int) ∧
    ((∃ k, statusAt sampleBusy.queue k = some Status.pending) →
      ¬ sampleBusy.activeUploads < sampleBusy.maxConcurrent ∧
        (uploadingCount sampleBusy.queue : Int) = sampleBusy.maxConcurrent) :=
  ⟨sampleBusy_reachable, C21_pool_is_saturated sampleRand "files" sampleBusy sampleBusy_reachable⟩

/-! ## C22: which task `processQueue` starts -/

/-- C22: when a slot is free and some task is pending, `processQueue` marks
the pending task with the lowest queue index: it lies at or before any given
pending task, no task before it is pending (tasks before it that are
uploading, `success` or `error` are passed over), it becomes `uploading`,
every other task is left as it is, and `activeUploads` grows by one. -/
theorem C22_processQueue_takes_first_pending (s : State) (k : Nat)
    (hfree : s.activeUploads < s.maxConcurrent)
    (hpend : statusAt s.queue k = some Status.pending) :
    ∃ next, next ≤ k ∧ statusAt s.queue next = some Status.pending ∧
      (∀ j, j < next → statusAt s.queue j ≠ some Status.pending) ∧
      statusAt (processQueue s).queue next = some Status.uploading ∧
      (∀ j, j ≠ next → (processQueue s).queue[j]? = s.queue[j]?) ∧
      (processQueue s).activeUploads = s.activeUploads + 1 := by
  obtain ⟨tk, htk, hsk⟩ := statusAt_eq_some.mp hpend
  cases hfind : findIndex (fun q => q.status == Status.pending) s.queue with
  | none =>
    have := findIndex_none hfind tk (List.getElem?_mem htk)
    simp [hsk] at this
  | some next =>
    obtain ⟨t, ht, hp, hbefore⟩ := findIndex_some hfind
    have hst : t.status = Status.pending := by simpa using hp
    refine ⟨next, ?_, ?_, ?_, ?_, ?_, ?_⟩
    · by_contra hlt
      have := hbefore k tk (by omega) htk
      simp [hsk] at this
    · exact statusAt_eq_some.mpr ⟨t, ht, hst⟩
    · intro j hj hjs
      obtain ⟨u, hu, hus⟩ := statusAt_eq_some.mp hjs
      have := hbefore j u hj hu
      simp [hus] at this
    · rw [processQueue_start hfree hfind]
      simp only [uploadFile_queue, claimed, updateUI_queue]
      rw [statusAt_updateAt_eq, ht]
      rfl
    · intro j hj
      rw [processQueue_start hfree hfind]
      simp only [uploadFile_queue, claimed, updateUI_queue]
      exact updateAt_getElem?_ne _ _ hj
    · rw [processQueue_start hfree hfind]
      simp only [uploadFile_activeUploads, claimed, updateUI_activeUploads]

/-- C22 at a concrete state: a failed task and two running uploads in front of two pending tasks. -/
theorem C22_processQueue_takes_first_pending_witness :
    (sampleFreed.activeUploads < sampleFreed.maxConcurrent ∧
      statusAt sampleFreed.queue 4 = some Status.pending) ∧
    ∃ next, next ≤ 4 ∧ statusAt sampleFreed.queue next = some Status.pending ∧
      (∀ j, j < next → statusAt sampleFreed.queue j ≠ some Status.pending) ∧
      statusAt (processQueue sampleFreed).queue next = some Status.uploading ∧
      (∀ j, j ≠ next → (processQueue sampleFreed).queue[j]? = sampleFreed.queue[j]?) ∧
      (processQueue sampleFreed).activeUploads = sampleFreed.activeUploads + 1 :=
  ⟨⟨by decide, by decide⟩,
    C22_processQueue_takes_first_pending sampleFreed 4 (by decide) (by decide)⟩

/-! ## C23: the queue is append-only -/

theorem Grown.grown_of_core {s s1 : State}
    (h : s1.queue.map Task.core = s.queue.map Task.core) : Grown s s1 :=
  ⟨[], by simp [h], by simp⟩

theorem Grown.grown_of_queue_eq {s s1 : State} (h : s1.queue = s.queue) : Grown s s1 :=
  Grown.grown_of_core (by rw [h])

theorem Grown.grown_trans {s s1 s2 : State} (h1 : Grown s s1) (h2 : Grown s1 s2) :
    Grown s s2 := by
  obtain ⟨cs1, e1, p1⟩ := h1
  obtain ⟨cs2, e2, p2⟩ := h2
  refine ⟨cs1 ++ cs2, by rw [e2, e1, List.append_assoc], ?_⟩
  intro c hc
  rcases List.mem_append.mp hc with h | h
  · exact p1 c h
  · exact p2 c h

theorem grown_updateUI (s : State) : Grown s (updateUI s) :=
  Grown.grown_of_queue_eq (by simp)

theorem grown_processQueue (s : State) : Grown s (processQueue s) :=
  Grown.grown_of_core (processQueue_queue_core s)

theorem grown_addFileToQueue (rand : Nat → String) (s : State) (f : File) :
    Grown s (addFileToQueue rand s f) := by
  by_cases hm : isMedia f.name = true
  · refine ⟨[(rand s.draws, f, f.name, 0)], addFileToQueue_queue_core rand s hm, ?_⟩
    intro c hc
    rw [List.mem_singleton.mp hc]
    exact ⟨rfl, rfl⟩
  · rw [addFileToQueue_of_not_media rand s (by simpa using hm)]
    exact Grown.grown_of_queue_eq rfl

theorem grown_beginIngest (s : State) (now : DateTime) : Grown s (beginIngest s now) := by
  apply Grown.grown_of_queue_eq
  unfold beginIngest setNewBatchId
  dsimp only
  split_ifs <;> rfl

theorem grown_endIngest (s : State) : Grown s (endIngest s) := by
  unfold endIngest
  have h0 : Grown s { s with gatheringFiles := false } := Grown.grown_of_queue_eq rfl
  exact (h0.grown_trans (grown_processQueue _)).grown_trans (grown_updateUI _)

theorem grown_foldl_add (rand : Nat → String) (files : List File) (s : State) :
    Grown s (files.foldl (addFileToQueue rand) s) := by
  induction files generalizing s with
  | nil => exact Grown.grown_of_queue_eq rfl
  | cons f fs ih => exact (grown_addFileToQueue rand s f).grown_trans (ih _)

theorem grown_handleFilesInput (rand : Nat → String) (s : State) (now : DateTime)
    (files : List File) : Grown s (handleFilesInput rand s now files) :=
  ((grown_beginIngest s now).grown_trans (grown_foldl_add rand files _)).grown_trans
    (grown_endIngest _)

theorem grown_addFallback (rand : Nat → String) (files : List (Option File)) (s : State) :
    Grown s (addFallback rand s files) := by
  unfold addFallback
  induction files generalizing s with
  | nil => exact Grown.grown_of_queue_eq rfl
  | cons f fs ih =>
    cases f with
    | none => exact ih s
    | some file => exact (grown_addFileToQueue rand s file).grown_trans (ih _)

theorem grown_handleDropEvent (rand : Nat → String) (s : State) (now : DateTime)
    (dt : DataTransfer) : Grown s (handleDropEvent rand s now dt) := by
  have h1 := (grown_beginIngest s now).grown_trans
    (grown_addFallback rand (fallbackFiles dt) (beginIngest s now))
  unfold handleDropEvent
  dsimp only
  split
  · exact h1.grown_trans (grown_endIngest _)
  · exact h1.grown_trans (Grown.grown_of_queue_eq rfl)

theorem grown_resume (s : State) (stack : List Frame) (rest : List Entry) :
    Grown s (resume s stack rest).1 := by
  unfold resume
  split
  · exact Grown.grown_of_queue_eq rfl
  · exact Grown.grown_of_queue_eq rfl
  · split
    · exact Grown.grown_of_queue_eq rfl
    · exact grown_endIngest s

theorem grown_onCallback (rand : Nat → String) (s : State) (w : Walk)
    {r : State × Option Walk} (hr : onCallback rand s w = some r) : Grown s r.1 := by
  unfold onCallback at hr
  split at hr
  · cases hr; exact (grown_addFileToQueue rand s _).grown_trans (grown_resume _ _ _)
  · cases hr; exact grown_resume _ _ _
  · cases hr; exact grown_resume _ _ _
  · cases hr
  · cases hr; exact grown_resume _ _ _
  · cases hr; exact Grown.grown_of_queue_eq rfl

theorem grown_park (k : Nat) (r : State × Option Walk) : Grown r.1 (park k r) := by
  unfold park
  split <;> exact Grown.grown_of_queue_eq rfl

theorem ident_of_core {q q1 : List Task} (h : q1.map Task.core = q.map Task.core) :
    q1.map Task.ident = q.map Task.ident := by
  have e : ∀ l : List Task,
      l.map Task.ident = (l.map Task.core).map (fun c => (c.1, c.2.1, c.2.2.1)) := by
    intro l; simp [Task.ident, Task.core, Function.comp_def]
  rw [e, e, h]

theorem afterUpload_ident (s : State) :
    (afterUpload s).queue.map Task.ident = s.queue.map Task.ident := by
  unfold afterUpload
  rw [ident_of_core (processQueue_queue_core _), updateUI_queue]

theorem handler_ident (s : State) (i : Nat) (o : Outcome) :
    (o.handler s i).queue.map Task.ident = s.queue.map Task.ident := by
  rw [handler_queue]
  apply map_updateAt
  intro t
  obtain ⟨h1, h2, h3, -⟩ := write_fields o t
  simp [Task.ident, h1, h2, h3]

theorem drop_of_map_eq {β : Type} {q q1 : List Task} {g : Task → β} {new : List β}
    (h : q1.map g = q.map g ++ new) : (q1.drop q.length).map g = new := by
  rw [List.map_drop, h]
  exact List.drop_left' (by simp)

/-- One event appends tasks to the queue and does nothing else to the
identity of its tasks. -/
theorem step_grows (rand : Nat → String) {s s1 : State} (e : Event)
    (hs : step rand s e = some s1) :
    s.queue.map Task.ident <+: s1.queue.map Task.ident ∧
    ∀ t ∈ s1.queue.drop s.queue.length, t.name = t.file.name ∧ t.progress = 0 := by
  have of_grown : ∀ s2 : State, Grown s s2 →
      s.queue.map Task.ident <+: s2.queue.map Task.ident ∧
      ∀ t ∈ s2.queue.drop s.queue.length, t.name = t.file.name ∧ t.progress = 0 := by
    rintro s2 ⟨cs, hcs, hp⟩
    constructor
    · refine ⟨cs.map (fun c => (c.1, c.2.1, c.2.2.1)), ?_⟩
      have e : ∀ l : List Task,
          l.map Task.ident = (l.map Task.core).map (fun c => (c.1, c.2.1, c.2.2.1)) := by
        intro l; simp [Task.ident, Task.core, Function.comp_def]
      rw [e, e, hcs, List.map_append]
    · intro t ht
      have := drop_of_map_eq hcs
      have hm : Task.core t ∈ cs := by
        rw [← this]; exact List.mem_map_of_mem _ ht
      exact hp _ hm
  have of_same : ∀ s2 : State, s2.queue.map Task.ident = s.queue.map Task.ident →
      s.queue.map Task.ident <+: s2.queue.map Task.ident ∧
      ∀ t ∈ s2.queue.drop s.queue.length, t.name = t.file.name ∧ t.progress = 0 := by
    intro s2 h
    constructor
    · rw [h]
    · have hl : s2.queue.length = s.queue.length := by
        have := congrArg List.length h
        simpa using this
      intro t ht
      rw [List.drop_of_length_le (by omega)] at ht
      cases ht
  cases e with
  | login u => cases hs; exact of_same _ rfl
  | navigate v => cases hs; exact of_same _ rfl
  | addFile f => cases hs; exact of_grown _ (grown_addFileToQueue rand s f)
  | dispatch => cases hs; exact of_grown _ (grown_processQueue s)
  | filesInput now files => cases hs; exact of_grown _ (grown_handleFilesInput rand s now files)
  | drop now dt => cases hs; exact of_grown _ (grown_handleDropEvent rand s now dt)
  | fsCallback k =>
    simp only [step] at hs
    cases hw : s.walks[k]? with
    | none => rw [hw] at hs; cases hs
    | some w =>
      rw [hw] at hs
      dsimp only at hs
      cases hc : onCallback rand s w with
      | none => rw [hc] at hs; cases hs
      | some r =>
        rw [hc] at hs
        cases hs
        exact of_grown _ ((grown_onCallback rand s w hc).grown_trans (grown_park k r))
  | progress i ev =>
    simp only [step] at hs
    split_ifs at hs with hg
    cases hs
    apply of_same
    unfold onprogress
    split
    · rw [updateUI_queue]
      exact map_updateAt Task.ident
        (fun t => { t with progress := roundPercent ev.loaded ev.total }) (fun _ => rfl) i s.queue
    · rfl
  | load i status =>
    have hi : i ∈ s.inflight := by
      by_contra hn
      simp [step, hn] at hs
    have h2 := step_outcome rand (Outcome.response status) hi
    rw [show (Outcome.response status).event i = Event.load i status from rfl, hs] at h2
    cases h2
    apply of_same
    rw [afterUpload_ident, handler_ident]
  | error i =>
    have hi : i ∈ s.inflight := by
      by_contra hn
      simp [step, hn] at hs
    have h2 := step_outcome rand Outcome.networkError hi
    rw [show Outcome.networkError.event i = Event.error i from rfl, hs] at h2
    cases h2
    apply of_same
    rw [afterUpload_ident, handler_ident]

/-- Any number of events: the queue at the start is a prefix of the queue at
the end, and every task behind it carries the name of its file. -/
theorem run_grows (rand : Nat → String) (es : List Event) {s s1 : State}
    (hr : run rand s es = some s1) :
    ∃ new : List (String × File × String),
      s1.queue.map Task.ident = s.queue.map Task.ident ++ new ∧
      ∀ c ∈ new, c.2.2 = c.2.1.name := by
  induction es generalizing s with
  | nil => cases hr; exact ⟨[], by simp, by simp⟩
  | cons e es ih =>
    simp only [run] at hr
    cases hs : step rand s e with
    | none => rw [hs] at hr; cases hr
    | some s2 =>
      rw [hs] at hr
      obtain ⟨new2, e2, p2⟩ := ih hr
      obtain ⟨⟨new1, e1⟩, p1⟩ := step_grows rand e hs
      refine ⟨new1 ++ new2, by rw [e2, ← e1, List.append_assoc], ?_⟩
      intro c hc
      rcases List.mem_append.mp hc with h | h
      · have hd := drop_of_map_eq e1.symm
        rw [← hd] at h
        obtain ⟨t, ht, rfl⟩ := List.mem_map.mp h
        exact (p1 t ht).1
      · exact p2 c h

/-- C23: the queue is append-only.  After any sequence of events that starts
in a state `s`, the queue of `s` is a prefix of the new queue as far as
identifier, file and name go: no task has been removed, moved or replaced,
whatever its status, and every task behind that prefix has the name of its
file.  After one event every task behind the prefix also has progress 0.
`addFileToQueue` with a media file puts exactly one task at the end, with the
file, its name and progress 0, and leaves identifier, file, name and progress
of the tasks before it as they were. -/
theorem C23_queue_is_append_only (rand : Nat → String) (s : State) :
    (∀ (es : List Event) (s1 : State), run rand s es = some s1 →
      s.queue.map Task.ident <+: s1.queue.map Task.ident ∧
      ∀ t ∈ s1.queue.drop s.queue.length, t.name = t.file.name) ∧
    (∀ (e : Event) (s1 : State), step rand s e = some s1 →
      ∀ t ∈ s1.queue.drop s.queue.length, t.name = t.file.name ∧ t.progress = 0) ∧
    (∀ f : File, isMedia f.name = true →
      (addFileToQueue rand s f).queue.map Task.core
        = s.queue.map Task.core ++ [(rand s.draws, f, f.name, 0)]) := by
  refine ⟨?_, fun e s1 hs => (step_grows rand e hs).2,
    fun f hf => addFileToQueue_queue_core rand s hf⟩
  intro es s1 hr
  obtain ⟨new, e1, p1⟩ := run_grows rand es hr
  refine ⟨⟨new, e1.symm⟩, ?_⟩
  intro t ht
  have hd := drop_of_map_eq e1
  have : Task.ident t ∈ new := by
    rw [← hd]; exact List.mem_map_of_mem _ ht
  exact p1 _ this

/-! ## C24: an ingest keeps the batch that is open -/

/-- C24: let `batchId` hold an identifier.  If at least one task is pending
or uploading, the two statements that open an ingest leave `batchId` as it is,
`handleFilesInput` returns with the same `batchId`, and so does
`handleDropEvent` when it suspends at its first `await` (or returns, when
there is nothing to traverse).  Whatever the tasks are, one event of any kind
leaves `batchId` as it is or sets it to null: it never goes from one
identifier to another one. -/
theorem C24_ingest_keeps_batch (rand : Nat → String) (s : State) (b : String)
    (hb : s.batchId = some b) (hne : b ≠ "") :
    (0 < openCount s.queue → ∀ (now : DateTime) (files : List File) (dt : DataTransfer),
      (beginIngest s now).batchId = some b ∧
      (handleFilesInput rand s now files).batchId = some b ∧
      (handleDropEvent rand s now dt).batchId = some b) ∧
    (∀ (e : Event) (s1 : State), step rand s e = some s1 →
      s1.batchId = some b ∨ s1.batchId = none) := by
  refine ⟨?_, fun e s1 hs => step_batchId rand e hb hne hs⟩
  intro hopen now files dt
  obtain ⟨hb1, hq1⟩ := beginIngest_of_set hb hne now
  have ho1 : 0 < openCount (beginIngest s now).queue := by rw [hq1]; exact hopen
  refine ⟨hb1, ?_, ?_⟩
  · unfold handleFilesInput
    obtain ⟨h1, h2⟩ := foldl_add_batchId rand files (beginIngest s now)
    rw [endIngest_of_open (by omega), h1, hb1]
  · obtain ⟨h1, h2⟩ := addFallback_batchId rand (fallbackFiles dt) (beginIngest s now)
    unfold handleDropEvent
    dsimp only
    split
    · rw [endIngest_of_open (by omega), h1, hb1]
    · exact h1.trans hb1

/-- C24 at a concrete state: the busy sample manager, whose batch was opened
at 07:08:09 on 5 January 2024. -/
theorem C24_ingest_keeps_batch_witness :
    (sampleBusy.batchId = some "20240105_070809" ∧ "20240105_070809" ≠ "") ∧
    (0 < openCount sampleBusy.queue → ∀ (now : DateTime) (files : List File) (dt : DataTransfer),
      (beginIngest sampleBusy now).batchId = some "20240105_070809" ∧
      (handleFilesInput sampleRand sampleBusy now files).batchId = some "20240105_070809" ∧
      (handleDropEvent sampleRand sampleBusy now dt).batchId = some "20240105_070809") ∧
    (∀ (e : Event) (s1 : State), step sampleRand sampleBusy e = some s1 →
      s1.batchId = some "20240105_070809" ∨ s1.batchId = none) :=
  ⟨⟨by decide, by decide⟩,
    C24_ingest_keeps_batch sampleRand sampleBusy "20240105_070809" (by decide) (by decide)⟩

/-! ## C25: when `updateUI` clears the batch -/

/-- C25: `updateUI` changes `batchId` or calls `refreshViewData` only when no
task is pending or uploading, `gatheringFiles` is false and `batchId` is not
null.  In that case `batchId` becomes null, and `refreshViewData` is called
once if the view is `files` or `photos` and not at all otherwise.  In every
other case the whole state is left as it is.  Queue, `activeUploads`,
`gatheringFiles` and the view are never changed. -/
theorem C25_updateUI_clears_finished_batch (s : State) :
    (((updateUI s).batchId ≠ s.batchId ∨ (updateUI s).refreshes ≠ s.refreshes) →
      openCount s.queue = 0 ∧ s.gatheringFiles = false ∧ s.batchId ≠ none) ∧
    ((openCount s.queue = 0 ∧ s.gatheringFiles = false ∧ s.batchId ≠ none) →
      (updateUI s).batchId = none ∧
      ((s.view = "files" ∨ s.view = "photos") → (updateUI s).refreshes = s.refreshes + 1) ∧
      (¬ (s.view = "files" ∨ s.view = "photos") → (updateUI s).refreshes = s.refreshes)) ∧
    (¬ (openCount s.queue = 0 ∧ s.gatheringFiles = false ∧ s.batchId ≠ none) →
      updateUI s = s) ∧
    ((updateUI s).queue = s.queue ∧ (updateUI s).activeUploads = s.activeUploads ∧
      (updateUI s).gatheringFiles = s.gatheringFiles ∧ (updateUI s).view = s.view) := by
  refine ⟨?_, ?_, updateUI_of_not_done, ⟨by simp, by simp, by simp, by simp⟩⟩
  · intro hch
    by_contra hn
    rw [updateUI_of_not_done hn] at hch
    rcases hch with h | h <;> exact h rfl
  · intro hd
    rw [updateUI_of_done hd]
    refine ⟨rfl, ?_, ?_⟩
    · intro hv
      rw [if_pos hv]
      rfl
    · intro hv
      rw [if_neg hv]

/-! ## C26: identifiers of the tasks -/

theorem IdsDrawn.ids_of_eq {rand : Nat → String} {s s1 : State} (h : IdsDrawn rand s)
    (hq : s1.queue.map Task.core = s.queue.map Task.core) (hd : s1.draws = s.draws) :
    IdsDrawn rand s1 := by
  unfold IdsDrawn at h ⊢
  have e : ∀ l : List Task, l.map Task.id = (l.map Task.core).map (fun c => c.1) := by
    intro l; simp [Task.core, Function.comp_def]
  rw [e, hq, ← e, hd]
  exact h

theorem processQueue_draws (s : State) : (processQueue s).draws = s.draws := by
  rcases processQueue_cases s with he | ⟨next, -, -, he⟩
  · rw [he]
  · rw [he]; simp [claimed]

theorem IdsDrawn.ids_updateUI {rand : Nat → String} {s : State} (h : IdsDrawn rand s) :
    IdsDrawn rand (updateUI s) :=
  h.ids_of_eq (by simp) (by simp)

theorem IdsDrawn.ids_processQueue {rand : Nat → String} {s : State} (h : IdsDrawn rand s) :
    IdsDrawn rand (processQueue s) :=
  h.ids_of_eq (processQueue_queue_core s) (processQueue_draws s)

theorem IdsDrawn.ids_addFileToQueue {rand : Nat → String} {s : State} (h : IdsDrawn rand s)
    (f : File) : IdsDrawn rand (addFileToQueue rand s f) := by
  by_cases hm : isMedia f.name = true
  · have hq := addFileToQueue_queue_core rand s hm
    have hd : (addFileToQueue rand s f).draws = s.draws + 1 := by
      rw [addFileToQueue_of_media rand s hm, processQueue_draws, updateUI_draws]
    unfold IdsDrawn at h ⊢
    have e : ∀ l : List Task, l.map Task.id = (l.map Task.core).map (fun c => c.1) := by
      intro l; simp [Task.core, Function.comp_def]
    rw [e, hq, hd, List.map_append, ← e, h, List.range_succ, List.map_append]
    rfl
  · rw [addFileToQueue_of_not_media rand s (by simpa using hm)]
    exact h

theorem IdsDrawn.ids_beginIngest {rand : Nat → String} {s : State} (h : IdsDrawn rand s)
    (now : DateTime) : IdsDrawn rand (beginIngest s now) := by
  unfold beginIngest setNewBatchId
  dsimp only
  split_ifs <;> exact h.ids_of_eq rfl rfl

theorem IdsDrawn.ids_endIngest {rand : Nat → String} {s : State} (h : IdsDrawn rand s) :
    IdsDrawn rand (endIngest s) := by
  unfold endIngest
  have h0 : IdsDrawn rand { s with gatheringFiles := false } := h.ids_of_eq rfl rfl
  exact h0.ids_processQueue.ids_updateUI

theorem IdsDrawn.ids_foldl_add {rand : Nat → String} (files : List File) {s : State}
    (h : IdsDrawn rand s) : IdsDrawn rand (files.foldl (addFileToQueue rand) s) := by
  induction files generalizing s with
  | nil => exact h
  | cons f fs ih => exact ih (h.ids_addFileToQueue f)

theorem IdsDrawn.ids_addFallback {rand : Nat → String} (files : List (Option File)) {s : State}
    (h : IdsDrawn rand s) : IdsDrawn rand (addFallback rand s files) := by
  unfold addFallback
  induction files generalizing s with
  | nil => exact h
  | cons f fs ih =>
    cases f with
    | none => exact ih h
    | some file => exact ih (h.ids_addFileToQueue file)

theorem IdsDrawn.ids_handleDropEvent {rand : Nat → String} {s : State} (h : IdsDrawn rand s)
    (now : DateTime) (dt : DataTransfer) : IdsDrawn rand (handleDropEvent rand s now dt) := by
  have h1 := (h.ids_beginIngest now).ids_addFallback (fallbackFiles dt)
  unfold handleDropEvent
  dsimp only
  split
  · exact h1.ids_endIngest
  · exact h1.ids_of_eq rfl rfl

theorem IdsDrawn.ids_resume {rand : Nat → String} {s : State} (h : IdsDrawn rand s)
    (stack : List Frame) (rest : List Entry) : IdsDrawn rand (resume s stack rest).1 := by
  unfold resume
  split
  · exact h
  · exact h
  · split
    · exact h
    · exact h.ids_endIngest

theorem IdsDrawn.ids_onCallback {rand : Nat → String} {s : State} (h : IdsDrawn rand s)
    (w : Walk) {r : State × Option Walk} (hr : onCallback rand s w = some r) :
    IdsDrawn rand r.1 := by
  unfold onCallback at hr
  split at hr
  · cases hr; exact (h.ids_addFileToQueue _).ids_resume _ _
  · cases hr; exact h.ids_resume _ _
  · cases hr; exact h.ids_resume _ _
  · cases hr
  · cases hr; exact h.ids_resume _ _
  · cases hr; exact h

theorem IdsDrawn.ids_park {rand : Nat → String} {r : State × Option Walk}
    (h : IdsDrawn rand r.1) (k : Nat) : IdsDrawn rand (park k r) := by
  unfold park
  split <;> exact h.ids_of_eq rfl rfl

theorem IdsDrawn.ids_updateAt {rand : Nat → String} {s s1 : State} (h : IdsDrawn rand s)
    (f : Task → Task) (i : Nat) (hf : ∀ t, (f t).id = t.id)
    (hq : s1.queue = updateAt f i s.queue) (hd : s1.draws = s.draws) : IdsDrawn rand s1 := by
  unfold IdsDrawn at h ⊢
  rw [hq, hd, map_updateAt Task.id f hf]
  exact h

theorem afterUpload_draws (s : State) : (afterUpload s).draws = s.draws := by
  unfold afterUpload
  rw [processQueue_draws, updateUI_draws]

theorem IdsDrawn.ids_afterUpload {rand : Nat → String} {s : State} (h : IdsDrawn rand s) :
    IdsDrawn rand (afterUpload s) := by
  unfold afterUpload
  have h0 : IdsDrawn rand { s with activeUploads := s.activeUploads - 1 } := h.ids_of_eq rfl rfl
  exact h0.ids_updateUI.ids_processQueue

theorem handler_draws (s : State) (i : Nat) (o : Outcome) : (o.handler s i).draws = s.draws := by
  cases o with
  | response status => simp only [Outcome.handler, onload]; split <;> rfl
  | networkError => rfl

theorem IdsDrawn.ids_step {rand : Nat → String} {s s1 : State} (h : IdsDrawn rand s) (e : Event)
    (hs : step rand s e = some s1) : IdsDrawn rand s1 := by
  cases e with
  | login u => cases hs; exact h.ids_of_eq rfl rfl
  | navigate v => cases hs; exact h.ids_of_eq rfl rfl
  | addFile f => cases hs; exact h.ids_addFileToQueue f
  | dispatch => cases hs; exact h.ids_processQueue
  | filesInput now files =>
    cases hs
    exact ((h.ids_beginIngest now).ids_foldl_add files).ids_endIngest
  | drop now dt => cases hs; exact h.ids_handleDropEvent now dt
  | fsCallback k =>
    simp only [step] at hs
    cases hw : s.walks[k]? with
    | none => rw [hw] at hs; cases hs
    | some w =>
      rw [hw] at hs
      dsimp only at hs
      cases hc : onCallback rand s w with
      | none => rw [hc] at hs; cases hs
      | some r =>
        rw [hc] at hs
        cases hs
        exact (h.ids_onCallback w hc).ids_park k
  | progress i ev =>
    simp only [step] at hs
    split_ifs at hs with hg
    cases hs
    unfold onprogress
    split
    · apply IdsDrawn.ids_updateUI
      exact h.ids_updateAt (fun t => { t with progress := roundPercent ev.loaded ev.total }) i
        (fun _ => rfl) rfl rfl
    · exact h
  | load i status =>
    have hi : i ∈ s.inflight := by
      by_contra hn
      simp [step, hn] at hs
    have h2 := step_outcome rand (Outcome.response status) hi
    rw [show (Outcome.response status).event i = Event.load i status from rfl, hs] at h2
    cases h2
    apply IdsDrawn.ids_afterUpload
    exact IdsDrawn.ids_updateAt (h.ids_of_eq rfl rfl) (Outcome.response status).write i
      (fun t => (write_fields _ t).1) (handler_queue _ i _) (handler_draws _ i _)
  | error i =>
    have hi : i ∈ s.inflight := by
      by_contra hn
      simp [step, hn] at hs
    have h2 := step_outcome rand Outcome.networkError hi
    rw [show Outcome.networkError.event i = Event.error i from rfl, hs] at h2
    cases h2
    apply IdsDrawn.ids_afterUpload
    exact IdsDrawn.ids_updateAt (h.ids_of_eq rfl rfl) Outcome.networkError.write i
      (fun t => (write_fields _ t).1) (handler_queue _ i _) (handler_draws _ i _)

theorem IdsDrawn.ids_of_reachable {rand : Nat → String} {view : String} {s : State}
    (h : Reachable rand view s) : IdsDrawn rand s := by
  induction h with
  | init => simp [IdsDrawn, UploadManager.init]
  | step e _ hs ih => exact ih.ids_step e hs

theorem sampleTwins_reachable : Reachable sampleRepeat "files" sampleTwins :=
  Reachable.step (Event.filesInput sampleTime (samplePhotos 2))
    (Reachable.step (Event.login sampleUser) Reachable.init rfl) rfl

/-- C26, the code at a failing input: the random source yields the same
identifier twice (nothing in `addFileToQueue` looks at the identifiers already
in the queue), the user picks two photos, and both tasks get the identifier
`i`. -/
theorem C26_equal_draws_give_equal_ids :
    Reachable sampleRepeat "files" sampleTwins ∧
    sampleTwins.queue.map Task.id = ["i", "i"] ∧
    sampleTwins.queue.map Task.name = ["p0.JPG", "p1.JPG"] ∧
    ¬ (sampleTwins.queue.map Task.id).Nodup :=
  ⟨sampleTwins_reachable, by decide, by decide, by decide⟩

/-- C26 as amended: in every reachable state the identifiers in the queue
are, in queue order, the identifiers generated at the successive enqueues, one
call of `Math.random` per task: the task at position `k` carries the
identifier generated by call `k`, and an event never changes the identifier
of a task.  So two tasks share an identifier exactly when the same identifier
was generated for both, and the identifiers in the queue are pairwise distinct
exactly when the generated identifiers are. -/
theorem C26_ids_are_the_generated_identifiers (rand : Nat → String) (view : String) (s : State)
    (h : Reachable rand view s) :
    s.queue.map Task.id = (List.range s.draws).map rand ∧ s.queue.length = s.draws ∧
    (∀ (k : Nat) (t : Task), s.queue[k]? = some t → t.id = rand k) ∧
    (∀ (j k : Nat) (tj tk : Task), s.queue[j]? = some tj → s.queue[k]? = some tk →
      (tj.id = tk.id ↔ rand j = rand k)) ∧
    ((s.queue.map Task.id).Nodup ↔
      ∀ j, j < s.draws → ∀ k, k < s.draws → rand j = rand k → j = k) ∧
    (∀ (e : Event) (s1 : State), step rand s e = some s1 →
      ∀ (k : Nat) (t : Task), s.queue[k]? = some t →
        ∃ t1, s1.queue[k]? = some t1 ∧ t1.id = t.id) := by
  have hi : IdsDrawn rand s := IdsDrawn.ids_of_reachable h
  unfold IdsDrawn at hi
  have hlen : s.queue.length = s.draws := by
    have := congrArg List.length hi
    simpa using this
  have hpos : ∀ (k : Nat) (t : Task), s.queue[k]? = some t → t.id = rand k := by
    intro k t hk
    have hlt : k < s.draws := by
      rw [← hlen]
      rcases Nat.lt_or_ge k s.queue.length with hlt | hge
      · exact hlt
      · rw [List.getElem?_eq_none hge] at hk; cases hk
    have h1 : (s.queue.map Task.id)[k]? = some t.id := by
      rw [List.getElem?_map, hk]; rfl
    rw [hi, List.getElem?_map, List.getElem?_range hlt] at h1
    simpa using h1.symm
  refine ⟨hi, hlen, hpos, ?_, ?_, ?_⟩
  · intro j k tj tk hj hk
    rw [hpos j tj hj, hpos k tk hk]
  · rw [hi]
    constructor
    · intro hnd j hj k hk hjk
      exact List.inj_on_of_nodup_map hnd (List.mem_range.mpr hj) (List.mem_range.mpr hk) hjk
    · intro hd
      apply List.Nodup.map_on
      · intro j hj k hk hjk
        exact hd j (List.mem_range.mp hj) k (List.mem_range.mp hk) hjk
      · exact List.nodup_range _
  · intro e s1 hs k t hk
    obtain ⟨new, hnew⟩ := (step_grows rand e hs).1
    have hlt : k < s.queue.length := by
      rcases Nat.lt_or_ge k s.queue.length with hlt | hge
      · exact hlt
      · rw [List.getElem?_eq_none hge] at hk; cases hk
    have h1 : (s1.queue.map Task.ident)[k]? = some (Task.ident t) := by
      rw [← hnew, List.getElem?_append_left (by simpa using hlt), List.getElem?_map, hk]
      rfl
    rw [List.getElem?_map] at h1
    cases hq : s1.queue[k]? with
    | none => rw [hq] at h1; cases h1
    | some t1 =>
      rw [hq] at h1
      refine ⟨t1, rfl, ?_⟩
      have : Task.ident t1 = Task.ident t := by simpa using h1
      exact congrArg (fun c => c.1) this

/-- The amended C26 at a concrete state: the busy sample manager, whose five
identifiers `id0` to `id4` were generated by five calls. -/
theorem C26_ids_are_the_generated_identifiers_witness :
    Reachable sampleRand "files" sampleBusy ∧
    sampleBusy.queue.map Task.id = ["id0", "id1", "id2", "id3", "id4"] ∧
    sampleBusy.queue.map Task.id = (List.range sampleBusy.draws).map sampleRand ∧
    ((sampleBusy.queue.map Task.id).Nodup ↔
      ∀ j, j < sampleBusy.draws → ∀ k, k < sampleBusy.draws →
        sampleRand j = sampleRand k → j = k) :=
  ⟨sampleBusy_reachable, by decide,
    (C26_ids_are_the_generated_identifiers sampleRand "files" sampleBusy
      sampleBusy_reachable).1,
    (C26_ids_are_the_generated_identifiers sampleRand "files" sampleBusy
      sampleBusy_reachable).2.2.2.2.1⟩

/-! ## C27: what the tab shows at a suspension point -/

theorem updateUIPage_manager (p : Page) : (updateUIPage p).manager = updateUI p.manager := rfl

theorem processQueuePage_manager (p : Page) :
    (processQueuePage p).manager = processQueue p.manager := by
  unfold processQueuePage processQueue
  split_ifs
  · rfl
  · split <;> rfl

theorem addFileToQueuePage_manager (rand : Nat → String) (p : Page) (f : File) :
    (addFileToQueuePage rand p f).manager = addFileToQueue rand p.manager f := by
  unfold addFileToQueuePage addFileToQueue
  split_ifs
  · rfl
  · rw [processQueuePage_manager]
    rfl

theorem addFallbackPage_manager (rand : Nat → String) (files : List (Option File)) (p : Page) :
    (addFallbackPage rand p files).manager = addFallback rand p.manager files := by
  unfold addFallbackPage addFallback
  induction files generalizing p with
  | nil => rfl
  | cons f fs ih =>
    cases f with
    | none => exact ih p
    | some file =>
      simp only [List.foldl_cons]
      rw [ih, addFileToQueuePage_manager]

theorem endIngestPage_manager (p : Page) : (endIngestPage p).manager = endIngest p.manager := by
  unfold endIngestPage endIngest
  rw [updateUIPage_manager, processQueuePage_manager]

/-- The manager on the page does what the manager alone does. -/
theorem handleDropEventPage_manager (rand : Nat → String) (p : Page) (now : DateTime)
    (dt : DataTransfer) :
    (handleDropEventPage rand p now dt).manager = handleDropEvent rand p.manager now dt := by
  unfold handleDropEventPage handleDropEvent
  dsimp only
  split
  · rw [endIngestPage_manager, addFallbackPage_manager]
  · simp only [addFallbackPage_manager]

/-- C27, the code at a failing run: the Uploads tab is open and up to date,
and the sample user drops the directory `album`.  `handleDropEvent` sets
`gatheringFiles` and `batchId` and suspends at `await this.traverseFileTree`
without a call of `updateUI` in between: at this suspension point the tab is
what it was, with an empty header, while a call of `updateUI` would show
`Scanning directories...`. -/
theorem C27_drop_suspends_with_stale_tab :
    samplePage.tab = updateTabUI samplePage.manager samplePage.tab ∧
    (handleDropEventPage sampleRand samplePage sampleTime sampleDrop).manager
      = handleDropEvent sampleRand samplePage.manager sampleTime sampleDrop ∧
    (handleDropEventPage sampleRand samplePage sampleTime sampleDrop).manager.walks.length = 1 ∧
    samplePage.manager.gatheringFiles = false ∧
    (handleDropEventPage sampleRand samplePage sampleTime sampleDrop).manager.gatheringFiles
      = true ∧
    samplePage.manager.batchId = none ∧
    (handleDropEventPage sampleRand samplePage sampleTime sampleDrop).manager.batchId
      = some "20240105_070809" ∧
    (handleDropEventPage sampleRand samplePage sampleTime sampleDrop).tab = samplePage.tab ∧
    (handleDropEventPage sampleRand samplePage sampleTime sampleDrop).tab
      = some { header := some "", rows := [] } ∧
    (updateUIPage (handleDropEventPage sampleRand samplePage sampleTime sampleDrop)).tab
      = some { header := some "Scanning directories...", rows := [] } :=
  ⟨by decide, handleDropEventPage_manager _ _ _ _, by decide, by decide, by decide, by decide,
    by decide, by decide, by decide, by decide⟩

/-! ## C28: the counter `activeUploads` -/

/-- C28: in every state the page can be in between two events,
`0 ≤ activeUploads ≤ maxConcurrent`, and `activeUploads` is exactly the number
of uploading tasks, so it is 0 when no task is pending or uploading.  In the
state between a completion handler (`onload` or `onerror` of an open request)
and the continuation of `processQueue`, the counter is still within
`0..maxConcurrent` and exceeds the number of uploading tasks by the one that
has just finished. -/
theorem C28_counter_counts_uploading (rand : Nat → String) (view : String) (s : State)
    (h : Reachable rand view s) :
    (0 ≤ s.activeUploads ∧ s.activeUploads ≤ s.maxConcurrent ∧
      (uploadingCount s.queue : Int) ≤ s.activeUploads) ∧
    s.activeUploads = (uploadingCount s.queue : Int) ∧
    (openCount s.queue = 0 → s.activeUploads = 0) ∧
    (∀ (i : Nat) (o : Outcome), i ∈ s.inflight →
      0 ≤ (o.handler { s with inflight := s.inflight.erase i } i).activeUploads ∧
      (o.handler { s with inflight := s.inflight.erase i } i).activeUploads
        ≤ (o.handler { s with inflight := s.inflight.erase i } i).maxConcurrent ∧
      (o.handler { s with inflight := s.inflight.erase i } i).activeUploads
        = (uploadingCount (o.handler { s with inflight := s.inflight.erase i } i).queue : Int)
          + 1) := by
  have hb := Balanced.bal_of_reachable h
  have hi := Inv.of_reachable h
  have ha := hb.active_eq
  have hle := hi.active_le
  have ho := openCount_eq_add s.queue
  refine ⟨⟨by omega, hle, by omega⟩, ha, by omega, ?_⟩
  intro i o hin
  obtain ⟨hu, -, hact, hm⟩ := handler_counts hi hin o
  rw [hact, hm]
  refine ⟨by omega, hle, by omega⟩

/-- C28 at a concrete state: the busy sample manager. -/
theorem C28_counter_counts_uploading_witness :
    Reachable sampleRand "files" sampleBusy ∧ sampleBusy.activeUploads = 3 ∧
    sampleBusy.activeUploads = (uploadingCount sampleBusy.queue : Int) :=
  ⟨sampleBusy_reachable, by decide,
    (C28_counter_counts_uploading sampleRand "files" sampleBusy sampleBusy_reachable).2.1⟩

/-! ## C29: the guards of the drop listener -/

/-- C29: the `drop` listener of the document reaches `handleDropEvent` exactly
when a user is logged in, the role of that user is not `guest`, and the target
is not an element inside `.upload-dropzone`; it then does what
`handleDropEvent` does.  In every other case it leaves the whole state as it
is, so queue, `batchId` and `gatheringFiles` are unchanged. -/
theorem C29_drop_listener_guards (rand : Nat → String) (s : State) (now : DateTime)
    (target : DropTarget) (dt : DataTransfer) :
    ((onDrop rand s now target dt).1 = true ↔
      ((∃ u, s.user = some u ∧ u.role ≠ "guest") ∧ inDropzone target = false)) ∧
    ((onDrop rand s now target dt).1 = true →
      (onDrop rand s now target dt).2 = handleDropEvent rand s now dt) ∧
    ((onDrop rand s now target dt).1 = false →
      (onDrop rand s now target dt).2 = s ∧
      (onDrop rand s now target dt).2.queue = s.queue ∧
      (onDrop rand s now target dt).2.batchId = s.batchId ∧
      (onDrop rand s now target dt).2.gatheringFiles = s.gatheringFiles) := by
  unfold onDrop
  cases hz : inDropzone target with
  | true => simp
  | false =>
    cases hu : s.user with
    | none => simp
    | some u =>
      by_cases hg : u.role = "guest"
      · simp [hg]
      · simp [hg]

/-- What the listener does in four sample cases: a user drops outside the
dropzone and the handler runs; a user drops inside the dropzone, a guest
drops, or nobody is logged in, and nothing changes. -/
theorem drop_listener_samples :
    (onDrop sampleRand sampleLoggedIn sampleTime sampleOutside sampleDrop).1 = true ∧
    (onDrop sampleRand sampleLoggedIn sampleTime sampleOutside sampleDrop).2.gatheringFiles
      = true ∧
    (onDrop sampleRand sampleLoggedIn sampleTime sampleInside sampleDrop).1 = false ∧
    (onDrop sampleRand sampleGuest sampleTime sampleOutside sampleDrop).1 = false ∧
    (onDrop sampleRand (init "files") sampleTime sampleOutside sampleDrop).1 = false := by
  decide

/-! ## C30: `parseImagePath` -/

theorem splitSlash_ne_nil (l : List Char) : splitSlash l ≠ [] := by
  induction l with
  | nil => simp [splitSlash]
  | cons c cs ih =>
    simp only [splitSlash]
    split_ifs
    · simp
    · cases h : splitSlash cs with
      | nil => exact absurd h ih
      | cons p ps => simp

theorem joinSlash_cons (p : List Char) {ps : List (List Char)} (h : ps ≠ []) :
    joinSlash (p :: ps) = p ++ '/' :: joinSlash ps := by
  cases ps with
  | nil => exact absurd rfl h
  | cons q qs => rfl

/-- Joining the segments of a string gives the string back. -/
theorem joinSlash_splitSlash (l : List Char) : joinSlash (splitSlash l) = l := by
  induction l with
  | nil => rfl
  | cons c cs ih =>
    simp only [splitSlash]
    split_ifs with hc
    · rw [joinSlash_cons _ (splitSlash_ne_nil cs), ih, hc]
      rfl
    · cases h : splitSlash cs with
      | nil => exact absurd h (splitSlash_ne_nil cs)
      | cons p ps =>
        rw [h] at ih
        cases ps with
        | nil =>
          simp only [joinSlash] at ih ⊢
          rw [ih]
        | cons q qs =>
          simp only [joinSlash] at ih ⊢
          rw [← ih]
          rfl

theorem joinSlash_eq_nil {ps : List (List Char)} :
    joinSlash ps = [] ↔ ps = [] ∨ ps = [[]] := by
  constructor
  · intro h
    cases ps with
    | nil => exact Or.inl rfl
    | cons p qs =>
      cases qs with
      | nil =>
        right
        simp only [joinSlash] at h
        rw [h]
      | cons q rs =>
        simp only [joinSlash] at h
        simp at h
  · rintro (h | h) <;> rw [h] <;> rfl

theorem parseImagePath_of_files {s : State} {u : User} (hu : s.user = some u)
    {dirPath : String} {device : List Char} {rest : List (List Char)}
    (h : splitSlash dirPath.toList = device :: "files".toList :: rest) (filename : String) :
    parseImagePath s dirPath filename = Except.ok (some {
      url := String.mk ("/resource/image/".toList ++ u.userid.toList ++ '/' :: device ++ '/' ::
        (if joinSlash rest ≠ [] then joinSlash rest ++ '/' :: filename.toList
          else filename.toList)),
      path := String.mk (device ++ "/files/".toList ++
        (if joinSlash rest ≠ [] then joinSlash rest ++ '/' :: filename.toList
          else filename.toList)) }) := by
  unfold parseImagePath
  rw [h]
  simp only [if_true, hu]

theorem parseImagePath_of_other (s : State) {dirPath : String}
    (h : ∀ device rest, splitSlash dirPath.toList ≠ device :: "files".toList :: rest)
    (filename : String) : parseImagePath s dirPath filename = Except.ok none := by
  unfold parseImagePath
  split
  · rename_i device second rest hsplit
    split_ifs with hsec
    · exact absurd (by rw [hsplit, hsec]) (h device rest)
    · rfl
  · rfl

/-- C30, the code at a failing input: the directory path `phone/files/` has
`files` as its second segment, and for the file `a.jpg` the function returns
the path `phone/files/a.jpg`, which is not `dirPath + '/' + filename`
(`phone/files//a.jpg`). -/
theorem C30_trailing_slash_path :
    splitSlash "phone/files/".toList = ["phone".toList, "files".toList, []] ∧
    parseImagePath sampleLoggedIn "phone/files/" "a.jpg"
      = Except.ok (some { url := "/resource/image/u1/phone/a.jpg", path := "phone/files/a.jpg" }) ∧
    specImagePath "phone/files/" "a.jpg" = "phone/files//a.jpg" ∧
    "phone/files/a.jpg" ≠ specImagePath "phone/files/" "a.jpg" :=
  ⟨rfl, rfl, by decide, by decide⟩

/-- C30 as amended: with a user logged in, for every `dirPath` whose second
`/`-separated segment is `files` and every file name, `parseImagePath` returns
an object.  Its path is the device (the first segment), `/files/` and a tail,
and its url is `/resource/image/<userid>/<device>/` followed by the same tail.
The path equals `dirPath + '/' + filename`, except when `dirPath` is the
device followed by `/files/` (one empty segment behind `files`), where it is
`dirPath + filename`.  For every other `dirPath` the function returns
`null`. -/
theorem C30_parseImagePath_result (s : State) (u : User) (dirPath filename : String)
    (hu : s.user = some u) :
    (∀ (device : List Char) (rest : List (List Char)),
      splitSlash dirPath.toList = device :: "files".toList :: rest →
      ∃ (r : ImagePath) (tail : String),
        parseImagePath s dirPath filename = Except.ok (some r) ∧
        r.path = String.mk device ++ "/files/" ++ tail ∧
        r.url = "/resource/image/" ++ u.userid ++ "/" ++ String.mk device ++ "/" ++ tail ∧
        (rest ≠ [[]] → r.path = specImagePath dirPath filename) ∧
        (rest = [[]] → r.path = dirPath ++ filename)) ∧
    ((∀ (device : List Char) (rest : List (List Char)),
        splitSlash dirPath.toList ≠ device :: "files".toList :: rest) →
      parseImagePath s dirPath filename = Except.ok none) := by
  refine ⟨?_, fun h => parseImagePath_of_other s h filename⟩
  intro device rest hsplit
  have hdir : dirPath.data = joinSlash (device :: "files".toList :: rest) := by
    have := joinSlash_splitSlash dirPath.toList
    rw [hsplit] at this
    exact this.symm
  refine ⟨_, String.mk (if joinSlash rest ≠ [] then joinSlash rest ++ '/' :: filename.toList
    else filename.toList), parseImagePath_of_files hu hsplit filename, ?_, ?_, ?_, ?_⟩
  · apply String.ext
    simp
  · apply String.ext
    simp
  · intro hne
    apply String.ext
    simp only [specImagePath, String.data_append, hdir]
    by_cases hj : joinSlash rest = []
    · have hrest : rest = [] := by
        rcases joinSlash_eq_nil.mp hj with h | h
        · exact h
        · exact absurd h hne
      subst hrest
      simp [joinSlash]
    · have hrest : rest ≠ [] := fun h => hj (by rw [h]; rfl)
      have h1 : joinSlash (device :: "files".toList :: rest)
          = device ++ '/' :: ("files".toList ++ '/' :: joinSlash rest) := by
        rw [joinSlash_cons device (by simp), joinSlash_cons _ hrest]
      rw [h1]
      simp [hj]
  · intro he
    subst he
    apply String.ext
    simp only [String.data_append, hdir]
    simp [joinSlash]

/-- The amended C30 at a concrete input: a file in a subdirectory. -/
theorem C30_parseImagePath_result_witness :
    sampleLoggedIn.user = some sampleUser ∧
    (∀ (device : List Char) (rest : List (List Char)),
      splitSlash "phone/files/trip".toList = device :: "files".toList :: rest →
      ∃ (r : ImagePath) (tail : String),
        parseImagePath sampleLoggedIn "phone/files/trip" "a.jpg" = Except.ok (some r) ∧
        r.path = String.mk device ++ "/files/" ++ tail ∧
        r.url = "/resource/image/" ++ sampleUser.userid ++ "/" ++ String.mk device ++ "/" ++ tail ∧
        (rest ≠ [[]] → r.path = specImagePath "phone/files/trip" "a.jpg") ∧
        (rest = [[]] → r.path = "phone/files/trip" ++ "a.jpg")) ∧
    ((∀ (device : List Char) (rest : List (List Char)),
        splitSlash "phone/files/trip".toList ≠ device :: "files".toList :: rest) →
      parseImagePath sampleLoggedIn "phone/files/trip" "a.jpg" = Except.ok none) :=
  ⟨rfl, C30_parseImagePath_result sampleLoggedIn sampleUser "phone/files/trip" "a.jpg" rfl⟩

/-- What `parseImagePath` returns in four sample cases. -/
theorem parseImagePath_samples :
    parseImagePath sampleLoggedIn "phone/files" "a.jpg"
      = Except.ok (some { url := "/resource/image/u1/phone/a.jpg", path := "phone/files/a.jpg" }) ∧
    parseImagePath sampleLoggedIn "phone/files/trip" "a.jpg"
      = Except.ok (some { url := "/resource/image/u1/phone/trip/a.jpg",
                          path := "phone/files/trip/a.jpg" }) ∧
    parseImagePath sampleLoggedIn "phone/photos/trip" "a.jpg" = Except.ok none ∧
    parseImagePath sampleLoggedIn "files" "a.jpg" = Except.ok none :=
  ⟨rfl, rfl, rfl, rfl⟩

end UploadManager
